import Mathlib

/-!
# Verification of the runtime-enforcer policy resolver

This file is a shallow embedding, in Lean 4, of the policy-resolver core of
the `runtime-enforcer` agent, together with proofs about it:

* the resolver state (workload-policy records, pod/container cache, reverse
  cgroup index) and the three kernel maps (`policy_values`, `policy_mode`,
  `cgroup_to_policy`), with the resolver operations `handleWPAdd`,
  `handleWPUpdate`, `handleWPDelete` and the container-start handler,
  instrumented to also return the trace of kernel-map mutations they perform;
* the cgroup path parser (`ParseCgroupsPath` / `SystemdExpandSlice`);
* the cgroup-v1 controller scanner (`findInterestingControllerV1`);
* the log rate limiter (`logRateLimiter.logEvent`);
* the cgroup→kube-metadata query (`GetKubeInfo`).

Go maps are embedded as association lists queried through `lookupA`; all
properties of interest are stated through lookups, so the list representation
is immaterial.  Machine integers (policy IDs, cgroup IDs) are embedded as
`Nat`: the source only ever increments a fresh-ID counter and compares IDs.
Components whose implementation lives outside the available sources (the BPF
map facade semantics, the container-start entry point, the pod selector) are
modelled from the specification and marked as such in their doc comments.
-/

/-! ## Association lists (embedding of Go maps) -/

/-- Lookup in an association list; embeds Go map indexing `m[k]`. -/
def lookupA {α β : Type} [DecidableEq α] : List (α × β) → α → Option β
  | [], _ => none
  | (k, v) :: r, a => if a = k then some v else lookupA r a

/-- Remove a key; embeds Go `delete(m, k)`. -/
def eraseA {α β : Type} [DecidableEq α] : List (α × β) → α → List (α × β)
  | [], _ => []
  | (k', v') :: r, k => if k' = k then eraseA r k else (k', v') :: eraseA r k

/-- Insert / overwrite a key; embeds Go map assignment `m[k] = v`. -/
def insertA {α β : Type} [DecidableEq α] (m : List (α × β)) (k : α) (v : β) : List (α × β) :=
  (k, v) :: eraseA m k

/-- The keys of an association list. -/
def keysA {α β : Type} (m : List (α × β)) : List α := m.map Prod.fst

theorem lookupA_eraseA {α β : Type} [DecidableEq α] (m : List (α × β)) (k a : α) :
    lookupA (eraseA m k) a = if a = k then none else lookupA m a := by
  induction m with
  | nil => simp [eraseA, lookupA]
  | cons p r ih =>
    obtain ⟨k', v'⟩ := p
    simp only [eraseA]
    by_cases hk : k' = k
    · subst hk
      rw [if_pos rfl, ih]
      by_cases ha : a = k' <;> simp [lookupA, ha]
    · rw [if_neg hk]
      by_cases ha : a = k'
      · subst ha
        have : ¬a = k := fun h => hk (h ▸ rfl)
        simp [lookupA, ih, this]
      · simp [lookupA, ha, ih]

theorem lookupA_insertA {α β : Type} [DecidableEq α] (m : List (α × β)) (k a : α) (v : β) :
    lookupA (insertA m k v) a = if a = k then some v else lookupA m a := by
  simp only [insertA, lookupA, lookupA_eraseA]
  by_cases h : a = k <;> simp [h]

theorem eraseA_of_lookupA_eq_none {α β : Type} [DecidableEq α] (m : List (α × β)) (k : α)
    (h : lookupA m k = none) : eraseA m k = m := by
  induction m with
  | nil => rfl
  | cons p r ih =>
    obtain ⟨k', v'⟩ := p
    simp only [lookupA] at h
    by_cases hk : k = k'
    · simp [hk] at h
    · rw [if_neg hk] at h
      have hk' : ¬k' = k := fun hh => hk hh.symm
      simp only [eraseA, ih h, if_neg hk']

theorem lookupA_eq_none_of_not_mem_keysA {α β : Type} [DecidableEq α]
    (m : List (α × β)) (k : α) (h : k ∉ keysA m) : lookupA m k = none := by
  induction m with
  | nil => rfl
  | cons p r ih =>
    simp only [keysA, List.map_cons, List.mem_cons, not_or] at h
    simp only [lookupA]
    rw [if_neg h.1]
    exact ih h.2

theorem mem_of_lookupA_eq_some {α β : Type} [DecidableEq α]
    {m : List (α × β)} {k : α} {v : β} (h : lookupA m k = some v) : (k, v) ∈ m := by
  induction m with
  | nil => simp [lookupA] at h
  | cons p r ih =>
    obtain ⟨k', v'⟩ := p
    simp only [lookupA] at h
    by_cases hk : k = k'
    · rw [if_pos hk] at h
      obtain rfl : v' = v := Option.some.inj h
      subst hk
      exact List.mem_cons_self _ _
    · rw [if_neg hk] at h
      exact List.mem_cons_of_mem _ (ih h)

theorem keysA_mem_of_lookupA_eq_some {α β : Type} [DecidableEq α]
    {m : List (α × β)} {k : α} {v : β} (h : lookupA m k = some v) : k ∈ keysA m :=
  List.mem_map_of_mem Prod.fst (mem_of_lookupA_eq_some h)

theorem eraseA_sublist {α β : Type} [DecidableEq α] (m : List (α × β)) (k : α) :
    (eraseA m k).Sublist m := by
  induction m with
  | nil => exact List.Sublist.refl _
  | cons p r ih =>
    obtain ⟨k', v'⟩ := p
    simp only [eraseA]
    by_cases hk : k' = k
    · rw [if_pos hk]; exact ih.cons _
    · rw [if_neg hk]; exact ih.cons₂ _

theorem keysA_sublist_of_sublist {α β : Type} {m m' : List (α × β)}
    (h : m'.Sublist m) : (keysA m').Sublist (keysA m) := h.map Prod.fst

theorem lookupA_eq_some_of_mem_nodup {α β : Type} [DecidableEq α]
    {m : List (α × β)} {k : α} {v : β} (hmem : (k, v) ∈ m) (hnd : (keysA m).Nodup) :
    lookupA m k = some v := by
  induction m with
  | nil => simp at hmem
  | cons p r ih =>
    obtain ⟨k', v'⟩ := p
    simp only [keysA, List.map_cons, List.nodup_cons] at hnd
    rcases List.mem_cons.mp hmem with h | h
    · obtain ⟨rfl, rfl⟩ := Prod.mk.injEq .. ▸ h
      simp [lookupA]
    · have hk : k ≠ k' := by
        rintro rfl
        exact hnd.1 (List.mem_map_of_mem Prod.fst h)
      simp only [lookupA, if_neg hk]
      exact ih h hnd.2

theorem not_mem_keysA_eraseA {α β : Type} [DecidableEq α] (m : List (α × β)) (k : α) :
    k ∉ keysA (eraseA m k) := by
  induction m with
  | nil => simp [eraseA, keysA]
  | cons p r ih =>
    obtain ⟨k', v'⟩ := p
    simp only [eraseA]
    by_cases hk : k' = k
    · rw [if_pos hk]; exact ih
    · rw [if_neg hk]
      simp only [keysA, List.map_cons, List.mem_cons, not_or]
      exact ⟨fun h => hk h.symm, ih⟩

theorem keysA_insertA_nodup {α β : Type} [DecidableEq α]
    (m : List (α × β)) (k : α) (v : β) (h : (keysA m).Nodup) :
    (keysA (insertA m k v)).Nodup := by
  simp only [insertA, keysA, List.map_cons, List.nodup_cons]
  exact ⟨not_mem_keysA_eraseA m k, (keysA_sublist_of_sublist (eraseA_sublist m k)).nodup h⟩

/-- A decidable duplicate-freedom check used by the state well-formedness
predicate (kept as a plain recursive `Bool` so concrete witnesses evaluate). -/
def nodupB {α : Type} [DecidableEq α] : List α → Bool
  | [] => true
  | a :: r => !decide (a ∈ r) && nodupB r

theorem nodupB_iff {α : Type} [DecidableEq α] (l : List α) :
    nodupB l = true ↔ l.Nodup := by
  induction l with
  | nil => simp [nodupB]
  | cons a r ih => simp [nodupB, List.nodup_cons, ih]

/-! ## Kernel maps and the BPF map facade

The facade implementation is not among the available sources (only the
resolver's calls through `policyUpdateBinariesFunc`, `policyModeUpdateFunc`
and `cgroupToPolicyMapUpdateFunc` are), so the map semantics below are
modelled from the specification of the three operation families (§4.C):
`Add` creates a set, `Replace` swaps it, `RemoveAll` drops it; mode entries
are upserted or deleted; `AddPolicyToCgroups` binds each cgroup id,
`RemoveCgroups` drops each given cgroup id, `RemovePolicy` drops every
cgroup currently bound to the policy id (iterate-and-delete). -/

/-- Operation selector of `policyUpdateBinariesFunc`. -/
inductive PolicyValuesOperation : Type
  | addValuesToPolicy
  | replaceValuesInPolicy
  | removeValuesFromPolicy
deriving DecidableEq

/-- Operation selector of `policyModeUpdateFunc`. -/
inductive PolicyModeOperation : Type
  | updateMode
  | deleteMode
deriving DecidableEq

/-- Operation selector of `cgroupToPolicyMapUpdateFunc`. -/
inductive CgroupMapOperation : Type
  | addPolicyToCgroups
  | removeCgroups
  | removePolicy
deriving DecidableEq

/-- One kernel-map mutation issued by the resolver; the three constructors
mirror the three injected facade functions and their call shapes. -/
inductive KernelOp : Type
  | values (policyID : Nat) (allowedBinaries : List String) (op : PolicyValuesOperation)
  | mode (policyID : Nat) (m : Nat) (op : PolicyModeOperation)
  | cgroup (policyID : Nat) (cgroupIDs : List Nat) (op : CgroupMapOperation)
deriving DecidableEq

/-- The three kernel maps kept coherent by the resolver. -/
structure KernelMaps where
  policyValues : List (Nat × List String)
  policyMode : List (Nat × Nat)
  cgroupToPolicy : List (Nat × Nat)
deriving DecidableEq

/-- Bind each cgroup id to the policy id (`AddPolicyToCgroups`). -/
def bindCgroups (m : List (Nat × Nat)) (policyID : Nat) : List Nat → List (Nat × Nat)
  | [] => m
  | cg :: rest => bindCgroups (insertA m cg policyID) policyID rest

/-- Drop each given cgroup id (`RemoveCgroups`). -/
def removeCgroups (m : List (Nat × Nat)) : List Nat → List (Nat × Nat)
  | [] => m
  | cg :: rest => removeCgroups (eraseA m cg) rest

/-- Drop every binding whose value is the given policy id (`RemovePolicy`,
kernel-side iterate-and-delete). -/
def removePolicyBindings : List (Nat × Nat) → Nat → List (Nat × Nat)
  | [], _ => []
  | (cg, p) :: r, policyID =>
    if p = policyID then removePolicyBindings r policyID
    else (cg, p) :: removePolicyBindings r policyID

/-- Modelled from the spec: semantics of one facade call on the kernel maps
(§4.C); the facade implementation is not among the available sources. -/
def applyKernelOp (k : KernelMaps) : KernelOp → KernelMaps
  | .values policyID vals .addValuesToPolicy =>
      { k with policyValues := insertA k.policyValues policyID vals }
  | .values policyID vals .replaceValuesInPolicy =>
      { k with policyValues := insertA k.policyValues policyID vals }
  | .values policyID _ .removeValuesFromPolicy =>
      { k with policyValues := eraseA k.policyValues policyID }
  | .mode policyID m .updateMode =>
      { k with policyMode := insertA k.policyMode policyID m }
  | .mode policyID _ .deleteMode =>
      { k with policyMode := eraseA k.policyMode policyID }
  | .cgroup policyID cgs .addPolicyToCgroups =>
      { k with cgroupToPolicy := bindCgroups k.cgroupToPolicy policyID cgs }
  | .cgroup _ cgs .removeCgroups =>
      { k with cgroupToPolicy := removeCgroups k.cgroupToPolicy cgs }
  | .cgroup policyID _ .removePolicy =>
      { k with cgroupToPolicy := removePolicyBindings k.cgroupToPolicy policyID }

/-! ## Resolver data model -/

/-- One running container of a cached pod: its name and its cgroup id. -/
structure ContainerEntry where
  name : String
  cgID : Nat
deriving DecidableEq

/-- Pod metadata cached on first container start (`podInfo` in the source). -/
structure PodInfo where
  ns : String
  name : String
  workloadName : String
  workloadType : String
  labels : List (String × String)
deriving DecidableEq

/-- A cached pod: metadata plus its containers keyed by runtime id. -/
structure PodState where
  info : PodInfo
  containers : List (String × ContainerEntry)
deriving DecidableEq

/-- Modelled from the spec: the label key whose value selects a policy for a
pod (§3 selector semantics); the constant's definition is not among the
available sources.  Its concrete value is irrelevant to every property below. -/
def policyLabelKey : String := "workload-security-policy"

/-- The pod's policy label value, `""` when the label is absent. -/
def PodState.policyLabel (p : PodState) : String :=
  (lookupA p.info.labels policyLabelKey).getD ""

def PodState.podNamespace (p : PodState) : String := p.info.ns

/-- The namespaced policy key selected by the pod's label, as built by
`applyPolicyToPodIfPresent` (`fmt.Sprintf("%s/%s", namespace, label)`). -/
def PodState.policyKey (p : PodState) : String :=
  p.podNamespace ++ "/" ++ p.policyLabel

/-- Modelled from the spec: selector semantics (`podState.matchPolicy` is not
among the available sources).  A pod matches a policy when it carries the
policy label and `namespace/labelvalue` equals the policy's namespaced key. -/
def PodState.matchPolicyKey (p : PodState) (wpKey : String) : Bool :=
  !(p.policyLabel == "") && p.policyKey == wpKey

/-- Per-container executable rules of a workload policy spec. -/
structure WorkloadPolicyRules where
  allowed : List String
deriving DecidableEq

/-- A workload policy spec event value.  The mode string parsing
(`policymode.ParseMode`) is outside the model; modes are carried opaquely. -/
structure WorkloadPolicy where
  ns : String
  name : String
  mode : Nat
  rulesByContainer : List (String × WorkloadPolicyRules)
deriving DecidableEq

def WorkloadPolicy.namespacedName (wp : WorkloadPolicy) : String :=
  wp.ns ++ "/" ++ wp.name

/-- Policy record lifecycle state. -/
inductive PolicyState : Type
  | pending
  | ready
  | errored
deriving DecidableEq

/-- Policy record status (the proto mode mirror is omitted: nothing below
inspects it). -/
structure PolicyStatus where
  state : PolicyState
  message : String
deriving DecidableEq

/-- Per-policy record: container → policy id map plus status (`wpInfo`). -/
structure WpInfo where
  polByContainer : List (String × Nat)
  status : PolicyStatus
deriving DecidableEq

/-- The whole resolver state protected by the resolver mutex. -/
structure ResolverState where
  nextPolicyID : Nat
  wpState : List (String × WpInfo)
  podCache : List (String × PodState)
  cgroupIDToPodID : List (Nat × String)
  kernel : KernelMaps
deriving DecidableEq

/-- Fresh resolver state: the policy id counter starts at 1 (0 is reserved
as `PolicyIDNone`). -/
def initialResolverState : ResolverState :=
  { nextPolicyID := 1, wpState := [], podCache := [], cgroupIDToPodID := [],
    kernel := { policyValues := [], policyMode := [], cgroupToPolicy := [] } }

/-- Result of one resolver operation: success flag, post-state, and the trace
of kernel-map mutations performed, in order. -/
structure RunResult where
  ok : Bool
  state : ResolverState
  trace : List KernelOp
deriving DecidableEq

/-! ## Resolver operations -/

/-- `upsertPolicyIDInBPF`: push values (Add or Replace as directed by the
caller), then upsert the mode. -/
def upsertPolicyIDInBPF (k : KernelMaps) (policyID : Nat) (allowedBinaries : List String)
    (m : Nat) (valuesOp : PolicyValuesOperation) : KernelMaps × List KernelOp :=
  let op1 := KernelOp.values policyID allowedBinaries valuesOp
  let op2 := KernelOp.mode policyID m .updateMode
  (applyKernelOp (applyKernelOp k op1) op2, [op1, op2])

/-- `clearPolicyIDFromBPF`: remove the policy's values, then delete its mode
(the source passes dummy `nil` values and mode `0`). -/
def clearPolicyIDFromBPF (k : KernelMaps) (policyID : Nat) : KernelMaps × List KernelOp :=
  let op1 := KernelOp.values policyID [] .removeValuesFromPolicy
  let op2 := KernelOp.mode policyID 0 .deleteMode
  (applyKernelOp (applyKernelOp k op1) op2, [op1, op2])

/-- `applyPolicyToPod`: bind each of the pod's containers whose name appears
in the applied container → policy-id map. -/
def applyPolicyToPod (k : KernelMaps) (containers : List (String × ContainerEntry))
    (applied : List (String × Nat)) : KernelMaps × List KernelOp :=
  match containers with
  | [] => (k, [])
  | (_, c) :: rest =>
    match lookupA applied c.name with
    | none => applyPolicyToPod k rest applied
    | some polID =>
      let op := KernelOp.cgroup polID [c.cgID] .addPolicyToCgroups
      let r := applyPolicyToPod (applyKernelOp k op) rest applied
      (r.1, op :: r.2)

/-- `removePolicyFromPod`: for each of the pod's containers listed in
`removed`, unbind its cgroup (passing `PolicyIDNone`), clear the policy id
from the BPF maps, and delete the container from the record's map. -/
def removePolicyFromPod (k : KernelMaps) (containers : List (String × ContainerEntry))
    (wpStatePol removed : List (String × Nat)) :
    KernelMaps × List (String × Nat) × List KernelOp :=
  match containers with
  | [] => (k, wpStatePol, [])
  | (_, c) :: rest =>
    match lookupA removed c.name with
    | none => removePolicyFromPod k rest wpStatePol removed
    | some policyID =>
      let op := KernelOp.cgroup 0 [c.cgID] .removeCgroups
      let cl := clearPolicyIDFromBPF (applyKernelOp k op) policyID
      let r := removePolicyFromPod cl.1 rest (eraseA wpStatePol c.name) removed
      (r.1, r.2.1, (op :: cl.2) ++ r.2.2)

/-- `syncWorkloadPolicy`: walk the spec's per-container rules; reuse the
recorded policy id (Replace) or allocate a fresh one (Add), pushing values
then mode for each container; returns the new kernel maps, the advanced id
counter, the freshly created container → id pairs, and the trace. -/
def syncWorkloadPolicy (k : KernelMaps) (next : Nat) (pol : List (String × Nat)) (m : Nat) :
    List (String × WorkloadPolicyRules) → KernelMaps × Nat × List (String × Nat) × List KernelOp
  | [] => (k, next, [], [])
  | (containerName, rules) :: rest =>
    match lookupA pol containerName with
    | some polID =>
      let up := upsertPolicyIDInBPF k polID rules.allowed m .replaceValuesInPolicy
      let r := syncWorkloadPolicy up.1 next pol m rest
      (r.1, r.2.1, r.2.2.1, up.2 ++ r.2.2.2)
    | none =>
      let polID := next
      let up := upsertPolicyIDInBPF k polID rules.allowed m .addValuesToPolicy
      let r := syncWorkloadPolicy up.1 (next + 1) pol m rest
      (r.1, r.2.1, (containerName, polID) :: r.2.2.1, up.2 ++ r.2.2.2)

/-- Merge freshly created container → policy-id pairs into a record's map
(the `for containerName, policyID := range newContainers` loops). -/
def mergeNewContainers (pol : List (String × Nat)) : List (String × Nat) → List (String × Nat)
  | [] => pol
  | (c, polID) :: rest => mergeNewContainers (insertA pol c polID) rest

/-- The pod-scan of `handleWPAdd`: apply the policy to every matching pod. -/
def applyPolicyToMatchingPods (k : KernelMaps) (pods : List (String × PodState))
    (wpKey : String) (applied : List (String × Nat)) : KernelMaps × List KernelOp :=
  match pods with
  | [] => (k, [])
  | (_, p) :: rest =>
    if p.matchPolicyKey wpKey then
      let ap := applyPolicyToPod k p.containers applied
      let r := applyPolicyToMatchingPods ap.1 rest wpKey applied
      (r.1, ap.2 ++ r.2)
    else applyPolicyToMatchingPods k rest wpKey applied

/-- The pod-scan of `handleWPUpdate`: per matching pod, first remove the
containers no longer in the spec, then (re-)apply the kept ones. -/
def updateMatchingPods (k : KernelMaps) (pods : List (String × PodState)) (wpKey : String)
    (pol applied removed : List (String × Nat)) :
    KernelMaps × List (String × Nat) × List KernelOp :=
  match pods with
  | [] => (k, pol, [])
  | (_, p) :: rest =>
    if p.matchPolicyKey wpKey then
      let rm := removePolicyFromPod k p.containers pol removed
      let ap := applyPolicyToPod rm.1 p.containers applied
      let r := updateMatchingPods ap.1 rest wpKey rm.2.1 applied removed
      (r.1, r.2.1, rm.2.2 ++ ap.2 ++ r.2.2)
    else updateMatchingPods k rest wpKey pol applied removed

/-- The per-record loop of `handleWPDelete`: for each container, remove the
cgroup → policy associations for its policy id (`RemovePolicy`), then clear
the policy id from the BPF maps. -/
def deletePolicyContainers (k : KernelMaps) :
    List (String × Nat) → KernelMaps × List KernelOp
  | [] => (k, [])
  | (_, policyID) :: rest =>
    let op := KernelOp.cgroup policyID [] .removePolicy
    let cl := clearPolicyIDFromBPF (applyKernelOp k op) policyID
    let r := deletePolicyContainers cl.1 rest
    (r.1, (op :: cl.2) ++ r.2)

/-- `handleWPAdd`: reject a duplicate key (the deferred status hook marks the
existing record `Error`); otherwise create the record, sync values and modes
from the spec, then bind every matching pod. -/
def handleWPAdd (s : ResolverState) (wp : WorkloadPolicy) : RunResult :=
  let wpKey := wp.namespacedName
  match lookupA s.wpState wpKey with
  | some info =>
    let info2 := { info with status := ⟨.errored, "workload policy already exists in internal state"⟩ }
    { ok := false, state := { s with wpState := insertA s.wpState wpKey info2 }, trace := [] }
  | none =>
    let sync := syncWorkloadPolicy s.kernel s.nextPolicyID [] wp.mode wp.rulesByContainer
    let pol := mergeNewContainers [] sync.2.2.1
    let bind := applyPolicyToMatchingPods sync.1 s.podCache wpKey pol
    { ok := true,
      state := { s with nextPolicyID := sync.2.1,
                        wpState := insertA s.wpState wpKey ⟨pol, ⟨.ready, ""⟩⟩,
                        kernel := bind.1 },
      trace := sync.2.2.2 ++ bind.2 }

/-- `handleWPUpdate`: reject an unknown key; otherwise sync values and modes
from the spec (allocating ids for new containers), split the record into
kept and removed containers, then per matching pod remove the removed ones
and re-apply the kept ones. -/
def handleWPUpdate (s : ResolverState) (wp : WorkloadPolicy) : RunResult :=
  let wpKey := wp.namespacedName
  match lookupA s.wpState wpKey with
  | none => { ok := false, state := s, trace := [] }
  | some info =>
    let sync := syncWorkloadPolicy s.kernel s.nextPolicyID info.polByContainer wp.mode
      wp.rulesByContainer
    let pol := mergeNewContainers info.polByContainer sync.2.2.1
    let applied := pol.filter (fun p => (lookupA wp.rulesByContainer p.1).isSome)
    let removed := pol.filter (fun p => (lookupA wp.rulesByContainer p.1).isNone)
    let upd := updateMatchingPods sync.1 s.podCache wpKey pol applied removed
    { ok := true,
      state := { s with nextPolicyID := sync.2.1,
                        wpState := insertA s.wpState wpKey ⟨upd.2.1, ⟨.ready, ""⟩⟩,
                        kernel := upd.1 },
      trace := sync.2.2.2 ++ upd.2.2 }

/-- `handleWPDelete`: reject an unknown key; otherwise drop the record and,
per container, unbind its cgroups then clear its policy id. -/
def handleWPDelete (s : ResolverState) (wp : WorkloadPolicy) : RunResult :=
  let wpKey := wp.namespacedName
  match lookupA s.wpState wpKey with
  | none => { ok := false, state := s, trace := [] }
  | some info =>
    let del := deletePolicyContainers s.kernel info.polByContainer
    { ok := true,
      state := { s with wpState := eraseA s.wpState wpKey, kernel := del.1 },
      trace := del.2 }

/-- Second half of the container-start handler: cache the (already merged) pod
state and the reverse cgroup index entry, then bind via
`applyPolicyToPodIfPresent` (which is in the source): no label means no
binding; a label without a record still succeeds (the later `OnPolicyAdd`
binds retroactively); an existing record binds the pod's containers. -/
def containerStartFinish (s : ResolverState) (podUID : String) (c : ContainerEntry)
    (pstate : PodState) : RunResult :=
  let s1 := { s with podCache := insertA s.podCache podUID pstate,
                     cgroupIDToPodID := insertA s.cgroupIDToPodID c.cgID podUID }
  if pstate.policyLabel = "" then { ok := true, state := s1, trace := [] }
  else
    match lookupA s1.wpState pstate.policyKey with
    | none => { ok := true, state := s1, trace := [] }
    | some winfo =>
      let bind := applyPolicyToPod s1.kernel pstate.containers winfo.polByContainer
      { ok := true, state := { s1 with kernel := bind.1 }, trace := bind.2 }

/-- Modelled from the spec: the container-start entry point (`OnContainerStart`
/ `AddPodFromNRI`, §4.G; not among the available sources — only its NRI
callers are).  It merges the container into the cached pod (or creates the
pod), then caches and binds via `containerStartFinish`. -/
def handleContainerStart (s : ResolverState) (podUID : String) (info : PodInfo)
    (containerID : String) (c : ContainerEntry) : RunResult :=
  containerStartFinish s podUID c
    (match lookupA s.podCache podUID with
     | some p => { p with containers := insertA p.containers containerID c }
     | none => { info := info, containers := [(containerID, c)] })

/-- A resolver event: the four mutating public operations. -/
inductive REvent : Type
  | wpAdd (wp : WorkloadPolicy)
  | wpUpdate (wp : WorkloadPolicy)
  | wpDelete (wp : WorkloadPolicy)
  | containerStart (podUID : String) (info : PodInfo) (containerID : String) (c : ContainerEntry)
deriving DecidableEq

/-- One resolver operation (all four acquire the same mutex, so a run is a
sequence of atomic steps). -/
def step (s : ResolverState) : REvent → RunResult
  | .wpAdd wp => handleWPAdd s wp
  | .wpUpdate wp => handleWPUpdate s wp
  | .wpDelete wp => handleWPDelete s wp
  | .containerStart podUID info containerID c => handleContainerStart s podUID info containerID c

/-! ## State well-formedness and the binding invariant -/

/-- The cgroup ids of a pod's containers. -/
def PodState.cgIDs (p : PodState) : List Nat := p.containers.map (fun q => q.2.cgID)

/-- Flatten an association list through a per-value projection. -/
def flatA {α β γ : Type} (f : β → List γ) : List (α × β) → List γ
  | [] => []
  | (_, b) :: r => f b ++ flatA f r

/-- All cgroup ids cached across pods. -/
def allCgroupIDs (pods : List (String × PodState)) : List Nat :=
  flatA PodState.cgIDs pods

/-- All policy ids recorded across workload-policy records. -/
def allPolicyIDs (wps : List (String × WpInfo)) : List Nat :=
  flatA (fun i => i.polByContainer.map Prod.snd) wps

/-- Structural well-formedness of the resolver state: unique record and pod
keys, unique container names per record, globally unique cgroup ids (the
kernel guarantees cgroup-id uniqueness per boot), and policy ids that are
pairwise distinct and below the allocation counter. -/
def wfState (s : ResolverState) : Bool :=
  nodupB (keysA s.wpState) &&
  nodupB (keysA s.podCache) &&
  s.wpState.all (fun q => nodupB (keysA q.2.polByContainer)) &&
  nodupB (allCgroupIDs s.podCache) &&
  nodupB (allPolicyIDs s.wpState) &&
  (allPolicyIDs s.wpState).all (fun pid => decide (pid < s.nextPolicyID)) &&
  nodupB (keysA s.kernel.cgroupToPolicy)

/-- The binding invariant (spec §3, invariant 2): every container of every
cached pod that matches a policy record, whose name appears in the record's
per-container map, is bound in `cgroup_to_policy` to the recorded policy id. -/
def boundOK (s : ResolverState) : Bool :=
  s.wpState.all fun q =>
    s.podCache.all fun r =>
      !(r.2.matchPolicyKey q.1) ||
      r.2.containers.all fun cq =>
        match lookupA q.2.polByContainer cq.2.name with
        | none => true
        | some pid => lookupA s.kernel.cgroupToPolicy cq.2.cgID == some pid

/-- Full resolver invariant. -/
def invariantOK (s : ResolverState) : Bool := wfState s && boundOK s

/-- Well-formedness of an incoming event: policy specs carry a Go map of
per-container rules (unique keys), and a started container's cgroup id is
fresh (cgroup ids are unique per boot and the container was just created). -/
def eventWF (s : ResolverState) : REvent → Bool
  | .wpAdd wp => nodupB (keysA wp.rulesByContainer)
  | .wpUpdate wp => nodupB (keysA wp.rulesByContainer)
  | .wpDelete _ => true
  | .containerStart _ _ _ c => !decide (c.cgID ∈ allCgroupIDs s.podCache)

/-- Propositional form of `boundOK`. -/
def BoundP (s : ResolverState) : Prop :=
  ∀ key info, (key, info) ∈ s.wpState →
    ∀ uid p, (uid, p) ∈ s.podCache → p.matchPolicyKey key = true →
      ∀ cid c, (cid, c) ∈ p.containers →
        ∀ pid, lookupA info.polByContainer c.name = some pid →
          lookupA s.kernel.cgroupToPolicy c.cgID = some pid

theorem boundOK_iff (s : ResolverState) : boundOK s = true ↔ BoundP s := by
  unfold boundOK BoundP
  simp only [List.all_eq_true, Bool.or_eq_true, Bool.not_eq_true']
  constructor
  · intro h key info hki uid p hp hm cid c hc pid hpid
    have h1 := h (key, info) hki (uid, p) hp
    rcases h1 with h1 | h1
    · rw [hm] at h1; cases h1
    · have h2 := h1 (cid, c) hc
      rw [hpid] at h2
      simpa using h2
  · intro h q hq r hr
    by_cases hm : r.2.matchPolicyKey q.1 = true
    · right
      intro cq hcq
      cases hv : lookupA q.2.polByContainer cq.2.name with
      | none => simp
      | some pid =>
        have := h q.1 q.2 hq r.1 r.2 hr hm cq.1 cq.2 hcq pid hv
        simp [this]
    · left
      exact Bool.not_eq_true _ ▸ hm

/-! ## Effect lemmas: kernel map primitives -/

theorem lookupA_insertA_of_lookupA_eq {α β : Type} [DecidableEq α]
    (m : List (α × β)) (k a : α) (v : β) (h : lookupA m k = some v) :
    lookupA (insertA m k v) a = lookupA m a := by
  rw [lookupA_insertA]
  by_cases ha : a = k
  · subst ha; simp [h]
  · rw [if_neg ha]

theorem bindCgroups_lookup (m : List (Nat × Nat)) (policyID : Nat) (cgs : List Nat) (cg : Nat) :
    lookupA (bindCgroups m policyID cgs) cg =
      if cg ∈ cgs then some policyID else lookupA m cg := by
  induction cgs generalizing m with
  | nil => simp [bindCgroups]
  | cons c rest ih =>
    simp only [bindCgroups, ih, lookupA_insertA, List.mem_cons]
    by_cases h1 : cg ∈ rest
    · simp [h1]
    · by_cases h2 : cg = c <;> simp [h1, h2]

theorem removeCgroups_lookup (m : List (Nat × Nat)) (cgs : List Nat) (cg : Nat) :
    lookupA (removeCgroups m cgs) cg = if cg ∈ cgs then none else lookupA m cg := by
  induction cgs generalizing m with
  | nil => simp [removeCgroups]
  | cons c rest ih =>
    simp only [removeCgroups, ih, lookupA_eraseA, List.mem_cons]
    by_cases h1 : cg ∈ rest
    · simp [h1]
    · by_cases h2 : cg = c <;> simp [h1, h2]

theorem removePolicyBindings_sublist (m : List (Nat × Nat)) (policyID : Nat) :
    (removePolicyBindings m policyID).Sublist m := by
  induction m with
  | nil => exact List.Sublist.refl _
  | cons q r ih =>
    obtain ⟨cg', p'⟩ := q
    simp only [removePolicyBindings]
    by_cases hp : p' = policyID
    · rw [if_pos hp]; exact ih.cons _
    · rw [if_neg hp]; exact ih.cons₂ _

theorem removePolicyBindings_lookup (m : List (Nat × Nat)) (policyID cg : Nat)
    (hnd : (keysA m).Nodup) :
    lookupA (removePolicyBindings m policyID) cg =
      match lookupA m cg with
      | some p => if p = policyID then none else some p
      | none => none := by
  induction m with
  | nil => simp [removePolicyBindings, lookupA]
  | cons q r ih =>
    obtain ⟨cg', p'⟩ := q
    simp only [keysA, List.map_cons, List.nodup_cons] at hnd
    simp only [removePolicyBindings, lookupA]
    by_cases hp : p' = policyID
    · rw [if_pos hp]
      by_cases hc : cg = cg'
      · subst hc
        have h1 : cg ∉ keysA (removePolicyBindings r policyID) :=
          fun hmem => hnd.1 ((keysA_sublist_of_sublist (removePolicyBindings_sublist r policyID)).mem hmem)
        rw [lookupA_eq_none_of_not_mem_keysA _ _ h1]
        simp [hp]
      · rw [ih hnd.2, if_neg hc]
    · rw [if_neg hp]
      by_cases hc : cg = cg'
      · simp [lookupA, hc, hp]
      · simp only [lookupA, if_neg hc]
        exact ih hnd.2

theorem applyKernelOp_cgroup_policyValues (k : KernelMaps) (policyID : Nat)
    (cgs : List Nat) (op : CgroupMapOperation) :
    (applyKernelOp k (.cgroup policyID cgs op)).policyValues = k.policyValues := by
  cases op <;> rfl

theorem applyKernelOp_cgroup_policyMode (k : KernelMaps) (policyID : Nat)
    (cgs : List Nat) (op : CgroupMapOperation) :
    (applyKernelOp k (.cgroup policyID cgs op)).policyMode = k.policyMode := by
  cases op <;> rfl

theorem applyKernelOp_values_cgroupToPolicy (k : KernelMaps) (policyID : Nat)
    (vals : List String) (op : PolicyValuesOperation) :
    (applyKernelOp k (.values policyID vals op)).cgroupToPolicy = k.cgroupToPolicy := by
  cases op <;> rfl

theorem applyKernelOp_mode_cgroupToPolicy (k : KernelMaps) (policyID m : Nat)
    (op : PolicyModeOperation) :
    (applyKernelOp k (.mode policyID m op)).cgroupToPolicy = k.cgroupToPolicy := by
  cases op <;> rfl

theorem upsertPolicyIDInBPF_cgroupToPolicy (k : KernelMaps) (policyID : Nat)
    (vals : List String) (m : Nat) (op : PolicyValuesOperation) :
    (upsertPolicyIDInBPF k policyID vals m op).1.cgroupToPolicy = k.cgroupToPolicy := by
  simp [upsertPolicyIDInBPF, applyKernelOp_values_cgroupToPolicy, applyKernelOp_mode_cgroupToPolicy]

theorem clearPolicyIDFromBPF_cgroupToPolicy (k : KernelMaps) (policyID : Nat) :
    (clearPolicyIDFromBPF k policyID).1.cgroupToPolicy = k.cgroupToPolicy := by
  simp [clearPolicyIDFromBPF, applyKernelOp_values_cgroupToPolicy, applyKernelOp_mode_cgroupToPolicy]

/-! ## Effect lemmas: `flatA` -/

theorem flatA_sublist {α β γ : Type} (f : β → List γ) {m m' : List (α × β)}
    (h : m'.Sublist m) : (flatA f m').Sublist (flatA f m) := by
  induction h with
  | slnil => exact List.Sublist.refl _
  | cons a _ ih =>
    obtain ⟨_, b⟩ := a
    exact ih.trans (List.sublist_append_right _ _)
  | cons₂ a _ ih =>
    obtain ⟨_, b⟩ := a
    exact ih.append_left _

theorem mem_flatA {α β γ : Type} (f : β → List γ) (m : List (α × β)) (c : γ) :
    c ∈ flatA f m ↔ ∃ q ∈ m, c ∈ f q.2 := by
  induction m with
  | nil => simp [flatA]
  | cons q r ih =>
    obtain ⟨a, b⟩ := q
    simp only [flatA, List.mem_append, ih, List.mem_cons]
    constructor
    · rintro (h | ⟨q', hq', hc⟩)
      · exact ⟨(a, b), Or.inl rfl, h⟩
      · exact ⟨q', Or.inr hq', hc⟩
    · rintro ⟨q', h | h, hc⟩
      · subst h; exact Or.inl hc
      · exact Or.inr ⟨q', h, hc⟩

theorem flatA_perm_eraseA {α β γ : Type} [DecidableEq α] (f : β → List γ)
    {m : List (α × β)} {key : α} {b : β}
    (hmem : (key, b) ∈ m) (hnd : (keysA m).Nodup) :
    (flatA f m).Perm (f b ++ flatA f (eraseA m key)) := by
  induction m with
  | nil => simp at hmem
  | cons q r ih =>
    obtain ⟨a, b'⟩ := q
    simp only [keysA, List.map_cons, List.nodup_cons] at hnd
    rcases List.mem_cons.mp hmem with h | h
    · obtain ⟨rfl, rfl⟩ := Prod.mk.injEq .. ▸ h
      have hnotmem : lookupA r key = none :=
        lookupA_eq_none_of_not_mem_keysA _ _ hnd.1
      have he : eraseA ((key, b) :: r) key = r := by
        simp [eraseA, eraseA_of_lookupA_eq_none _ _ hnotmem]
      rw [he]
      simp only [flatA]
      exact List.Perm.refl _
    · have hk : ¬a = key := by
        rintro rfl
        exact hnd.1 (List.mem_map_of_mem Prod.fst h)
      have hk' : ¬key = a := fun hh => hk hh.symm
      have he : eraseA ((a, b') :: r) key = (a, b') :: eraseA r key := by
        simp [eraseA, hk]
      rw [he]
      simp only [flatA]
      have h1 := (ih h hnd.2).append_left (f b')
      have h2 : ((f b' ++ f b) ++ flatA f (eraseA r key)).Perm
          ((f b ++ f b') ++ flatA f (eraseA r key)) :=
        List.perm_append_comm.append_right _
      simp only [List.append_assoc] at h2
      exact h1.trans h2

/-! ## Effect lemmas: `applyPolicyToPod` -/

/-- The cgroup ids of a containers list. -/
def containersCgIDs (cs : List (String × ContainerEntry)) : List Nat :=
  cs.map (fun q => q.2.cgID)

theorem PodState.cgIDs_eq (p : PodState) : p.cgIDs = containersCgIDs p.containers := rfl

theorem applyKernelOp_bind_single (k : KernelMaps) (polID cgid : Nat) :
    (applyKernelOp k (.cgroup polID [cgid] .addPolicyToCgroups)).cgroupToPolicy =
      insertA k.cgroupToPolicy cgid polID := rfl

theorem applyPolicyToPod_policyValues (k : KernelMaps) (cs : List (String × ContainerEntry))
    (ap : List (String × Nat)) :
    (applyPolicyToPod k cs ap).1.policyValues = k.policyValues := by
  induction cs generalizing k with
  | nil => rfl
  | cons q rest ih =>
    obtain ⟨cid, c⟩ := q
    cases hv : lookupA ap c.name with
    | none => simp only [applyPolicyToPod, hv]; exact ih k
    | some polID =>
      simp only [applyPolicyToPod, hv]
      rw [ih]
      exact applyKernelOp_cgroup_policyValues ..

theorem applyPolicyToPod_policyMode (k : KernelMaps) (cs : List (String × ContainerEntry))
    (ap : List (String × Nat)) :
    (applyPolicyToPod k cs ap).1.policyMode = k.policyMode := by
  induction cs generalizing k with
  | nil => rfl
  | cons q rest ih =>
    obtain ⟨cid, c⟩ := q
    cases hv : lookupA ap c.name with
    | none => simp only [applyPolicyToPod, hv]; exact ih k
    | some polID =>
      simp only [applyPolicyToPod, hv]
      rw [ih]
      exact applyKernelOp_cgroup_policyMode ..

theorem applyPolicyToPod_cg_keys_nodup (k : KernelMaps) (cs : List (String × ContainerEntry))
    (ap : List (String × Nat)) (h : (keysA k.cgroupToPolicy).Nodup) :
    (keysA (applyPolicyToPod k cs ap).1.cgroupToPolicy).Nodup := by
  induction cs generalizing k with
  | nil => exact h
  | cons q rest ih =>
    obtain ⟨cid, c⟩ := q
    cases hv : lookupA ap c.name with
    | none => simp only [applyPolicyToPod, hv]; exact ih k h
    | some polID =>
      simp only [applyPolicyToPod, hv]
      refine ih _ ?_
      rw [applyKernelOp_bind_single]
      exact keysA_insertA_nodup _ _ _ h

theorem applyPolicyToPod_lookup_not_mem (k : KernelMaps) (cs : List (String × ContainerEntry))
    (ap : List (String × Nat)) (cg : Nat) (h : cg ∉ containersCgIDs cs) :
    lookupA (applyPolicyToPod k cs ap).1.cgroupToPolicy cg = lookupA k.cgroupToPolicy cg := by
  induction cs generalizing k with
  | nil => rfl
  | cons q rest ih =>
    obtain ⟨cid, c⟩ := q
    simp only [containersCgIDs, List.map_cons, List.mem_cons, not_or] at h
    cases hv : lookupA ap c.name with
    | none => simp only [applyPolicyToPod, hv]; exact ih k h.2
    | some polID =>
      simp only [applyPolicyToPod, hv]
      rw [ih _ h.2, applyKernelOp_bind_single, lookupA_insertA, if_neg h.1]

theorem applyPolicyToPod_lookup_bound (k : KernelMaps) (cs : List (String × ContainerEntry))
    (ap : List (String × Nat)) {cid : String} {c : ContainerEntry} {pid : Nat}
    (hmem : (cid, c) ∈ cs) (hpid : lookupA ap c.name = some pid)
    (hnd : (containersCgIDs cs).Nodup) :
    lookupA (applyPolicyToPod k cs ap).1.cgroupToPolicy c.cgID = some pid := by
  induction cs generalizing k with
  | nil => simp at hmem
  | cons q rest ih =>
    obtain ⟨cid0, c0⟩ := q
    simp only [containersCgIDs, List.map_cons, List.nodup_cons] at hnd
    rcases List.mem_cons.mp hmem with h | h
    · obtain ⟨rfl, rfl⟩ := Prod.mk.injEq .. ▸ h
      simp only [applyPolicyToPod, hpid]
      rw [applyPolicyToPod_lookup_not_mem _ _ _ _ hnd.1, applyKernelOp_bind_single,
        lookupA_insertA, if_pos rfl]
    · cases hv : lookupA ap c0.name with
      | none => simp only [applyPolicyToPod, hv]; exact ih k h hnd.2
      | some polID => simp only [applyPolicyToPod, hv]; exact ih _ h hnd.2

theorem applyPolicyToPod_lookup_noop (k : KernelMaps) (cs : List (String × ContainerEntry))
    (ap : List (String × Nat))
    (hall : ∀ cid c, (cid, c) ∈ cs → ∀ pid, lookupA ap c.name = some pid →
      lookupA k.cgroupToPolicy c.cgID = some pid) (cg : Nat) :
    lookupA (applyPolicyToPod k cs ap).1.cgroupToPolicy cg = lookupA k.cgroupToPolicy cg := by
  induction cs generalizing k with
  | nil => rfl
  | cons q rest ih =>
    obtain ⟨cid0, c0⟩ := q
    cases hv : lookupA ap c0.name with
    | none =>
      simp only [applyPolicyToPod, hv]
      exact ih k (fun cid c hmem => hall cid c (List.mem_cons_of_mem _ hmem))
    | some polID =>
      simp only [applyPolicyToPod, hv]
      have hbound : lookupA k.cgroupToPolicy c0.cgID = some polID :=
        hall cid0 c0 (List.mem_cons_self _ _) polID hv
      have hpt : ∀ a, lookupA (applyKernelOp k (.cgroup polID [c0.cgID] .addPolicyToCgroups)).cgroupToPolicy a =
          lookupA k.cgroupToPolicy a := by
        intro a
        rw [applyKernelOp_bind_single]
        exact lookupA_insertA_of_lookupA_eq _ _ _ _ hbound
      rw [ih _ (fun cid c hmem pid hpid => (hpt c.cgID).trans
        (hall cid c (List.mem_cons_of_mem _ hmem) pid hpid)), hpt cg]

theorem applyPolicyToPod_trace_shape (k : KernelMaps) (cs : List (String × ContainerEntry))
    (ap : List (String × Nat)) :
    ∀ op ∈ (applyPolicyToPod k cs ap).2,
      ∃ polID cgid, op = .cgroup polID [cgid] .addPolicyToCgroups := by
  induction cs generalizing k with
  | nil => simp [applyPolicyToPod]
  | cons q rest ih =>
    obtain ⟨cid0, c0⟩ := q
    cases hv : lookupA ap c0.name with
    | none => simp only [applyPolicyToPod, hv]; exact ih k
    | some polID =>
      simp only [applyPolicyToPod, hv, List.mem_cons]
      rintro op (rfl | hop)
      · exact ⟨polID, c0.cgID, rfl⟩
      · exact ih _ op hop

/-! ## Effect lemmas: `applyPolicyToMatchingPods` -/

/-- The cgroup ids of the pods matching a given policy key. -/
def matchingCgroupIDs (wpKey : String) : List (String × PodState) → List Nat
  | [] => []
  | (_, p) :: rest =>
    if p.matchPolicyKey wpKey then p.cgIDs ++ matchingCgroupIDs wpKey rest
    else matchingCgroupIDs wpKey rest

theorem matchingCgroupIDs_sublist (wpKey : String) (pods : List (String × PodState)) :
    (matchingCgroupIDs wpKey pods).Sublist (allCgroupIDs pods) := by
  induction pods with
  | nil => exact List.Sublist.refl _
  | cons q rest ih =>
    obtain ⟨uid, p⟩ := q
    simp only [matchingCgroupIDs, allCgroupIDs, flatA]
    by_cases hm : p.matchPolicyKey wpKey
    · rw [if_pos hm]; exact ih.append_left _
    · rw [if_neg hm]; exact ih.trans (List.sublist_append_right _ _)

theorem applyPolicyToMatchingPods_policyValues (k : KernelMaps)
    (pods : List (String × PodState)) (wpKey : String) (ap : List (String × Nat)) :
    (applyPolicyToMatchingPods k pods wpKey ap).1.policyValues = k.policyValues := by
  induction pods generalizing k with
  | nil => rfl
  | cons q rest ih =>
    obtain ⟨uid, p⟩ := q
    by_cases hm : p.matchPolicyKey wpKey
    · simp only [applyPolicyToMatchingPods, if_pos hm]
      rw [ih, applyPolicyToPod_policyValues]
    · simp only [applyPolicyToMatchingPods, if_neg hm]
      exact ih k

theorem applyPolicyToMatchingPods_policyMode (k : KernelMaps)
    (pods : List (String × PodState)) (wpKey : String) (ap : List (String × Nat)) :
    (applyPolicyToMatchingPods k pods wpKey ap).1.policyMode = k.policyMode := by
  induction pods generalizing k with
  | nil => rfl
  | cons q rest ih =>
    obtain ⟨uid, p⟩ := q
    by_cases hm : p.matchPolicyKey wpKey
    · simp only [applyPolicyToMatchingPods, if_pos hm]
      rw [ih, applyPolicyToPod_policyMode]
    · simp only [applyPolicyToMatchingPods, if_neg hm]
      exact ih k

theorem applyPolicyToMatchingPods_cg_keys_nodup (k : KernelMaps)
    (pods : List (String × PodState)) (wpKey : String) (ap : List (String × Nat))
    (h : (keysA k.cgroupToPolicy).Nodup) :
    (keysA (applyPolicyToMatchingPods k pods wpKey ap).1.cgroupToPolicy).Nodup := by
  induction pods generalizing k with
  | nil => exact h
  | cons q rest ih =>
    obtain ⟨uid, p⟩ := q
    by_cases hm : p.matchPolicyKey wpKey
    · simp only [applyPolicyToMatchingPods, if_pos hm]
      exact ih _ (applyPolicyToPod_cg_keys_nodup _ _ _ h)
    · simp only [applyPolicyToMatchingPods, if_neg hm]
      exact ih k h

theorem applyPolicyToMatchingPods_lookup_not_mem (k : KernelMaps)
    (pods : List (String × PodState)) (wpKey : String) (ap : List (String × Nat)) (cg : Nat)
    (h : cg ∉ matchingCgroupIDs wpKey pods) :
    lookupA (applyPolicyToMatchingPods k pods wpKey ap).1.cgroupToPolicy cg =
      lookupA k.cgroupToPolicy cg := by
  induction pods generalizing k with
  | nil => rfl
  | cons q rest ih =>
    obtain ⟨uid, p⟩ := q
    by_cases hm : p.matchPolicyKey wpKey
    · simp only [matchingCgroupIDs, if_pos hm, List.mem_append, not_or] at h
      simp only [applyPolicyToMatchingPods, if_pos hm]
      rw [ih _ h.2, applyPolicyToPod_lookup_not_mem _ _ _ _ h.1]
    · simp only [matchingCgroupIDs, if_neg hm] at h
      simp only [applyPolicyToMatchingPods, if_neg hm]
      exact ih k h

theorem applyPolicyToMatchingPods_lookup_bound (k : KernelMaps)
    (pods : List (String × PodState)) (wpKey : String) (ap : List (String × Nat))
    {uid : String} {p : PodState} {cid : String} {c : ContainerEntry} {pid : Nat}
    (hpods : (uid, p) ∈ pods) (hm : p.matchPolicyKey wpKey = true)
    (hc : (cid, c) ∈ p.containers) (hpid : lookupA ap c.name = some pid)
    (hnd : (allCgroupIDs pods).Nodup) :
    lookupA (applyPolicyToMatchingPods k pods wpKey ap).1.cgroupToPolicy c.cgID = some pid := by
  induction pods generalizing k with
  | nil => simp at hpods
  | cons q rest ih =>
    obtain ⟨uid0, p0⟩ := q
    simp only [allCgroupIDs, flatA] at hnd
    have hnd1 := (List.nodup_append.mp hnd).1
    have hnd2 := (List.nodup_append.mp hnd).2.1
    have hdisj := (List.nodup_append.mp hnd).2.2
    rcases List.mem_cons.mp hpods with h | h
    · obtain ⟨rfl, rfl⟩ := Prod.mk.injEq .. ▸ h
      simp only [applyPolicyToMatchingPods, if_pos hm]
      have hcg_mem : c.cgID ∈ p.cgIDs := by
        simp only [PodState.cgIDs, List.mem_map]
        exact ⟨(cid, c), hc, rfl⟩
      have hnot : c.cgID ∉ matchingCgroupIDs wpKey rest := fun hmem =>
        hdisj hcg_mem ((matchingCgroupIDs_sublist wpKey rest).mem hmem)
      rw [applyPolicyToMatchingPods_lookup_not_mem _ _ _ _ _ hnot]
      exact applyPolicyToPod_lookup_bound _ _ _ hc hpid (PodState.cgIDs_eq p ▸ hnd1)
    · by_cases hm0 : p0.matchPolicyKey wpKey
      · simp only [applyPolicyToMatchingPods, if_pos hm0]
        exact ih _ h hnd2
      · simp only [applyPolicyToMatchingPods, if_neg hm0]
        exact ih k h hnd2

theorem applyPolicyToMatchingPods_lookup_noop (k : KernelMaps)
    (pods : List (String × PodState)) (wpKey : String) (ap : List (String × Nat))
    (hall : ∀ uid p, (uid, p) ∈ pods → p.matchPolicyKey wpKey = true →
      ∀ cid c, (cid, c) ∈ p.containers → ∀ pid, lookupA ap c.name = some pid →
        lookupA k.cgroupToPolicy c.cgID = some pid) (cg : Nat) :
    lookupA (applyPolicyToMatchingPods k pods wpKey ap).1.cgroupToPolicy cg =
      lookupA k.cgroupToPolicy cg := by
  induction pods generalizing k with
  | nil => rfl
  | cons q rest ih =>
    obtain ⟨uid0, p0⟩ := q
    by_cases hm0 : p0.matchPolicyKey wpKey
    · simp only [applyPolicyToMatchingPods, if_pos hm0]
      have hpt : ∀ a, lookupA (applyPolicyToPod k p0.containers ap).1.cgroupToPolicy a =
          lookupA k.cgroupToPolicy a :=
        applyPolicyToPod_lookup_noop k p0.containers ap
          (fun cid c hmem pid hpid =>
            hall uid0 p0 (List.mem_cons_self _ _) hm0 cid c hmem pid hpid)
      rw [ih _ (fun uid p hmem hm cid c hc pid hpid =>
        (hpt c.cgID).trans (hall uid p (List.mem_cons_of_mem _ hmem) hm cid c hc pid hpid)),
        hpt cg]
    · simp only [applyPolicyToMatchingPods, if_neg hm0]
      exact ih k (fun uid p hmem => hall uid p (List.mem_cons_of_mem _ hmem))

theorem applyPolicyToMatchingPods_trace_shape (k : KernelMaps)
    (pods : List (String × PodState)) (wpKey : String) (ap : List (String × Nat)) :
    ∀ op ∈ (applyPolicyToMatchingPods k pods wpKey ap).2,
      ∃ polID cgid, op = .cgroup polID [cgid] .addPolicyToCgroups := by
  induction pods generalizing k with
  | nil => simp [applyPolicyToMatchingPods]
  | cons q rest ih =>
    obtain ⟨uid0, p0⟩ := q
    by_cases hm0 : p0.matchPolicyKey wpKey
    · simp only [applyPolicyToMatchingPods, if_pos hm0, List.mem_append]
      rintro op (hop | hop)
      · exact applyPolicyToPod_trace_shape _ _ _ op hop
      · exact ih _ op hop
    · simp only [applyPolicyToMatchingPods, if_neg hm0]
      exact ih k

/-! ## Effect lemmas: `removePolicyFromPod` -/

/-- Cgroup ids of the containers (of one pod) whose name is listed in `removed`. -/
def removedCgIDs (removed : List (String × Nat)) : List (String × ContainerEntry) → List Nat
  | [] => []
  | (_, c) :: rest =>
    if (lookupA removed c.name).isSome then c.cgID :: removedCgIDs removed rest
    else removedCgIDs removed rest

/-- Names of the containers (of one pod) listed in `removed`. -/
def removedContainerNames (removed : List (String × Nat)) :
    List (String × ContainerEntry) → List String
  | [] => []
  | (_, c) :: rest =>
    if (lookupA removed c.name).isSome then c.name :: removedContainerNames removed rest
    else removedContainerNames removed rest

/-- Policy ids that `removePolicyFromPod` clears for one pod. -/
def removedPolicyIDs (removed : List (String × Nat)) : List (String × ContainerEntry) → List Nat
  | [] => []
  | (_, c) :: rest =>
    match lookupA removed c.name with
    | some polID => polID :: removedPolicyIDs removed rest
    | none => removedPolicyIDs removed rest

theorem applyKernelOp_remove_single (k : KernelMaps) (polID cgid : Nat) :
    (applyKernelOp k (.cgroup polID [cgid] .removeCgroups)).cgroupToPolicy =
      eraseA k.cgroupToPolicy cgid := rfl

theorem clearPolicyIDFromBPF_policyValues (k : KernelMaps) (policyID : Nat) :
    (clearPolicyIDFromBPF k policyID).1.policyValues = eraseA k.policyValues policyID := rfl

theorem clearPolicyIDFromBPF_policyMode (k : KernelMaps) (policyID : Nat) :
    (clearPolicyIDFromBPF k policyID).1.policyMode = eraseA k.policyMode policyID := rfl

theorem removedCgIDs_sublist (removed : List (String × Nat))
    (cs : List (String × ContainerEntry)) :
    (removedCgIDs removed cs).Sublist (containersCgIDs cs) := by
  induction cs with
  | nil => exact List.Sublist.refl _
  | cons q rest ih =>
    obtain ⟨cid, c⟩ := q
    simp only [removedCgIDs, containersCgIDs, List.map_cons]
    by_cases hv : (lookupA removed c.name).isSome
    · rw [if_pos hv]; exact ih.cons₂ _
    · rw [if_neg hv]; exact ih.cons _

theorem removePolicyFromPod_cg_lookup (k : KernelMaps) (cs : List (String × ContainerEntry))
    (pol removed : List (String × Nat)) (cg : Nat) :
    lookupA (removePolicyFromPod k cs pol removed).1.cgroupToPolicy cg =
      if cg ∈ removedCgIDs removed cs then none else lookupA k.cgroupToPolicy cg := by
  induction cs generalizing k pol with
  | nil => simp [removePolicyFromPod, removedCgIDs]
  | cons q rest ih =>
    obtain ⟨cid, c⟩ := q
    cases hv : lookupA removed c.name with
    | none =>
      simp only [removePolicyFromPod, hv, removedCgIDs, Option.isSome_none, Bool.false_eq_true,
        if_false]
      exact ih k pol
    | some polID =>
      simp only [removePolicyFromPod, hv, removedCgIDs, Option.isSome_some, if_true]
      rw [ih _ _]
      by_cases hmem : cg ∈ removedCgIDs removed rest
      · simp [hmem, List.mem_cons]
      · rw [if_neg hmem]
        have hcl : (clearPolicyIDFromBPF
            (applyKernelOp k (.cgroup 0 [c.cgID] .removeCgroups)) polID).1.cgroupToPolicy =
            eraseA k.cgroupToPolicy c.cgID := by
          rw [clearPolicyIDFromBPF_cgroupToPolicy, applyKernelOp_remove_single]
        rw [hcl, lookupA_eraseA]
        by_cases hc : cg = c.cgID
        · simp [hc, List.mem_cons]
        · simp [hc, List.mem_cons, hmem]

theorem removePolicyFromPod_pol_lookup (k : KernelMaps) (cs : List (String × ContainerEntry))
    (pol removed : List (String × Nat)) (nm : String) :
    lookupA (removePolicyFromPod k cs pol removed).2.1 nm =
      if nm ∈ removedContainerNames removed cs then none else lookupA pol nm := by
  induction cs generalizing k pol with
  | nil => simp [removePolicyFromPod, removedContainerNames]
  | cons q rest ih =>
    obtain ⟨cid, c⟩ := q
    cases hv : lookupA removed c.name with
    | none =>
      simp only [removePolicyFromPod, hv, removedContainerNames, Option.isSome_none,
        Bool.false_eq_true, if_false]
      exact ih k pol
    | some polID =>
      simp only [removePolicyFromPod, hv, removedContainerNames, Option.isSome_some, if_true]
      rw [ih _ _]
      by_cases hmem : nm ∈ removedContainerNames removed rest
      · simp [hmem, List.mem_cons]
      · rw [if_neg hmem, lookupA_eraseA]
        by_cases hc : nm = c.name
        · simp [hc, List.mem_cons]
        · simp [hc, List.mem_cons, hmem]

theorem removePolicyFromPod_pol_sublist (k : KernelMaps) (cs : List (String × ContainerEntry))
    (pol removed : List (String × Nat)) :
    (removePolicyFromPod k cs pol removed).2.1.Sublist pol := by
  induction cs generalizing k pol with
  | nil => exact List.Sublist.refl _
  | cons q rest ih =>
    obtain ⟨cid, c⟩ := q
    cases hv : lookupA removed c.name with
    | none => simp only [removePolicyFromPod, hv]; exact ih k pol
    | some polID =>
      simp only [removePolicyFromPod, hv]
      exact (ih _ _).trans (eraseA_sublist pol c.name)

theorem removePolicyFromPod_values_lookup (k : KernelMaps)
    (cs : List (String × ContainerEntry)) (pol removed : List (String × Nat)) (pid : Nat) :
    lookupA (removePolicyFromPod k cs pol removed).1.policyValues pid =
      if pid ∈ removedPolicyIDs removed cs then none else lookupA k.policyValues pid := by
  induction cs generalizing k pol with
  | nil => simp [removePolicyFromPod, removedPolicyIDs]
  | cons q rest ih =>
    obtain ⟨cid, c⟩ := q
    cases hv : lookupA removed c.name with
    | none =>
      simp only [removePolicyFromPod, hv, removedPolicyIDs]
      exact ih k pol
    | some polID =>
      simp only [removePolicyFromPod, hv, removedPolicyIDs]
      rw [ih _ _]
      by_cases hmem : pid ∈ removedPolicyIDs removed rest
      · simp [hmem, List.mem_cons]
      · rw [if_neg hmem]
        have hcl : (clearPolicyIDFromBPF
            (applyKernelOp k (.cgroup 0 [c.cgID] .removeCgroups)) polID).1.policyValues =
            eraseA k.policyValues polID := by
          rw [clearPolicyIDFromBPF_policyValues]
          rfl
        rw [hcl, lookupA_eraseA]
        by_cases hc : pid = polID
        · simp [hc, List.mem_cons]
        · simp [hc, List.mem_cons, hmem]

theorem removePolicyFromPod_mode_lookup (k : KernelMaps)
    (cs : List (String × ContainerEntry)) (pol removed : List (String × Nat)) (pid : Nat) :
    lookupA (removePolicyFromPod k cs pol removed).1.policyMode pid =
      if pid ∈ removedPolicyIDs removed cs then none else lookupA k.policyMode pid := by
  induction cs generalizing k pol with
  | nil => simp [removePolicyFromPod, removedPolicyIDs]
  | cons q rest ih =>
    obtain ⟨cid, c⟩ := q
    cases hv : lookupA removed c.name with
    | none =>
      simp only [removePolicyFromPod, hv, removedPolicyIDs]
      exact ih k pol
    | some polID =>
      simp only [removePolicyFromPod, hv, removedPolicyIDs]
      rw [ih _ _]
      by_cases hmem : pid ∈ removedPolicyIDs removed rest
      · simp [hmem, List.mem_cons]
      · rw [if_neg hmem]
        have hcl : (clearPolicyIDFromBPF
            (applyKernelOp k (.cgroup 0 [c.cgID] .removeCgroups)) polID).1.policyMode =
            eraseA k.policyMode polID := by
          rw [clearPolicyIDFromBPF_policyMode, applyKernelOp_cgroup_policyMode]
        rw [hcl, lookupA_eraseA]
        by_cases hc : pid = polID
        · simp [hc, List.mem_cons]
        · simp [hc, List.mem_cons, hmem]

theorem removePolicyFromPod_cg_keys_nodup (k : KernelMaps)
    (cs : List (String × ContainerEntry)) (pol removed : List (String × Nat))
    (h : (keysA k.cgroupToPolicy).Nodup) :
    (keysA (removePolicyFromPod k cs pol removed).1.cgroupToPolicy).Nodup := by
  induction cs generalizing k pol with
  | nil => exact h
  | cons q rest ih =>
    obtain ⟨cid, c⟩ := q
    cases hv : lookupA removed c.name with
    | none => simp only [removePolicyFromPod, hv]; exact ih k pol h
    | some polID =>
      simp only [removePolicyFromPod, hv]
      refine ih _ _ ?_
      have hcl : (clearPolicyIDFromBPF
          (applyKernelOp k (.cgroup 0 [c.cgID] .removeCgroups)) polID).1.cgroupToPolicy =
          eraseA k.cgroupToPolicy c.cgID := by
        rw [clearPolicyIDFromBPF_cgroupToPolicy, applyKernelOp_remove_single]
      rw [hcl]
      exact (keysA_sublist_of_sublist (eraseA_sublist _ _)).nodup h

theorem removePolicyFromPod_removed_nil (k : KernelMaps)
    (cs : List (String × ContainerEntry)) (pol : List (String × Nat)) :
    removePolicyFromPod k cs pol [] = (k, pol, []) := by
  induction cs with
  | nil => rfl
  | cons q rest ih =>
    obtain ⟨cid, c⟩ := q
    simp only [removePolicyFromPod, lookupA]
    exact ih

/-! ## Effect lemmas: `updateMatchingPods` -/

/-- Container names removed across all matching pods during an update. -/
def matchingRemovedNames (wpKey : String) (removed : List (String × Nat)) :
    List (String × PodState) → List String
  | [] => []
  | (_, p) :: rest =>
    if p.matchPolicyKey wpKey then
      removedContainerNames removed p.containers ++ matchingRemovedNames wpKey removed rest
    else matchingRemovedNames wpKey removed rest

/-- Policy ids cleared across all matching pods during an update. -/
def matchingRemovedPids (wpKey : String) (removed : List (String × Nat)) :
    List (String × PodState) → List Nat
  | [] => []
  | (_, p) :: rest =>
    if p.matchPolicyKey wpKey then
      removedPolicyIDs removed p.containers ++ matchingRemovedPids wpKey removed rest
    else matchingRemovedPids wpKey removed rest

theorem updateMatchingPods_lookup_not_mem (k : KernelMaps)
    (pods : List (String × PodState)) (wpKey : String)
    (pol applied removed : List (String × Nat)) (cg : Nat)
    (h : cg ∉ matchingCgroupIDs wpKey pods) :
    lookupA (updateMatchingPods k pods wpKey pol applied removed).1.cgroupToPolicy cg =
      lookupA k.cgroupToPolicy cg := by
  induction pods generalizing k pol with
  | nil => rfl
  | cons q rest ih =>
    obtain ⟨uid, p⟩ := q
    by_cases hm : p.matchPolicyKey wpKey
    · simp only [matchingCgroupIDs, if_pos hm, List.mem_append, not_or] at h
      simp only [updateMatchingPods, if_pos hm]
      have hrm : cg ∉ removedCgIDs removed p.containers := fun hmem =>
        h.1 ((removedCgIDs_sublist removed p.containers).mem hmem)
      rw [ih _ _ h.2, applyPolicyToPod_lookup_not_mem _ _ _ _ h.1,
        removePolicyFromPod_cg_lookup, if_neg hrm]
    · simp only [matchingCgroupIDs, if_neg hm] at h
      simp only [updateMatchingPods, if_neg hm]
      exact ih k pol h

theorem updateMatchingPods_pol_lookup (k : KernelMaps)
    (pods : List (String × PodState)) (wpKey : String)
    (pol applied removed : List (String × Nat)) (nm : String) :
    lookupA (updateMatchingPods k pods wpKey pol applied removed).2.1 nm =
      if nm ∈ matchingRemovedNames wpKey removed pods then none else lookupA pol nm := by
  induction pods generalizing k pol with
  | nil => simp [updateMatchingPods, matchingRemovedNames]
  | cons q rest ih =>
    obtain ⟨uid, p⟩ := q
    by_cases hm : p.matchPolicyKey wpKey
    · simp only [updateMatchingPods, if_pos hm, matchingRemovedNames]
      rw [ih _ _]
      by_cases hmem : nm ∈ matchingRemovedNames wpKey removed rest
      · simp [hmem, List.mem_append]
      · rw [if_neg hmem, removePolicyFromPod_pol_lookup]
        by_cases hrm : nm ∈ removedContainerNames removed p.containers
        · simp [hrm, List.mem_append]
        · simp [hrm, List.mem_append, hmem]
    · simp only [updateMatchingPods, if_neg hm, matchingRemovedNames]
      exact ih k pol

theorem updateMatchingPods_pol_sublist (k : KernelMaps)
    (pods : List (String × PodState)) (wpKey : String)
    (pol applied removed : List (String × Nat)) :
    (updateMatchingPods k pods wpKey pol applied removed).2.1.Sublist pol := by
  induction pods generalizing k pol with
  | nil => exact List.Sublist.refl _
  | cons q rest ih =>
    obtain ⟨uid, p⟩ := q
    by_cases hm : p.matchPolicyKey wpKey
    · simp only [updateMatchingPods, if_pos hm]
      exact (ih _ _).trans (removePolicyFromPod_pol_sublist _ _ _ _)
    · simp only [updateMatchingPods, if_neg hm]
      exact ih k pol

theorem updateMatchingPods_values_lookup (k : KernelMaps)
    (pods : List (String × PodState)) (wpKey : String)
    (pol applied removed : List (String × Nat)) (pid : Nat) :
    lookupA (updateMatchingPods k pods wpKey pol applied removed).1.policyValues pid =
      if pid ∈ matchingRemovedPids wpKey removed pods then none
      else lookupA k.policyValues pid := by
  induction pods generalizing k pol with
  | nil => simp [updateMatchingPods, matchingRemovedPids]
  | cons q rest ih =>
    obtain ⟨uid, p⟩ := q
    by_cases hm : p.matchPolicyKey wpKey
    · simp only [updateMatchingPods, if_pos hm, matchingRemovedPids]
      rw [ih _ _]
      by_cases hmem : pid ∈ matchingRemovedPids wpKey removed rest
      · simp [hmem, List.mem_append]
      · rw [if_neg hmem, applyPolicyToPod_policyValues, removePolicyFromPod_values_lookup]
        by_cases hrm : pid ∈ removedPolicyIDs removed p.containers
        · simp [hrm, List.mem_append]
        · simp [hrm, List.mem_append, hmem]
    · simp only [updateMatchingPods, if_neg hm, matchingRemovedPids]
      exact ih k pol

theorem updateMatchingPods_mode_lookup (k : KernelMaps)
    (pods : List (String × PodState)) (wpKey : String)
    (pol applied removed : List (String × Nat)) (pid : Nat) :
    lookupA (updateMatchingPods k pods wpKey pol applied removed).1.policyMode pid =
      if pid ∈ matchingRemovedPids wpKey removed pods then none
      else lookupA k.policyMode pid := by
  induction pods generalizing k pol with
  | nil => simp [updateMatchingPods, matchingRemovedPids]
  | cons q rest ih =>
    obtain ⟨uid, p⟩ := q
    by_cases hm : p.matchPolicyKey wpKey
    · simp only [updateMatchingPods, if_pos hm, matchingRemovedPids]
      rw [ih _ _]
      by_cases hmem : pid ∈ matchingRemovedPids wpKey removed rest
      · simp [hmem, List.mem_append]
      · rw [if_neg hmem, applyPolicyToPod_policyMode, removePolicyFromPod_mode_lookup]
        by_cases hrm : pid ∈ removedPolicyIDs removed p.containers
        · simp [hrm, List.mem_append]
        · simp [hrm, List.mem_append, hmem]
    · simp only [updateMatchingPods, if_neg hm, matchingRemovedPids]
      exact ih k pol

theorem updateMatchingPods_cg_keys_nodup (k : KernelMaps)
    (pods : List (String × PodState)) (wpKey : String)
    (pol applied removed : List (String × Nat)) (h : (keysA k.cgroupToPolicy).Nodup) :
    (keysA (updateMatchingPods k pods wpKey pol applied removed).1.cgroupToPolicy).Nodup := by
  induction pods generalizing k pol with
  | nil => exact h
  | cons q rest ih =>
    obtain ⟨uid, p⟩ := q
    by_cases hm : p.matchPolicyKey wpKey
    · simp only [updateMatchingPods, if_pos hm]
      exact ih _ _ (applyPolicyToPod_cg_keys_nodup _ _ _
        (removePolicyFromPod_cg_keys_nodup _ _ _ _ h))
    · simp only [updateMatchingPods, if_neg hm]
      exact ih k pol h

theorem updateMatchingPods_lookup_bound (k : KernelMaps)
    (pods : List (String × PodState)) (wpKey : String)
    (pol applied removed : List (String × Nat))
    {uid : String} {p : PodState} {cid : String} {c : ContainerEntry} {pid : Nat}
    (hpods : (uid, p) ∈ pods) (hm : p.matchPolicyKey wpKey = true)
    (hc : (cid, c) ∈ p.containers) (hpid : lookupA applied c.name = some pid)
    (hnd : (allCgroupIDs pods).Nodup) :
    lookupA (updateMatchingPods k pods wpKey pol applied removed).1.cgroupToPolicy c.cgID =
      some pid := by
  induction pods generalizing k pol with
  | nil => simp at hpods
  | cons q rest ih =>
    obtain ⟨uid0, p0⟩ := q
    simp only [allCgroupIDs, flatA] at hnd
    have hnd1 := (List.nodup_append.mp hnd).1
    have hnd2 := (List.nodup_append.mp hnd).2.1
    have hdisjcg := (List.nodup_append.mp hnd).2.2
    rcases List.mem_cons.mp hpods with h | h
    · obtain ⟨rfl, rfl⟩ := Prod.mk.injEq .. ▸ h
      simp only [updateMatchingPods, if_pos hm]
      have hcg_mem : c.cgID ∈ p.cgIDs := by
        simp only [PodState.cgIDs, List.mem_map]
        exact ⟨(cid, c), hc, rfl⟩
      have hnot : c.cgID ∉ matchingCgroupIDs wpKey rest := fun hmem =>
        hdisjcg hcg_mem ((matchingCgroupIDs_sublist wpKey rest).mem hmem)
      rw [updateMatchingPods_lookup_not_mem _ _ _ _ _ _ _ hnot]
      exact applyPolicyToPod_lookup_bound _ _ _ hc hpid (PodState.cgIDs_eq p ▸ hnd1)
    · by_cases hm0 : p0.matchPolicyKey wpKey
      · simp only [updateMatchingPods, if_pos hm0]
        exact ih _ _ h hnd2
      · simp only [updateMatchingPods, if_neg hm0]
        exact ih k pol h hnd2

theorem updateMatchingPods_removed_nil (k : KernelMaps)
    (pods : List (String × PodState)) (wpKey : String)
    (pol applied : List (String × Nat)) :
    updateMatchingPods k pods wpKey pol applied [] =
      ((applyPolicyToMatchingPods k pods wpKey applied).1, pol,
        (applyPolicyToMatchingPods k pods wpKey applied).2) := by
  induction pods generalizing k with
  | nil => rfl
  | cons q rest ih =>
    obtain ⟨uid, p⟩ := q
    by_cases hm : p.matchPolicyKey wpKey
    · simp only [updateMatchingPods, applyPolicyToMatchingPods, if_pos hm,
        removePolicyFromPod_removed_nil, ih, List.nil_append]
    · simp only [updateMatchingPods, applyPolicyToMatchingPods, if_neg hm, ih]

/-! ## Effect lemmas: `syncWorkloadPolicy`, `mergeNewContainers`, `deletePolicyContainers` -/

theorem upsertPolicyIDInBPF_values_lookup (k : KernelMaps) (policyID : Nat)
    (vals : List String) (m : Nat) (op : PolicyValuesOperation)
    (hop : op ≠ .removeValuesFromPolicy) (pid : Nat) :
    lookupA (upsertPolicyIDInBPF k policyID vals m op).1.policyValues pid =
      lookupA (insertA k.policyValues policyID vals) pid := by
  cases op with
  | addValuesToPolicy => rfl
  | replaceValuesInPolicy => rfl
  | removeValuesFromPolicy => exact absurd rfl hop

theorem upsertPolicyIDInBPF_mode_lookup (k : KernelMaps) (policyID : Nat)
    (vals : List String) (m : Nat) (op : PolicyValuesOperation) (pid : Nat) :
    lookupA (upsertPolicyIDInBPF k policyID vals m op).1.policyMode pid =
      lookupA (insertA k.policyMode policyID m) pid := by
  cases op <;> rfl

theorem syncWorkloadPolicy_spec (k : KernelMaps) (next : Nat) (pol : List (String × Nat))
    (m : Nat) (rules : List (String × WorkloadPolicyRules)) :
    (syncWorkloadPolicy k next pol m rules).1.cgroupToPolicy = k.cgroupToPolicy ∧
    next ≤ (syncWorkloadPolicy k next pol m rules).2.1 ∧
    (∀ q ∈ (syncWorkloadPolicy k next pol m rules).2.2.1,
      next ≤ q.2 ∧ q.2 < (syncWorkloadPolicy k next pol m rules).2.1 ∧
        lookupA pol q.1 = none) ∧
    ((syncWorkloadPolicy k next pol m rules).2.2.1.map Prod.snd).Nodup ∧
    (keysA (syncWorkloadPolicy k next pol m rules).2.2.1).Sublist (keysA rules) := by
  induction rules generalizing k next with
  | nil =>
    refine ⟨rfl, Nat.le_refl _, ?_, List.nodup_nil, List.Sublist.refl _⟩
    intro q hq
    simp [syncWorkloadPolicy] at hq
  | cons q rules ih =>
    obtain ⟨containerName, rules0⟩ := q
    cases hv : lookupA pol containerName with
    | some polID =>
      simp only [syncWorkloadPolicy, hv]
      obtain ⟨ih1, ih2, ih3, ih4, ih5⟩ := ih _ next
      refine ⟨?_, ih2, ih3, ih4, ?_⟩
      · rw [ih1]
        simp [upsertPolicyIDInBPF, applyKernelOp_values_cgroupToPolicy,
          applyKernelOp_mode_cgroupToPolicy]
      · exact ih5.trans (List.sublist_cons_self _ _)
    | none =>
      simp only [syncWorkloadPolicy, hv]
      obtain ⟨ih1, ih2, ih3, ih4, ih5⟩ := ih _ (next + 1)
      refine ⟨?_, Nat.le_of_succ_le ih2, ?_, ?_, ?_⟩
      · rw [ih1]
        simp [upsertPolicyIDInBPF, applyKernelOp_values_cgroupToPolicy,
          applyKernelOp_mode_cgroupToPolicy]
      · intro q hq
        rcases List.mem_cons.mp hq with h | h
        · subst h
          exact ⟨Nat.le_refl _, Nat.lt_of_succ_le ih2, hv⟩
        · obtain ⟨h1, h2, h3⟩ := ih3 q h
          exact ⟨Nat.le_of_succ_le h1, h2, h3⟩
      · simp only [List.map_cons, List.nodup_cons]
        refine ⟨fun hmem => ?_, ih4⟩
        obtain ⟨q, hq, hqs⟩ := List.mem_map.mp hmem
        obtain ⟨h1, _, _⟩ := ih3 q hq
        rw [hqs] at h1
        exact Nat.not_succ_le_self next h1
      · simp only [keysA, List.map_cons]
        exact ih5.cons₂ _

theorem syncWorkloadPolicy_noop (k : KernelMaps) (next : Nat) (pol : List (String × Nat))
    (m : Nat) (rules : List (String × WorkloadPolicyRules))
    (hall : ∀ cn r, (cn, r) ∈ rules → ∃ pid, lookupA pol cn = some pid ∧
      lookupA k.policyValues pid = some r.allowed ∧ lookupA k.policyMode pid = some m) :
    (syncWorkloadPolicy k next pol m rules).2.1 = next ∧
    (syncWorkloadPolicy k next pol m rules).2.2.1 = [] ∧
    (∀ pid, lookupA (syncWorkloadPolicy k next pol m rules).1.policyValues pid =
      lookupA k.policyValues pid) ∧
    (∀ pid, lookupA (syncWorkloadPolicy k next pol m rules).1.policyMode pid =
      lookupA k.policyMode pid) := by
  induction rules generalizing k with
  | nil => exact ⟨rfl, rfl, fun _ => rfl, fun _ => rfl⟩
  | cons q rules ih =>
    obtain ⟨containerName, rules0⟩ := q
    obtain ⟨pid0, hpid0, hvals0, hmode0⟩ := hall containerName rules0 (List.mem_cons_self _ _)
    simp only [syncWorkloadPolicy, hpid0]
    have hkv : ∀ pid, lookupA (upsertPolicyIDInBPF k pid0 rules0.allowed m
        .replaceValuesInPolicy).1.policyValues pid = lookupA k.policyValues pid := by
      intro pid
      rw [upsertPolicyIDInBPF_values_lookup _ _ _ _ _ (by simp)]
      exact lookupA_insertA_of_lookupA_eq _ _ _ _ hvals0
    have hkm : ∀ pid, lookupA (upsertPolicyIDInBPF k pid0 rules0.allowed m
        .replaceValuesInPolicy).1.policyMode pid = lookupA k.policyMode pid := by
      intro pid
      rw [upsertPolicyIDInBPF_mode_lookup]
      exact lookupA_insertA_of_lookupA_eq _ _ _ _ hmode0
    obtain ⟨ih1, ih2, ih3, ih4⟩ := ih _ (fun cn r hmem => by
      obtain ⟨pid, h1, h2, h3⟩ := hall cn r (List.mem_cons_of_mem _ hmem)
      exact ⟨pid, h1, (hkv pid).trans h2, (hkm pid).trans h3⟩)
    exact ⟨ih1, ih2, fun pid => (ih3 pid).trans (hkv pid),
      fun pid => (ih4 pid).trans (hkm pid)⟩

theorem mergeNewContainers_nil (pol : List (String × Nat)) :
    mergeNewContainers pol [] = pol := rfl

theorem mergeNewContainers_lookup (pol newc : List (String × Nat))
    (hnd : (keysA newc).Nodup) (nm : String) :
    lookupA (mergeNewContainers pol newc) nm =
      match lookupA newc nm with
      | some v => some v
      | none => lookupA pol nm := by
  induction newc generalizing pol with
  | nil => simp [mergeNewContainers, lookupA]
  | cons q rest ih =>
    obtain ⟨c0, v0⟩ := q
    simp only [keysA, List.map_cons, List.nodup_cons] at hnd
    simp only [mergeNewContainers, lookupA]
    rw [ih _ hnd.2]
    by_cases hc : nm = c0
    · subst hc
      have : lookupA rest nm = none := lookupA_eq_none_of_not_mem_keysA _ _ hnd.1
      simp [this, lookupA_insertA]
    · cases hr : lookupA rest nm with
      | some v => simp [hc]
      | none => simp [hc, lookupA_insertA]

theorem mergeNewContainers_mem (pol newc : List (String × Nat)) :
    ∀ q ∈ mergeNewContainers pol newc, q ∈ newc ∨ q ∈ pol := by
  induction newc generalizing pol with
  | nil => intro q hq; exact Or.inr hq
  | cons q0 rest ih =>
    obtain ⟨c0, v0⟩ := q0
    intro q hq
    rcases ih (insertA pol c0 v0) q hq with h | h
    · exact Or.inl (List.mem_cons_of_mem _ h)
    · rcases List.mem_cons.mp h with h2 | h2
      · exact Or.inl (h2 ▸ List.mem_cons_self _ _)
      · exact Or.inr ((eraseA_sublist pol c0).mem h2)

theorem mergeNewContainers_keys_nodup (pol newc : List (String × Nat))
    (h : (keysA pol).Nodup) : (keysA (mergeNewContainers pol newc)).Nodup := by
  induction newc generalizing pol with
  | nil => exact h
  | cons q0 rest ih =>
    obtain ⟨c0, v0⟩ := q0
    exact ih _ (keysA_insertA_nodup _ _ _ h)

theorem deletePolicyContainers_cg_lookup (k : KernelMaps) (pol : List (String × Nat))
    (hnd : (keysA k.cgroupToPolicy).Nodup) (cg : Nat) :
    lookupA (deletePolicyContainers k pol).1.cgroupToPolicy cg =
      match lookupA k.cgroupToPolicy cg with
      | some p => if p ∈ pol.map Prod.snd then none else some p
      | none => none := by
  induction pol generalizing k with
  | nil =>
    simp only [deletePolicyContainers, List.map_nil]
    cases lookupA k.cgroupToPolicy cg <;> simp
  | cons q rest ih =>
    obtain ⟨c0, pid0⟩ := q
    simp only [deletePolicyContainers]
    have hk1 : (clearPolicyIDFromBPF (applyKernelOp k (.cgroup pid0 [] .removePolicy))
        pid0).1.cgroupToPolicy = removePolicyBindings k.cgroupToPolicy pid0 := by
      rw [clearPolicyIDFromBPF_cgroupToPolicy]
      rfl
    have hnd1 : (keysA (removePolicyBindings k.cgroupToPolicy pid0)).Nodup :=
      (keysA_sublist_of_sublist (removePolicyBindings_sublist _ _)).nodup hnd
    rw [ih _ (hk1 ▸ hnd1), hk1, removePolicyBindings_lookup _ _ _ hnd]
    cases hr : lookupA k.cgroupToPolicy cg with
    | none => simp
    | some p =>
      by_cases hp : p = pid0
      · simp [hp, List.mem_cons]
      · simp only [hp, if_false, List.map_cons, List.mem_cons]
        by_cases hmem : p ∈ rest.map Prod.snd
        · simp [hmem, hp]
        · simp [hmem, hp]

/-! ## Membership and uniqueness lemmas -/

theorem lookupA_filter {α β : Type} [DecidableEq α] (pol : List (α × β)) (f : α → Bool)
    (hnd : (keysA pol).Nodup) (nm : α) :
    lookupA (pol.filter (fun q => f q.1)) nm = if f nm then lookupA pol nm else none := by
  induction pol with
  | nil => simp [lookupA]
  | cons q rest ih =>
    obtain ⟨k0, v0⟩ := q
    simp only [keysA, List.map_cons, List.nodup_cons] at hnd
    rw [List.filter_cons]
    by_cases hf : f k0
    · simp only [hf, if_true, lookupA]
      by_cases hc : nm = k0
      · subst hc; simp [hf]
      · simp [hc, ih hnd.2]
    · simp only [hf, Bool.false_eq_true, if_false]
      rw [ih hnd.2]
      by_cases hc : nm = k0
      · subst hc
        simp [lookupA, hf, lookupA_eq_none_of_not_mem_keysA _ _ hnd.1]
      · simp [lookupA, hc]

theorem mem_removedContainerNames (removed : List (String × Nat))
    (cs : List (String × ContainerEntry)) (nm : String) :
    nm ∈ removedContainerNames removed cs ↔
      ∃ q ∈ cs, q.2.name = nm ∧ (lookupA removed nm).isSome := by
  induction cs with
  | nil => simp [removedContainerNames]
  | cons q rest ih =>
    obtain ⟨cid, c⟩ := q
    simp only [removedContainerNames]
    by_cases hv : (lookupA removed c.name).isSome
    · rw [if_pos hv]
      simp only [List.mem_cons, ih]
      constructor
      · rintro (rfl | ⟨q', hq', h1, h2⟩)
        · exact ⟨(cid, c), Or.inl rfl, rfl, hv⟩
        · exact ⟨q', Or.inr hq', h1, h2⟩
      · rintro ⟨q', h | h, h1, h2⟩
        · subst h; exact Or.inl h1.symm
        · exact Or.inr ⟨q', h, h1, h2⟩
    · rw [if_neg hv]
      simp only [ih, List.mem_cons]
      constructor
      · rintro ⟨q', hq', h1, h2⟩
        exact ⟨q', Or.inr hq', h1, h2⟩
      · rintro ⟨q', h | h, h1, h2⟩
        · subst h
          simp only at h1
          rw [h1] at hv
          exact absurd h2 hv
        · exact ⟨q', h, h1, h2⟩

theorem mem_matchingRemovedNames (wpKey : String) (removed : List (String × Nat))
    (pods : List (String × PodState)) (nm : String) :
    nm ∈ matchingRemovedNames wpKey removed pods ↔
      ∃ q ∈ pods, q.2.matchPolicyKey wpKey = true ∧
        nm ∈ removedContainerNames removed q.2.containers := by
  induction pods with
  | nil => simp [matchingRemovedNames]
  | cons q rest ih =>
    obtain ⟨uid, p⟩ := q
    simp only [matchingRemovedNames]
    by_cases hm : p.matchPolicyKey wpKey
    · rw [if_pos hm]
      simp only [List.mem_append, ih, List.mem_cons]
      constructor
      · rintro (h | ⟨q', hq', h1, h2⟩)
        · exact ⟨(uid, p), Or.inl rfl, hm, h⟩
        · exact ⟨q', Or.inr hq', h1, h2⟩
      · rintro ⟨q', h | h, h1, h2⟩
        · subst h; exact Or.inl h2
        · exact Or.inr ⟨q', h, h1, h2⟩
    · rw [if_neg hm]
      simp only [ih, List.mem_cons]
      constructor
      · rintro ⟨q', hq', h1, h2⟩
        exact ⟨q', Or.inr hq', h1, h2⟩
      · rintro ⟨q', h | h, h1, h2⟩
        · subst h; exact absurd h1 hm
        · exact ⟨q', h, h1, h2⟩

theorem mem_matchingCgroupIDs (wpKey : String) (pods : List (String × PodState)) (cg : Nat) :
    cg ∈ matchingCgroupIDs wpKey pods ↔
      ∃ q ∈ pods, q.2.matchPolicyKey wpKey = true ∧ cg ∈ q.2.cgIDs := by
  induction pods with
  | nil => simp [matchingCgroupIDs]
  | cons q rest ih =>
    obtain ⟨uid, p⟩ := q
    simp only [matchingCgroupIDs]
    by_cases hm : p.matchPolicyKey wpKey
    · rw [if_pos hm]
      simp only [List.mem_append, ih, List.mem_cons]
      constructor
      · rintro (h | ⟨q', hq', h1, h2⟩)
        · exact ⟨(uid, p), Or.inl rfl, hm, h⟩
        · exact ⟨q', Or.inr hq', h1, h2⟩
      · rintro ⟨q', h | h, h1, h2⟩
        · subst h; exact Or.inl h2
        · exact Or.inr ⟨q', h, h1, h2⟩
    · rw [if_neg hm]
      simp only [ih, List.mem_cons]
      constructor
      · rintro ⟨q', hq', h1, h2⟩
        exact ⟨q', Or.inr hq', h1, h2⟩
      · rintro ⟨q', h | h, h1, h2⟩
        · subst h; exact absurd h1 hm
        · exact ⟨q', h, h1, h2⟩

theorem flatA_nodup_eq_of_mem {α β γ : Type} (f : β → List γ) {L : List (α × β)}
    {q1 q2 : α × β} {c : γ} (hnd : (flatA f L).Nodup)
    (h1 : q1 ∈ L) (h2 : q2 ∈ L) (hc1 : c ∈ f q1.2) (hc2 : c ∈ f q2.2) : q1 = q2 := by
  induction L with
  | nil => simp at h1
  | cons q rest ih =>
    obtain ⟨a, b⟩ := q
    simp only [flatA] at hnd
    have hdisj := (List.nodup_append.mp hnd).2.2
    have hnd2 := (List.nodup_append.mp hnd).2.1
    rcases List.mem_cons.mp h1 with e1 | e1 <;> rcases List.mem_cons.mp h2 with e2 | e2
    · rw [e1, e2]
    · subst e1
      exact absurd ((mem_flatA f rest c).mpr ⟨q2, e2, hc2⟩) (fun hm => hdisj hc1 hm)
    · subst e2
      exact absurd ((mem_flatA f rest c).mpr ⟨q1, e1, hc1⟩) (fun hm => hdisj hc2 hm)
    · exact ih hnd2 e1 e2

theorem matchPolicyKey_unique {p : PodState} {k1 k2 : String}
    (h1 : p.matchPolicyKey k1 = true) (h2 : p.matchPolicyKey k2 = true) : k1 = k2 := by
  simp only [PodState.matchPolicyKey, Bool.and_eq_true, beq_iff_eq, Bool.not_eq_true',
    beq_eq_false_iff_ne] at h1 h2
  rw [← h1.2, ← h2.2]

theorem deletePolicyContainers_cg_keys_nodup (k : KernelMaps) (pol : List (String × Nat))
    (h : (keysA k.cgroupToPolicy).Nodup) :
    (keysA (deletePolicyContainers k pol).1.cgroupToPolicy).Nodup := by
  induction pol generalizing k with
  | nil => exact h
  | cons q rest ih =>
    obtain ⟨c0, pid0⟩ := q
    simp only [deletePolicyContainers]
    refine ih _ ?_
    have hk1 : (clearPolicyIDFromBPF (applyKernelOp k (.cgroup pid0 [] .removePolicy))
        pid0).1.cgroupToPolicy = removePolicyBindings k.cgroupToPolicy pid0 := by
      rw [clearPolicyIDFromBPF_cgroupToPolicy]
      rfl
    rw [hk1]
    exact (keysA_sublist_of_sublist (removePolicyBindings_sublist _ _)).nodup h

/-! ## Propositional well-formedness -/

/-- Propositional form of `wfState`. -/
def WFP (s : ResolverState) : Prop :=
  (keysA s.wpState).Nodup ∧
  (keysA s.podCache).Nodup ∧
  (∀ q ∈ s.wpState, (keysA q.2.polByContainer).Nodup) ∧
  (allCgroupIDs s.podCache).Nodup ∧
  (allPolicyIDs s.wpState).Nodup ∧
  (∀ pid ∈ allPolicyIDs s.wpState, pid < s.nextPolicyID) ∧
  (keysA s.kernel.cgroupToPolicy).Nodup

theorem wfState_iff (s : ResolverState) : wfState s = true ↔ WFP s := by
  unfold wfState WFP
  simp only [Bool.and_eq_true, nodupB_iff, List.all_eq_true, decide_eq_true_eq]
  tauto

theorem invariantOK_iff (s : ResolverState) :
    invariantOK s = true ↔ WFP s ∧ BoundP s := by
  unfold invariantOK
  rw [Bool.and_eq_true, wfState_iff, boundOK_iff]

theorem lookupA_isSome_of_mem_keysA {α β : Type} [DecidableEq α]
    {m : List (α × β)} {k : α} (h : k ∈ keysA m) : (lookupA m k).isSome := by
  induction m with
  | nil => simp [keysA] at h
  | cons p r ih =>
    obtain ⟨k', v'⟩ := p
    simp only [keysA, List.map_cons, List.mem_cons] at h
    simp only [lookupA]
    by_cases hk : k = k'
    · simp [hk]
    · rcases h with h | h
      · exact absurd h hk
      · simp only [if_neg hk]
        exact ih h

/-! ## Invariant preservation -/

theorem handleWPAdd_preserves (s : ResolverState) (wp : WorkloadPolicy)
    (hwf : WFP s) (hbound : BoundP s)
    (hrules : (keysA wp.rulesByContainer).Nodup)
    (hok : (handleWPAdd s wp).ok = true) :
    WFP (handleWPAdd s wp).state ∧ BoundP (handleWPAdd s wp).state := by
  obtain ⟨hw1, hw2, hw3, hw4, hw5, hw6, hw7⟩ := hwf
  cases hlk : lookupA s.wpState wp.namespacedName with
  | some info => simp [handleWPAdd, hlk] at hok
  | none =>
    simp only [handleWPAdd, hlk]
    obtain ⟨hs1, hs2, hs3, hs4, hs5⟩ :=
      syncWorkloadPolicy_spec s.kernel s.nextPolicyID [] wp.mode wp.rulesByContainer
    set sy := syncWorkloadPolicy s.kernel s.nextPolicyID [] wp.mode wp.rulesByContainer with hsy
    set pol := mergeNewContainers [] sy.2.2.1 with hpoldef
    have hpolmem : ∀ q ∈ pol, q ∈ sy.2.2.1 := by
      intro q hq
      rcases mergeNewContainers_mem [] sy.2.2.1 q hq with h | h
      · exact h
      · simp at h
    have hpolkeys : (keysA pol).Nodup :=
      mergeNewContainers_keys_nodup [] _ (by simp [keysA])
    have hpolpids : (pol.map Prod.snd).Nodup := by
      refine List.Nodup.map_on ?_ (hpolkeys.of_map)
      intro x hx y hy hxy
      exact List.inj_on_of_nodup_map hs4 (hpolmem x hx) (hpolmem y hy) hxy
    have hpolrange : ∀ q ∈ pol, s.nextPolicyID ≤ q.2 ∧ q.2 < sy.2.1 := by
      intro q hq
      obtain ⟨h1, h2, _⟩ := hs3 q (hpolmem q hq)
      exact ⟨h1, h2⟩
    have hins : insertA s.wpState wp.namespacedName ⟨pol, ⟨.ready, ""⟩⟩ =
        (wp.namespacedName, (⟨pol, ⟨.ready, ""⟩⟩ : WpInfo)) :: s.wpState := by
      unfold insertA
      rw [eraseA_of_lookupA_eq_none _ _ hlk]
    have hknotin : wp.namespacedName ∉ keysA s.wpState := by
      intro hmem
      have := lookupA_isSome_of_mem_keysA hmem
      rw [hlk] at this
      simp at this
    have hcgnd : (keysA (applyPolicyToMatchingPods sy.1 s.podCache wp.namespacedName
        pol).1.cgroupToPolicy).Nodup := by
      refine applyPolicyToMatchingPods_cg_keys_nodup _ _ _ _ ?_
      rw [hs1]
      exact hw7
    rw [hins]
    constructor
    · refine ⟨?_, hw2, ?_, hw4, ?_, ?_, hcgnd⟩
      · simp only [keysA, List.map_cons, List.nodup_cons]
        exact ⟨hknotin, hw1⟩
      · intro q hq
        rcases List.mem_cons.mp hq with h | h
        · rw [h]
          exact hpolkeys
        · exact hw3 q h
      · simp only [allPolicyIDs, flatA, List.nodup_append]
        refine ⟨hpolpids, hw5, ?_⟩
        intro pid hpid hpid2
        obtain ⟨q, hq, hqe⟩ := List.mem_map.mp hpid
        have h1 := (hpolrange q hq).1
        have h2 := hw6 pid hpid2
        rw [hqe] at h1
        exact Nat.not_lt.mpr h1 (Nat.lt_of_lt_of_le h2 (Nat.le_refl _))
      · simp only [allPolicyIDs, flatA]
        intro pid hpid
        rcases List.mem_append.mp hpid with h | h
        · obtain ⟨q, hq, hqe⟩ := List.mem_map.mp h
          rw [← hqe]
          exact (hpolrange q hq).2
        · exact Nat.lt_of_lt_of_le (hw6 pid h) hs2
    · intro key' info' hmem' uid p hp hm cid c hc pid hpid
      rcases List.mem_cons.mp hmem' with h | h
      · obtain ⟨rfl, rfl⟩ := Prod.mk.injEq .. ▸ h
        simp only at hpid ⊢
        exact applyPolicyToMatchingPods_lookup_bound _ _ _ _ hp hm hc hpid hw4
      · have hold := hbound key' info' h uid p hp hm cid c hc pid hpid
        have hnotmem : c.cgID ∉ matchingCgroupIDs wp.namespacedName s.podCache := by
          intro hmemcg
          obtain ⟨q2, hq2, hq2m, hq2c⟩ :=
            (mem_matchingCgroupIDs wp.namespacedName s.podCache c.cgID).mp hmemcg
          have hcg1 : c.cgID ∈ (uid, p).2.cgIDs := by
            simp only [PodState.cgIDs, List.mem_map]
            exact ⟨(cid, c), hc, rfl⟩
          have heq := flatA_nodup_eq_of_mem PodState.cgIDs hw4 hp hq2 hcg1 hq2c
          have hkey : wp.namespacedName = key' := by
            rw [← heq] at hq2m
            exact matchPolicyKey_unique hq2m hm
          apply hknotin
          rw [hkey]
          exact List.mem_map_of_mem Prod.fst h
        rw [applyPolicyToMatchingPods_lookup_not_mem _ _ _ _ _ hnotmem, hs1]
        exact hold

theorem lookupA_filter_specSome (pol : List (String × Nat))
    (rules : List (String × WorkloadPolicyRules)) (hnd : (keysA pol).Nodup) (nm : String) :
    lookupA (pol.filter (fun p => (lookupA rules p.1).isSome)) nm =
      if (lookupA rules nm).isSome then lookupA pol nm else none :=
  lookupA_filter pol (fun x => (lookupA rules x).isSome) hnd nm

theorem lookupA_filter_specNone (pol : List (String × Nat))
    (rules : List (String × WorkloadPolicyRules)) (hnd : (keysA pol).Nodup) (nm : String) :
    lookupA (pol.filter (fun p => (lookupA rules p.1).isNone)) nm =
      if (lookupA rules nm).isNone then lookupA pol nm else none :=
  lookupA_filter pol (fun x => (lookupA rules x).isNone) hnd nm

theorem allPolicyIDs_insertA (L : List (String × WpInfo)) (k : String) (i : WpInfo) :
    allPolicyIDs (insertA L k i) =
      i.polByContainer.map Prod.snd ++ allPolicyIDs (eraseA L k) := rfl

theorem allCgroupIDs_insertA (L : List (String × PodState)) (k : String) (p : PodState) :
    allCgroupIDs (insertA L k p) = p.cgIDs ++ allCgroupIDs (eraseA L k) := rfl

theorem handleWPUpdate_preserves (s : ResolverState) (wp : WorkloadPolicy)
    (hwf : WFP s) (hbound : BoundP s)
    (hrules : (keysA wp.rulesByContainer).Nodup)
    (hok : (handleWPUpdate s wp).ok = true) :
    WFP (handleWPUpdate s wp).state ∧ BoundP (handleWPUpdate s wp).state := by
  obtain ⟨hw1, hw2, hw3, hw4, hw5, hw6, hw7⟩ := hwf
  cases hlk : lookupA s.wpState wp.namespacedName with
  | none => simp [handleWPUpdate, hlk] at hok
  | some info =>
    simp only [handleWPUpdate, hlk]
    have hmem : (wp.namespacedName, info) ∈ s.wpState := mem_of_lookupA_eq_some hlk
    obtain ⟨hs1, hs2, hs3, hs4, hs5⟩ :=
      syncWorkloadPolicy_spec s.kernel s.nextPolicyID info.polByContainer wp.mode
        wp.rulesByContainer
    set sy := syncWorkloadPolicy s.kernel s.nextPolicyID info.polByContainer wp.mode
      wp.rulesByContainer with hsy
    set pol1 := mergeNewContainers info.polByContainer sy.2.2.1 with hpol1def
    have hperm : (allPolicyIDs s.wpState).Perm
        (info.polByContainer.map Prod.snd ++ allPolicyIDs (eraseA s.wpState wp.namespacedName)) :=
      flatA_perm_eraseA _ hmem hw1
    have hpermnd := hperm.nodup_iff.mp hw5
    have hinfopids : (info.polByContainer.map Prod.snd).Nodup := (List.nodup_append.mp hpermnd).1
    have hRnd : (allPolicyIDs (eraseA s.wpState wp.namespacedName)).Nodup :=
      (List.nodup_append.mp hpermnd).2.1
    have hdisjIR := (List.nodup_append.mp hpermnd).2.2
    have hmempids : ∀ pid ∈ allPolicyIDs s.wpState, pid < s.nextPolicyID := hw6
    have hinfolt : ∀ pid ∈ info.polByContainer.map Prod.snd, pid < s.nextPolicyID := by
      intro pid hpid
      refine hw6 pid ?_
      exact (mem_flatA _ _ _).mpr ⟨(wp.namespacedName, info), hmem, hpid⟩
    have hRlt : ∀ pid ∈ allPolicyIDs (eraseA s.wpState wp.namespacedName),
        pid < s.nextPolicyID := by
      intro pid hpid
      exact hw6 pid ((flatA_sublist _ (eraseA_sublist _ _)).mem hpid)
    have hpol1keys : (keysA pol1).Nodup :=
      mergeNewContainers_keys_nodup _ _ (hw3 _ hmem)
    have hpol1mem : ∀ q ∈ pol1, q ∈ sy.2.2.1 ∨ q ∈ info.polByContainer :=
      mergeNewContainers_mem _ _
    have hpol1pids_mem : ∀ pid ∈ pol1.map Prod.snd,
        pid ∈ sy.2.2.1.map Prod.snd ∨ pid ∈ info.polByContainer.map Prod.snd := by
      intro pid hpid
      obtain ⟨q, hq, hqe⟩ := List.mem_map.mp hpid
      rcases hpol1mem q hq with h | h
      · exact Or.inl (hqe ▸ List.mem_map_of_mem Prod.snd h)
      · exact Or.inr (hqe ▸ List.mem_map_of_mem Prod.snd h)
    have hpol1pids : (pol1.map Prod.snd).Nodup := by
      refine List.Nodup.map_on ?_ (hpol1keys.of_map)
      intro x hx y hy hxy
      rcases hpol1mem x hx with h1 | h1 <;> rcases hpol1mem y hy with h2 | h2
      · exact List.inj_on_of_nodup_map hs4 h1 h2 hxy
      · exfalso
        have hxge := (hs3 x h1).1
        have hylt := hinfolt y.2 (List.mem_map_of_mem Prod.snd h2)
        rw [hxy] at hxge
        exact Nat.not_lt.mpr hxge hylt
      · exfalso
        have hyge := (hs3 y h2).1
        have hxlt := hinfolt x.2 (List.mem_map_of_mem Prod.snd h1)
        rw [← hxy] at hyge
        exact Nat.not_lt.mpr hyge hxlt
      · exact List.inj_on_of_nodup_map hinfopids h1 h2 hxy
    have hpol1lt : ∀ pid ∈ pol1.map Prod.snd, pid < sy.2.1 := by
      intro pid hpid
      rcases hpol1pids_mem pid hpid with h | h
      · obtain ⟨q, hq, hqe⟩ := List.mem_map.mp h
        exact hqe ▸ (hs3 q hq).2.1
      · exact Nat.lt_of_lt_of_le (hinfolt pid h) hs2
    set applied := pol1.filter (fun p => (lookupA wp.rulesByContainer p.1).isSome)
      with happdef
    set removed := pol1.filter (fun p => (lookupA wp.rulesByContainer p.1).isNone)
      with hremdef
    set upd := updateMatchingPods sy.1 s.podCache wp.namespacedName pol1 applied removed
      with hupddef
    have hpol2sub : upd.2.1.Sublist pol1 := updateMatchingPods_pol_sublist _ _ _ _ _ _
    have hcgnd2 : (keysA upd.1.cgroupToPolicy).Nodup := by
      refine updateMatchingPods_cg_keys_nodup _ _ _ _ _ _ ?_
      rw [hs1]
      exact hw7
    constructor
    · refine ⟨keysA_insertA_nodup _ _ _ hw1, hw2, ?_, hw4, ?_, ?_, hcgnd2⟩
      · intro q hq
        rcases List.mem_cons.mp hq with h | h
        · rw [h]
          exact (keysA_sublist_of_sublist hpol2sub).nodup hpol1keys
        · exact hw3 q ((eraseA_sublist _ _).mem h)
      · rw [allPolicyIDs_insertA]
        refine List.nodup_append.mpr ⟨(hpol2sub.map Prod.snd).nodup hpol1pids, hRnd, ?_⟩
        intro pid hpid hpid2
        rcases hpol1pids_mem pid ((hpol2sub.map Prod.snd).mem hpid) with h | h
        · obtain ⟨q, hq, hqe⟩ := List.mem_map.mp h
          have hge := (hs3 q hq).1
          rw [hqe] at hge
          exact Nat.not_lt.mpr hge (hRlt pid hpid2)
        · exact hdisjIR h hpid2
      · rw [allPolicyIDs_insertA]
        intro pid hpid
        rcases List.mem_append.mp hpid with h | h
        · exact hpol1lt pid ((hpol2sub.map Prod.snd).mem h)
        · exact Nat.lt_of_lt_of_le (hRlt pid h) hs2
    · intro key' info' hmem' uid p hp hm cid c hc pid hpid
      rcases List.mem_cons.mp hmem' with h | h
      · obtain ⟨rfl, rfl⟩ := Prod.mk.injEq .. ▸ h
        simp only at hpid ⊢
        rw [updateMatchingPods_pol_lookup] at hpid
        by_cases hnm : c.name ∈ matchingRemovedNames wp.namespacedName removed s.podCache
        · rw [if_pos hnm] at hpid
          cases hpid
        · rw [if_neg hnm] at hpid
          have happlied : lookupA applied c.name = some pid := by
            rw [happdef, lookupA_filter_specSome _ _ hpol1keys]
            cases hspec : (lookupA wp.rulesByContainer c.name).isSome with
            | true => simp only [hspec, if_true]; exact hpid
            | false =>
              exfalso
              apply hnm
              refine (mem_matchingRemovedNames _ _ _ _).mpr ⟨(uid, p), hp, hm, ?_⟩
              refine (mem_removedContainerNames _ _ _).mpr ⟨(cid, c), hc, rfl, ?_⟩
              have hnone : (lookupA wp.rulesByContainer c.name).isNone = true := by
                cases hv : lookupA wp.rulesByContainer c.name
                · rfl
                · rw [hv] at hspec; cases hspec
              rw [hremdef, lookupA_filter_specNone _ _ hpol1keys, if_pos hnone, hpid]
              rfl
          exact updateMatchingPods_lookup_bound _ _ _ _ _ _ hp hm hc happlied hw4
      · have hold := hbound key' info' ((eraseA_sublist _ _).mem h) uid p hp hm cid c hc pid hpid
        have hkne : key' ≠ wp.namespacedName := by
          rintro rfl
          exact not_mem_keysA_eraseA s.wpState wp.namespacedName
            (List.mem_map_of_mem Prod.fst h)
        have hnotmem : c.cgID ∉ matchingCgroupIDs wp.namespacedName s.podCache := by
          intro hmemcg
          obtain ⟨q2, hq2, hq2m, hq2c⟩ :=
            (mem_matchingCgroupIDs wp.namespacedName s.podCache c.cgID).mp hmemcg
          have hcg1 : c.cgID ∈ (uid, p).2.cgIDs := by
            simp only [PodState.cgIDs, List.mem_map]
            exact ⟨(cid, c), hc, rfl⟩
          have heq := flatA_nodup_eq_of_mem PodState.cgIDs hw4 hp hq2 hcg1 hq2c
          rw [← heq] at hq2m
          exact hkne (matchPolicyKey_unique hm hq2m)
        rw [updateMatchingPods_lookup_not_mem _ _ _ _ _ _ _ hnotmem, hs1]
        exact hold

theorem handleWPDelete_preserves (s : ResolverState) (wp : WorkloadPolicy)
    (hwf : WFP s) (hbound : BoundP s)
    (hok : (handleWPDelete s wp).ok = true) :
    WFP (handleWPDelete s wp).state ∧ BoundP (handleWPDelete s wp).state := by
  obtain ⟨hw1, hw2, hw3, hw4, hw5, hw6, hw7⟩ := hwf
  cases hlk : lookupA s.wpState wp.namespacedName with
  | none => simp [handleWPDelete, hlk] at hok
  | some info =>
    simp only [handleWPDelete, hlk]
    have hmem : (wp.namespacedName, info) ∈ s.wpState := mem_of_lookupA_eq_some hlk
    have hperm : (allPolicyIDs s.wpState).Perm
        (info.polByContainer.map Prod.snd ++ allPolicyIDs (eraseA s.wpState wp.namespacedName)) :=
      flatA_perm_eraseA _ hmem hw1
    have hpermnd := hperm.nodup_iff.mp hw5
    have hdisjIR := (List.nodup_append.mp hpermnd).2.2
    constructor
    · refine ⟨(keysA_sublist_of_sublist (eraseA_sublist _ _)).nodup hw1, hw2, ?_, hw4,
        (List.nodup_append.mp hpermnd).2.1, ?_, ?_⟩
      · intro q hq
        exact hw3 q ((eraseA_sublist _ _).mem hq)
      · intro pid hpid
        exact hw6 pid ((flatA_sublist _ (eraseA_sublist _ _)).mem hpid)
      · exact deletePolicyContainers_cg_keys_nodup _ _ hw7
    · intro key' info' hmem' uid p hp hm cid c hc pid hpid
      have hold := hbound key' info' ((eraseA_sublist _ _).mem hmem') uid p hp hm cid c hc pid hpid
      simp only
      rw [deletePolicyContainers_cg_lookup _ _ hw7, hold]
      have hpidR : pid ∈ allPolicyIDs (eraseA s.wpState wp.namespacedName) := by
        refine (mem_flatA _ _ _).mpr ⟨(key', info'), hmem', ?_⟩
        exact List.mem_map_of_mem Prod.snd (mem_of_lookupA_eq_some hpid)
      have hnotdel : pid ∉ info.polByContainer.map Prod.snd := fun hmemdel =>
        hdisjIR hmemdel hpidR
      simp [hnotdel]

theorem matchPolicyKey_key_eq {p : PodState} {k : String}
    (h : p.matchPolicyKey k = true) : p.policyKey = k := by
  simp only [PodState.matchPolicyKey, Bool.and_eq_true, beq_iff_eq] at h
  exact h.2

theorem containerStartFinish_preserves (s : ResolverState) (podUID : String)
    (c : ContainerEntry) (pstate : PodState) (hwf : WFP s) (hbound : BoundP s)
    (hnd2 : (allCgroupIDs (insertA s.podCache podUID pstate)).Nodup) :
    WFP (containerStartFinish s podUID c pstate).state ∧
    BoundP (containerStartFinish s podUID c pstate).state := by
  obtain ⟨hw1, hw2, hw3, hw4, hw5, hw6, hw7⟩ := hwf
  have hnd2' := hnd2
  rw [allCgroupIDs_insertA] at hnd2'
  have hndcs : (containersCgIDs pstate.containers).Nodup :=
    (List.nodup_append.mp hnd2').1
  have hdisj := (List.nodup_append.mp hnd2').2.2
  have hboundTail : ∀ key' info', (key', info') ∈ s.wpState →
      ∀ uid p, (uid, p) ∈ eraseA s.podCache podUID → p.matchPolicyKey key' = true →
        ∀ cid cc, (cid, cc) ∈ p.containers →
          ∀ pid, lookupA info'.polByContainer cc.name = some pid →
            cc.cgID ∉ containersCgIDs pstate.containers ∧
              lookupA s.kernel.cgroupToPolicy cc.cgID = some pid := by
    intro key' info' hmem' uid p hp hm cid cc hc pid hpid
    refine ⟨?_, hbound key' info' hmem' uid p ((eraseA_sublist _ _).mem hp) hm cid cc hc pid hpid⟩
    intro hmemcg
    refine hdisj hmemcg ?_
    refine (mem_flatA _ _ _).mpr ⟨(uid, p), hp, ?_⟩
    simp only [PodState.cgIDs, List.mem_map]
    exact ⟨(cid, cc), hc, rfl⟩
  by_cases hlbl : pstate.policyLabel = ""
  · simp only [containerStartFinish, if_pos hlbl]
    refine ⟨⟨hw1, keysA_insertA_nodup _ _ _ hw2, hw3, hnd2, hw5, hw6, hw7⟩, ?_⟩
    intro key' info' hmem' uid p hp hm cid cc hc pid hpid
    rcases List.mem_cons.mp hp with h | h
    · obtain ⟨rfl, rfl⟩ := Prod.mk.injEq .. ▸ h
      simp [PodState.matchPolicyKey, hlbl] at hm
    · exact (hboundTail key' info' hmem' uid p h hm cid cc hc pid hpid).2
  · cases hwlk : lookupA s.wpState pstate.policyKey with
    | none =>
      simp only [containerStartFinish, if_neg hlbl, hwlk]
      refine ⟨⟨hw1, keysA_insertA_nodup _ _ _ hw2, hw3, hnd2, hw5, hw6, hw7⟩, ?_⟩
      intro key' info' hmem' uid p hp hm cid cc hc pid hpid
      rcases List.mem_cons.mp hp with h | h
      · obtain ⟨rfl, rfl⟩ := Prod.mk.injEq .. ▸ h
        exfalso
        have hkeq := matchPolicyKey_key_eq hm
        have := lookupA_eq_some_of_mem_nodup hmem' hw1
        rw [← hkeq] at this
        rw [hwlk] at this
        cases this
      · exact (hboundTail key' info' hmem' uid p h hm cid cc hc pid hpid).2
    | some winfo =>
      simp only [containerStartFinish, if_neg hlbl, hwlk]
      refine ⟨⟨hw1, keysA_insertA_nodup _ _ _ hw2, hw3, hnd2, hw5, hw6,
        applyPolicyToPod_cg_keys_nodup _ _ _ hw7⟩, ?_⟩
      intro key' info' hmem' uid p hp hm cid cc hc pid hpid
      rcases List.mem_cons.mp hp with h | h
      · obtain ⟨rfl, rfl⟩ := Prod.mk.injEq .. ▸ h
        have hkeq := matchPolicyKey_key_eq hm
        have hinfo : info' = winfo := by
          have := lookupA_eq_some_of_mem_nodup hmem' hw1
          rw [← hkeq] at this
          rw [hwlk] at this
          exact Option.some.inj this.symm
        rw [hinfo] at hpid
        exact applyPolicyToPod_lookup_bound _ _ _ hc hpid hndcs
      · obtain ⟨hnot, hold⟩ := hboundTail key' info' hmem' uid p h hm cid cc hc pid hpid
        rw [applyPolicyToPod_lookup_not_mem _ _ _ _ hnot]
        exact hold

theorem handleContainerStart_preserves (s : ResolverState) (podUID : String)
    (info : PodInfo) (containerID : String) (c : ContainerEntry)
    (hwf : WFP s) (hbound : BoundP s)
    (hfresh : c.cgID ∉ allCgroupIDs s.podCache) :
    WFP (handleContainerStart s podUID info containerID c).state ∧
    BoundP (handleContainerStart s podUID info containerID c).state := by
  have hw2 := hwf.2.1
  have hw4 := hwf.2.2.2.1
  cases hplk : lookupA s.podCache podUID with
  | none =>
    have hnd2 : (allCgroupIDs (insertA s.podCache podUID
        ⟨info, [(containerID, c)]⟩)).Nodup := by
      rw [allCgroupIDs_insertA, eraseA_of_lookupA_eq_none _ _ hplk]
      simp only [PodState.cgIDs, List.map_cons, List.map_nil, List.singleton_append,
        List.nodup_cons]
      exact ⟨hfresh, hw4⟩
    simp only [handleContainerStart, hplk]
    exact containerStartFinish_preserves s podUID c _ hwf hbound hnd2
  | some p =>
    have hpmem : (podUID, p) ∈ s.podCache := mem_of_lookupA_eq_some hplk
    have hperm : (allCgroupIDs s.podCache).Perm
        (p.cgIDs ++ allCgroupIDs (eraseA s.podCache podUID)) :=
      flatA_perm_eraseA _ hpmem hw2
    have hpermnd := hperm.nodup_iff.mp hw4
    have hpnd := (List.nodup_append.mp hpermnd).1
    have hRnd := (List.nodup_append.mp hpermnd).2.1
    have hdisj := (List.nodup_append.mp hpermnd).2.2
    have hsubcg : (containersCgIDs (eraseA p.containers containerID)).Sublist p.cgIDs :=
      (eraseA_sublist p.containers containerID).map _
    have hnd2 : (allCgroupIDs (insertA s.podCache podUID
        { p with containers := insertA p.containers containerID c })).Nodup := by
      rw [allCgroupIDs_insertA]
      have hcgids : ({ p with containers := insertA p.containers containerID c} :
          PodState).cgIDs = c.cgID :: containersCgIDs (eraseA p.containers containerID) := rfl
      rw [hcgids]
      simp only [List.cons_append, List.nodup_cons]
      constructor
      · intro hmem
        rcases List.mem_append.mp hmem with h | h
        · exact hfresh (hperm.mem_iff.mpr (List.mem_append.mpr (Or.inl (hsubcg.mem h))))
        · exact hfresh (hperm.mem_iff.mpr (List.mem_append.mpr (Or.inr h)))
      · refine List.nodup_append.mpr ⟨hsubcg.nodup hpnd, hRnd, ?_⟩
        intro cg hcg1 hcg2
        exact hdisj (hsubcg.mem hcg1) hcg2
    simp only [handleContainerStart, hplk]
    exact containerStartFinish_preserves s podUID c _ hwf hbound hnd2

/-- **C1.** After every resolver operation (`handleWPAdd`, `handleWPUpdate`,
`handleWPDelete`, container-start handling) returns successfully, for every
cached pod matching a policy's selector and every container of that pod whose
name appears in the policy's per-container map, the `cgroup_to_policy` map (as
mutated through `cgroupToPolicyMapUpdateFunc`) maps that container's cgroup id
to the policy id stored in the policy's per-container map.  Stated as
preservation of `invariantOK` (whose `boundOK` conjunct is exactly that
binding property) by every `step` from a well-formed state, for well-formed
events (unique rule keys in a spec; a fresh cgroup id at container start). -/
theorem c1_binding_invariant_preserved (s : ResolverState) (e : REvent)
    (hinv : invariantOK s = true) (hev : eventWF s e = true)
    (hok : (step s e).ok = true) :
    invariantOK (step s e).state = true := by
  obtain ⟨hwf, hbound⟩ := (invariantOK_iff s).mp hinv
  cases e with
  | wpAdd wp =>
    rw [invariantOK_iff]
    exact handleWPAdd_preserves s wp hwf hbound ((nodupB_iff _).mp hev) hok
  | wpUpdate wp =>
    rw [invariantOK_iff]
    exact handleWPUpdate_preserves s wp hwf hbound ((nodupB_iff _).mp hev) hok
  | wpDelete wp =>
    rw [invariantOK_iff]
    exact handleWPDelete_preserves s wp hwf hbound hok
  | containerStart podUID info containerID c =>
    rw [invariantOK_iff]
    have hfresh : c.cgID ∉ allCgroupIDs s.podCache := by
      simpa [eventWF] using hev
    exact handleContainerStart_preserves s podUID info containerID c hwf hbound hfresh

/-- Example pod carrying the policy label `p` in namespace `ns`. -/
def examplePodInfo : PodInfo :=
  { ns := "ns", name := "pod-1", workloadName := "dep", workloadType := "Deployment",
    labels := [(policyLabelKey, "p")] }

/-- Example workload policy spec with one container rule. -/
def exampleWp : WorkloadPolicy :=
  { ns := "ns", name := "p", mode := 1,
    rulesByContainer := [("c", ⟨["/usr/bin/sleep"]⟩)] }

/-- State after a container of the example pod started (before any policy). -/
def exampleS1 : ResolverState :=
  (step initialResolverState (.containerStart "uid-1" examplePodInfo "rt-1" ⟨"c", 42⟩)).state

theorem c1_binding_invariant_witness :
    invariantOK exampleS1 = true ∧ eventWF exampleS1 (.wpAdd exampleWp) = true ∧
    (step exampleS1 (.wpAdd exampleWp)).ok = true ∧
    invariantOK (step exampleS1 (.wpAdd exampleWp)).state = true :=
  ⟨by decide, by decide, by decide,
    c1_binding_invariant_preserved exampleS1 (.wpAdd exampleWp)
      (by decide) (by decide) (by decide)⟩

/-! ## Kernel-map mutation ordering (trace recognizers) -/

/-- Is the op a cgroup bind (`AddPolicyToCgroups`)? -/
def isBindOp : KernelOp → Bool
  | .cgroup _ _ .addPolicyToCgroups => true
  | _ => false

/-- Recognizes the trace of an add: per-container `policy_values` write
immediately followed by the `policy_mode` upsert for the same policy id,
repeated, and only then `cgroup_to_policy` binds. -/
def addTraceOK : List KernelOp → Bool
  | [] => true
  | KernelOp.values pid _ .addValuesToPolicy :: KernelOp.mode pid2 _ .updateMode :: rest =>
      pid == pid2 && addTraceOK rest
  | KernelOp.values pid _ .replaceValuesInPolicy :: KernelOp.mode pid2 _ .updateMode :: rest =>
      pid == pid2 && addTraceOK rest
  | KernelOp.cgroup _ _ .addPolicyToCgroups :: rest => rest.all isBindOp
  | _ => false

/-- Recognizes the post-sync part of an update trace: deletion units (unbind
the cgroups with `PolicyIDNone`, then remove the policy's values, then delete
its mode) interleaved with cgroup binds. -/
def updateTailOK : List KernelOp → Bool
  | [] => true
  | KernelOp.cgroup 0 _ .removeCgroups :: KernelOp.values p1 _ .removeValuesFromPolicy ::
      KernelOp.mode p2 _ .deleteMode :: rest => p1 == p2 && updateTailOK rest
  | KernelOp.cgroup _ _ .addPolicyToCgroups :: rest => updateTailOK rest
  | _ => false

/-- Recognizes an update trace: sync blocks (values then mode per container),
then deletion units and binds. -/
def updateTraceOK : List KernelOp → Bool
  | [] => true
  | KernelOp.values pid _ .addValuesToPolicy :: KernelOp.mode pid2 _ .updateMode :: rest =>
      pid == pid2 && updateTraceOK rest
  | KernelOp.values pid _ .replaceValuesInPolicy :: KernelOp.mode pid2 _ .updateMode :: rest =>
      pid == pid2 && updateTraceOK rest
  | ops => updateTailOK ops

/-- Recognizes a delete trace: per container, unbind the cgroups
(`RemovePolicy`), then remove the policy's values, then delete its mode. -/
def deleteTraceOK : List KernelOp → Bool
  | [] => true
  | KernelOp.cgroup p0 cgs .removePolicy :: KernelOp.values p1 _ .removeValuesFromPolicy ::
      KernelOp.mode p2 _ .deleteMode :: rest =>
      cgs.isEmpty && p0 == p1 && p1 == p2 && deleteTraceOK rest
  | _ => false

/-- The deletion order as the specification words it: per container, unbind
the cgroups, then delete the `policy_mode` entry, then remove the
`policy_values` entries.  (Kept to state the claim; the code refutes it.) -/
def deleteTraceSpecOrdered : List KernelOp → Bool
  | [] => true
  | KernelOp.cgroup p0 _ .removePolicy :: KernelOp.mode p1 _ .deleteMode ::
      KernelOp.values p2 _ .removeValuesFromPolicy :: rest =>
      p0 == p1 && p1 == p2 && deleteTraceSpecOrdered rest
  | _ => false

theorem addTraceOK_sync_append (k : KernelMaps) (next : Nat) (pol : List (String × Nat))
    (m : Nat) (rules : List (String × WorkloadPolicyRules)) (rest : List KernelOp) :
    addTraceOK ((syncWorkloadPolicy k next pol m rules).2.2.2 ++ rest) = addTraceOK rest := by
  induction rules generalizing k next with
  | nil => rfl
  | cons q rules ih =>
    obtain ⟨containerName, rules0⟩ := q
    cases hv : lookupA pol containerName with
    | some polID =>
      simp only [syncWorkloadPolicy, hv, upsertPolicyIDInBPF, List.cons_append,
        List.append_assoc, addTraceOK, List.nil_append]
      rw [ih]
      simp
    | none =>
      simp only [syncWorkloadPolicy, hv, upsertPolicyIDInBPF, List.cons_append,
        List.append_assoc, addTraceOK, List.nil_append]
      rw [ih]
      simp

theorem updateTraceOK_sync_append (k : KernelMaps) (next : Nat) (pol : List (String × Nat))
    (m : Nat) (rules : List (String × WorkloadPolicyRules)) (rest : List KernelOp) :
    updateTraceOK ((syncWorkloadPolicy k next pol m rules).2.2.2 ++ rest) =
      updateTraceOK rest := by
  induction rules generalizing k next with
  | nil => rfl
  | cons q rules ih =>
    obtain ⟨containerName, rules0⟩ := q
    cases hv : lookupA pol containerName with
    | some polID =>
      simp only [syncWorkloadPolicy, hv, upsertPolicyIDInBPF, List.cons_append,
        List.append_assoc, updateTraceOK, List.nil_append]
      rw [ih]
      simp
    | none =>
      simp only [syncWorkloadPolicy, hv, upsertPolicyIDInBPF, List.cons_append,
        List.append_assoc, updateTraceOK, List.nil_append]
      rw [ih]
      simp

theorem addTraceOK_of_binds (tr : List KernelOp) (h : tr.all isBindOp = true) :
    addTraceOK tr = true := by
  cases tr with
  | nil => rfl
  | cons op rest =>
    simp only [List.all_cons, Bool.and_eq_true] at h
    cases op with
    | values pid vals vop => simp [isBindOp] at h
    | mode pid m mop => simp [isBindOp] at h
    | cgroup pid cgs cop =>
      cases cop with
      | addPolicyToCgroups => simpa [addTraceOK] using h.2
      | removeCgroups => simp [isBindOp] at h
      | removePolicy => simp [isBindOp] at h

theorem updateTailOK_binds_append (tr rest : List KernelOp) (h : tr.all isBindOp = true) :
    updateTailOK (tr ++ rest) = updateTailOK rest := by
  induction tr with
  | nil => rfl
  | cons op tr2 ih =>
    simp only [List.all_cons, Bool.and_eq_true] at h
    cases op with
    | values pid vals vop => simp [isBindOp] at h
    | mode pid m mop => simp [isBindOp] at h
    | cgroup pid cgs cop =>
      cases cop with
      | addPolicyToCgroups => simp only [List.cons_append, updateTailOK]; exact ih h.2
      | removeCgroups => simp [isBindOp] at h
      | removePolicy => simp [isBindOp] at h

theorem updateTailOK_removePod_append (k : KernelMaps) (cs : List (String × ContainerEntry))
    (pol removed : List (String × Nat)) (rest : List KernelOp) :
    updateTailOK ((removePolicyFromPod k cs pol removed).2.2 ++ rest) = updateTailOK rest := by
  induction cs generalizing k pol with
  | nil => rfl
  | cons q cs2 ih =>
    obtain ⟨cid, c⟩ := q
    cases hv : lookupA removed c.name with
    | none => simp only [removePolicyFromPod, hv]; exact ih k pol
    | some polID =>
      simp only [removePolicyFromPod, hv, clearPolicyIDFromBPF, List.cons_append,
        List.append_assoc, updateTailOK, List.nil_append]
      rw [ih]
      simp

theorem updateTailOK_UMP (k : KernelMaps) (pods : List (String × PodState)) (wpKey : String)
    (pol applied removed : List (String × Nat)) :
    updateTailOK (updateMatchingPods k pods wpKey pol applied removed).2.2 = true := by
  induction pods generalizing k pol with
  | nil => rfl
  | cons q rest ih =>
    obtain ⟨uid, p⟩ := q
    by_cases hm : p.matchPolicyKey wpKey
    · simp only [updateMatchingPods, if_pos hm, List.append_assoc]
      rw [updateTailOK_removePod_append, updateTailOK_binds_append]
      · exact ih _ _
      · rw [List.all_eq_true]
        intro op hop
        obtain ⟨polID, cgid, hope⟩ := applyPolicyToPod_trace_shape _ _ _ op hop
        rw [hope]
        rfl
    · simp only [updateMatchingPods, if_neg hm]
      exact ih k pol

theorem updateTraceOK_of_tail (ops : List KernelOp) (h : updateTailOK ops = true) :
    updateTraceOK ops = true := by
  cases ops with
  | nil => rfl
  | cons op rest =>
    cases op with
    | values pid vals vop =>
      cases vop <;> simp [updateTailOK] at h
    | mode pid m mop => simp [updateTailOK] at h
    | cgroup pid cgs cop =>
      cases cop with
      | addPolicyToCgroups => simpa [updateTraceOK, updateTailOK] using h
      | removeCgroups =>
        cases rest with
        | nil => simp [updateTailOK] at h
        | cons op2 rest2 => simpa [updateTraceOK] using h
      | removePolicy => simp [updateTailOK] at h

theorem deleteTraceOK_del (k : KernelMaps) (pol : List (String × Nat)) :
    deleteTraceOK (deletePolicyContainers k pol).2 = true := by
  induction pol generalizing k with
  | nil => rfl
  | cons q rest ih =>
    obtain ⟨c0, pid0⟩ := q
    simp only [deletePolicyContainers, clearPolicyIDFromBPF, List.cons_append, deleteTraceOK,
      List.isEmpty_nil, List.nil_append, List.append_eq]
    rw [ih]
    simp

theorem containerStartFinish_trace_binds (s : ResolverState) (podUID : String)
    (c : ContainerEntry) (pstate : PodState) :
    (containerStartFinish s podUID c pstate).trace.all isBindOp = true := by
  by_cases hlbl : pstate.policyLabel = ""
  · simp [containerStartFinish, hlbl]
  · cases hwlk : lookupA s.wpState pstate.policyKey with
    | none => simp [containerStartFinish, hlbl, hwlk]
    | some winfo =>
      simp only [containerStartFinish, if_neg hlbl, hwlk]
      rw [List.all_eq_true]
      intro op hop
      obtain ⟨pid2, cgid, hope⟩ := applyPolicyToPod_trace_shape _ _ _ op hop
      rw [hope]
      rfl

/-- **C2 (amended).** Within a single resolver operation, the kernel-map trace
for an added or updated policy goes `policy_values`, then `policy_mode`, then
`cgroup_to_policy` (per container, then the binds); and every deletion — in
`handleWPDelete` and in per-container removal on update — goes: first unbind
the cgroups, then remove the `policy_values` entries, then delete the
`policy_mode` entry (the code issues the values removal before the mode
deletion, the reverse of what the original claim says for those two).
Container-start traces consist of cgroup binds only. -/
theorem c2_trace_order (s : ResolverState) (wp : WorkloadPolicy) (podUID : String)
    (pinfo : PodInfo) (containerID : String) (c : ContainerEntry) :
    addTraceOK (handleWPAdd s wp).trace = true ∧
    updateTraceOK (handleWPUpdate s wp).trace = true ∧
    deleteTraceOK (handleWPDelete s wp).trace = true ∧
    (handleContainerStart s podUID pinfo containerID c).trace.all isBindOp = true := by
  refine ⟨?_, ?_, ?_, ?_⟩
  · cases hlk : lookupA s.wpState wp.namespacedName with
    | some info => simp [handleWPAdd, hlk, addTraceOK]
    | none =>
      simp only [handleWPAdd, hlk]
      rw [addTraceOK_sync_append]
      refine addTraceOK_of_binds _ ?_
      rw [List.all_eq_true]
      intro op hop
      obtain ⟨polID, cgid, hope⟩ := applyPolicyToMatchingPods_trace_shape _ _ _ _ op hop
      rw [hope]
      rfl
  · cases hlk : lookupA s.wpState wp.namespacedName with
    | none => simp [handleWPUpdate, hlk, updateTraceOK]
    | some info =>
      simp only [handleWPUpdate, hlk]
      rw [updateTraceOK_sync_append]
      exact updateTraceOK_of_tail _ (updateTailOK_UMP _ _ _ _ _ _)
  · cases hlk : lookupA s.wpState wp.namespacedName with
    | none => simp [handleWPDelete, hlk, deleteTraceOK]
    | some info =>
      simp only [handleWPDelete, hlk]
      exact deleteTraceOK_del _ _
  · simp only [handleContainerStart]
    exact containerStartFinish_trace_binds _ _ _ _

/-- **C2 counterexample.** The deletion order the claim states — unbind
cgroups, then delete the `policy_mode` entry, then remove the `policy_values`
entries — is refuted by the code: deleting the example one-container policy
issues the values removal *before* the mode deletion
(`clearPolicyIDFromBPF` calls `policyUpdateBinariesFunc` first). -/
theorem c2_deletion_order_counterexample :
    (handleWPDelete (handleWPAdd initialResolverState exampleWp).state exampleWp).trace =
      [.cgroup 1 [] .removePolicy, .values 1 [] .removeValuesFromPolicy,
        .mode 1 0 .deleteMode] ∧
    deleteTraceSpecOrdered
      (handleWPDelete (handleWPAdd initialResolverState exampleWp).state exampleWp).trace =
      false := by
  constructor
  · decide
  · decide

/-- **C8.** `handleWPAdd` on a key already present returns an error without
allocating policy ids or touching kernel maps (only the record status is
marked); `handleWPUpdate` and `handleWPDelete` on an absent key return an
error leaving the whole state untouched, with an empty mutation trace in all
three cases. -/
theorem c8_duplicate_and_unknown_policy_errors (s : ResolverState) (wp : WorkloadPolicy) :
    ((lookupA s.wpState wp.namespacedName).isSome = true →
      (handleWPAdd s wp).ok = false ∧
      (handleWPAdd s wp).state.kernel = s.kernel ∧
      (handleWPAdd s wp).state.nextPolicyID = s.nextPolicyID ∧
      (handleWPAdd s wp).trace = []) ∧
    (lookupA s.wpState wp.namespacedName = none →
      ((handleWPUpdate s wp).ok = false ∧ (handleWPUpdate s wp).state = s ∧
        (handleWPUpdate s wp).trace = []) ∧
      ((handleWPDelete s wp).ok = false ∧ (handleWPDelete s wp).state = s ∧
        (handleWPDelete s wp).trace = [])) := by
  constructor
  · intro hsome
    cases hlk : lookupA s.wpState wp.namespacedName with
    | none => rw [hlk] at hsome; cases hsome
    | some info => simp [handleWPAdd, hlk]
  · intro hnone
    rw [show (handleWPUpdate s wp) = { ok := false, state := s, trace := [] } by
          simp [handleWPUpdate, hnone],
        show (handleWPDelete s wp) = { ok := false, state := s, trace := [] } by
          simp [handleWPDelete, hnone]]
    exact ⟨⟨rfl, rfl, rfl⟩, rfl, rfl, rfl⟩

theorem c8_duplicate_and_unknown_policy_errors_witness :
    ((lookupA (handleWPAdd initialResolverState exampleWp).state.wpState
        exampleWp.namespacedName).isSome = true ∧
      (handleWPAdd (handleWPAdd initialResolverState exampleWp).state exampleWp).ok = false ∧
      (handleWPAdd (handleWPAdd initialResolverState exampleWp).state exampleWp).state.kernel =
        (handleWPAdd initialResolverState exampleWp).state.kernel ∧
      (handleWPAdd (handleWPAdd initialResolverState exampleWp).state
        exampleWp).state.nextPolicyID =
        (handleWPAdd initialResolverState exampleWp).state.nextPolicyID ∧
      (handleWPAdd (handleWPAdd initialResolverState exampleWp).state exampleWp).trace = []) ∧
    (lookupA initialResolverState.wpState exampleWp.namespacedName = none ∧
      (handleWPUpdate initialResolverState exampleWp).ok = false ∧
      (handleWPDelete initialResolverState exampleWp).ok = false) := by
  have h1 := (c8_duplicate_and_unknown_policy_errors
    (handleWPAdd initialResolverState exampleWp).state exampleWp).1 (by decide)
  have h2 := (c8_duplicate_and_unknown_policy_errors initialResolverState exampleWp).2 rfl
  exact ⟨⟨by decide, h1.1, h1.2.1, h1.2.2.1, h1.2.2.2⟩, rfl, h2.1.1, h2.2.1⟩

/-! ## Idempotent re-apply -/

/-- `wp` is currently applied in `s`: a record exists whose container set
equals the spec's, every recorded policy id already carries the spec's
values and mode in the kernel maps, and every matching pod's listed
containers are bound. -/
def appliedState (s : ResolverState) (wp : WorkloadPolicy) : Bool :=
  match lookupA s.wpState wp.namespacedName with
  | none => false
  | some info =>
    wp.rulesByContainer.all (fun q => (lookupA info.polByContainer q.1).isSome) &&
    info.polByContainer.all (fun q => (lookupA wp.rulesByContainer q.1).isSome) &&
    wp.rulesByContainer.all (fun q =>
      match lookupA info.polByContainer q.1 with
      | none => false
      | some pid =>
        (lookupA s.kernel.policyValues pid == some q.2.allowed) &&
        (lookupA s.kernel.policyMode pid == some wp.mode)) &&
    s.podCache.all (fun r =>
      !(r.2.matchPolicyKey wp.namespacedName) ||
      r.2.containers.all (fun cq =>
        match lookupA info.polByContainer cq.2.name with
        | none => true
        | some pid => lookupA s.kernel.cgroupToPolicy cq.2.cgID == some pid))

theorem syncWorkloadPolicy_trace_mem (k : KernelMaps) (next : Nat)
    (pol : List (String × Nat)) (m : Nat) (rules : List (String × WorkloadPolicyRules)) :
    ∀ cn r, (cn, r) ∈ rules → ∀ pid, lookupA pol cn = some pid →
      KernelOp.values pid r.allowed .replaceValuesInPolicy ∈
        (syncWorkloadPolicy k next pol m rules).2.2.2 ∧
      KernelOp.mode pid m .updateMode ∈ (syncWorkloadPolicy k next pol m rules).2.2.2 := by
  induction rules generalizing k next with
  | nil => intro cn r hmem; simp at hmem
  | cons q rules ih =>
    obtain ⟨cn0, r0⟩ := q
    intro cn r hmem pid hpid
    rcases List.mem_cons.mp hmem with h | h
    · obtain ⟨rfl, rfl⟩ := Prod.mk.injEq .. ▸ h
      simp only [syncWorkloadPolicy, hpid, upsertPolicyIDInBPF]
      constructor
      · exact List.mem_append.mpr (Or.inl (List.mem_cons_self _ _))
      · exact List.mem_append.mpr (Or.inl (List.mem_cons_of_mem _ (List.mem_cons_self _ _)))
    · cases hv : lookupA pol cn0 with
      | some polID =>
        simp only [syncWorkloadPolicy, hv]
        obtain ⟨h1, h2⟩ := ih _ next cn r h pid hpid
        exact ⟨List.mem_append.mpr (Or.inr h1), List.mem_append.mpr (Or.inr h2)⟩
      | none =>
        simp only [syncWorkloadPolicy, hv]
        obtain ⟨h1, h2⟩ := ih _ (next + 1) cn r h pid hpid
        exact ⟨List.mem_append.mpr (Or.inr h1), List.mem_append.mpr (Or.inr h2)⟩

/-- **C5 (part of).** Propositional unpacking of `appliedState`. -/
theorem appliedState_elim {s : ResolverState} {wp : WorkloadPolicy} {info : WpInfo}
    (hlk : lookupA s.wpState wp.namespacedName = some info)
    (happ : appliedState s wp = true) :
    (∀ cn r, (cn, r) ∈ wp.rulesByContainer → ∃ pid,
      lookupA info.polByContainer cn = some pid ∧
      lookupA s.kernel.policyValues pid = some r.allowed ∧
      lookupA s.kernel.policyMode pid = some wp.mode) ∧
    (∀ q ∈ info.polByContainer, (lookupA wp.rulesByContainer q.1).isSome = true) ∧
    (∀ uid p, (uid, p) ∈ s.podCache → p.matchPolicyKey wp.namespacedName = true →
      ∀ cid c, (cid, c) ∈ p.containers → ∀ pid,
        lookupA info.polByContainer c.name = some pid →
        lookupA s.kernel.cgroupToPolicy c.cgID = some pid) := by
  rw [appliedState, hlk] at happ
  simp only [Bool.and_eq_true, List.all_eq_true] at happ
  obtain ⟨⟨⟨hA, hB⟩, hC⟩, hD⟩ := happ
  refine ⟨?_, ?_, ?_⟩
  · intro cn r hmem
    have := hC (cn, r) hmem
    cases hv : lookupA info.polByContainer cn with
    | none => rw [hv] at this; cases this
    | some pid =>
      rw [hv] at this
      simp only [Bool.and_eq_true, beq_iff_eq] at this
      exact ⟨pid, rfl, this.1, this.2⟩
  · exact hB
  · intro uid p hp hm cid c hc pid hpid
    have hall := hD (uid, p) hp
    simp only [hm, Bool.not_true, Bool.false_or, List.all_eq_true] at hall
    have h2 := hall (cid, c) hc
    rw [hpid] at h2
    simpa using h2

/-- **C5.** Applying `handleWPUpdate` with a spec identical to the one already
applied succeeds and leaves every kernel map in the same final state
(pointwise): each retained container keeps its policy id (the record's
container → id map and the allocation counter are unchanged), its
`policy_values` are replaced with an equal set and its `policy_mode` is
re-asserted (the `Replace` and `UpdateMode` operations for each retained id
appear in the trace), and re-binding writes the same `cgroup_to_policy`
associations. -/
theorem c5_reapply_idempotent (s : ResolverState) (wp : WorkloadPolicy) (info : WpInfo)
    (hlk : lookupA s.wpState wp.namespacedName = some info)
    (happ : appliedState s wp = true) :
    (handleWPUpdate s wp).ok = true ∧
    (∀ pid, lookupA (handleWPUpdate s wp).state.kernel.policyValues pid =
      lookupA s.kernel.policyValues pid) ∧
    (∀ pid, lookupA (handleWPUpdate s wp).state.kernel.policyMode pid =
      lookupA s.kernel.policyMode pid) ∧
    (∀ cg, lookupA (handleWPUpdate s wp).state.kernel.cgroupToPolicy cg =
      lookupA s.kernel.cgroupToPolicy cg) ∧
    (handleWPUpdate s wp).state.nextPolicyID = s.nextPolicyID ∧
    lookupA (handleWPUpdate s wp).state.wpState wp.namespacedName =
      some ⟨info.polByContainer, ⟨.ready, ""⟩⟩ ∧
    (∀ cn r, (cn, r) ∈ wp.rulesByContainer → ∀ pid,
      lookupA info.polByContainer cn = some pid →
      KernelOp.values pid r.allowed .replaceValuesInPolicy ∈ (handleWPUpdate s wp).trace ∧
      KernelOp.mode pid wp.mode .updateMode ∈ (handleWPUpdate s wp).trace) := by
  obtain ⟨hC, hB, hD⟩ := appliedState_elim hlk happ
  have hCpid : ∀ cn r, (cn, r) ∈ wp.rulesByContainer → ∃ pid,
      lookupA info.polByContainer cn = some pid ∧
      lookupA s.kernel.policyValues pid = some r.allowed ∧
      lookupA s.kernel.policyMode pid = some wp.mode := hC
  obtain ⟨hn1, hn2, hn3, hn4⟩ := syncWorkloadPolicy_noop s.kernel s.nextPolicyID
    info.polByContainer wp.mode wp.rulesByContainer hCpid
  obtain ⟨hs1, _, _, _, _⟩ := syncWorkloadPolicy_spec s.kernel s.nextPolicyID
    info.polByContainer wp.mode wp.rulesByContainer
  simp only [handleWPUpdate, hlk, hn2, mergeNewContainers_nil]
  have happlied : info.polByContainer.filter
      (fun p => (lookupA wp.rulesByContainer p.1).isSome) = info.polByContainer := by
    rw [List.filter_eq_self]
    intro q hq
    exact hB q hq
  have hremoved : info.polByContainer.filter
      (fun p => (lookupA wp.rulesByContainer p.1).isNone) = [] := by
    rw [List.filter_eq_nil]
    intro q hq
    have := hB q hq
    simp only [Option.isNone_iff_eq_none]
    intro hnone
    rw [hnone] at this
    cases this
  rw [happlied, hremoved, updateMatchingPods_removed_nil]
  have hbindnoop : ∀ cg,
      lookupA (applyPolicyToMatchingPods
        (syncWorkloadPolicy s.kernel s.nextPolicyID info.polByContainer wp.mode
          wp.rulesByContainer).1 s.podCache wp.namespacedName
        info.polByContainer).1.cgroupToPolicy cg =
      lookupA s.kernel.cgroupToPolicy cg := by
    intro cg
    rw [applyPolicyToMatchingPods_lookup_noop _ _ _ _ ?hall cg, hs1]
    case hall =>
      intro uid p hp hm cid c hc pid hpid
      rw [hs1]
      exact hD uid p hp hm cid c hc pid hpid
  refine ⟨by trivial, ?_, ?_, hbindnoop, hn1, ?_, ?_⟩
  · intro pid
    rw [show (applyPolicyToMatchingPods _ s.podCache wp.namespacedName
      info.polByContainer).1.policyValues = _ from applyPolicyToMatchingPods_policyValues ..]
    exact hn3 pid
  · intro pid
    rw [show (applyPolicyToMatchingPods _ s.podCache wp.namespacedName
      info.polByContainer).1.policyMode = _ from applyPolicyToMatchingPods_policyMode ..]
    exact hn4 pid
  · rw [lookupA_insertA]
    simp
  · intro cn r hmem pid hpid
    obtain ⟨h1, h2⟩ := syncWorkloadPolicy_trace_mem s.kernel s.nextPolicyID
      info.polByContainer wp.mode wp.rulesByContainer cn r hmem pid hpid
    exact ⟨List.mem_append.mpr (Or.inl h1), List.mem_append.mpr (Or.inl h2)⟩

/-- State after the example policy was added to `exampleS1`. -/
def exampleS2 : ResolverState := (step exampleS1 (.wpAdd exampleWp)).state

theorem c5_reapply_idempotent_witness :
    lookupA exampleS2.wpState exampleWp.namespacedName =
      some ⟨[("c", 1)], ⟨.ready, ""⟩⟩ ∧
    appliedState exampleS2 exampleWp = true ∧
    (handleWPUpdate exampleS2 exampleWp).ok = true ∧
    lookupA (handleWPUpdate exampleS2 exampleWp).state.kernel.cgroupToPolicy 42 =
      lookupA exampleS2.kernel.cgroupToPolicy 42 ∧
    lookupA (handleWPUpdate exampleS2 exampleWp).state.kernel.policyValues 1 =
      lookupA exampleS2.kernel.policyValues 1 := by
  have h := c5_reapply_idempotent exampleS2 exampleWp
    ⟨[("c", 1)], ⟨.ready, ""⟩⟩ (by decide) (by decide)
  exact ⟨by decide, by decide, h.1, h.2.2.2.1 42, h.2.1 1⟩

/-! ## Shrink effects: removal characterizations -/

theorem mem_removedCgIDs (removed : List (String × Nat))
    (cs : List (String × ContainerEntry)) (cg : Nat) :
    cg ∈ removedCgIDs removed cs ↔
      ∃ q ∈ cs, q.2.cgID = cg ∧ (lookupA removed q.2.name).isSome = true := by
  induction cs with
  | nil => simp [removedCgIDs]
  | cons q rest ih =>
    obtain ⟨cid, c⟩ := q
    simp only [removedCgIDs]
    by_cases hv : (lookupA removed c.name).isSome
    · rw [if_pos hv]
      simp only [List.mem_cons, ih]
      constructor
      · rintro (rfl | ⟨q', hq', h1, h2⟩)
        · exact ⟨(cid, c), Or.inl rfl, rfl, hv⟩
        · exact ⟨q', Or.inr hq', h1, h2⟩
      · rintro ⟨q', (rfl | hq'), h1, h2⟩
        · exact Or.inl h1.symm
        · exact Or.inr ⟨q', hq', h1, h2⟩
    · rw [if_neg hv]
      simp only [ih, List.mem_cons]
      constructor
      · rintro ⟨q', hq', h1, h2⟩
        exact ⟨q', Or.inr hq', h1, h2⟩
      · rintro ⟨q', (rfl | hq'), h1, h2⟩
        · exact absurd h2 hv
        · exact ⟨q', hq', h1, h2⟩

theorem mem_removedPolicyIDs (removed : List (String × Nat))
    (cs : List (String × ContainerEntry)) (pid : Nat) :
    pid ∈ removedPolicyIDs removed cs ↔
      ∃ q ∈ cs, lookupA removed q.2.name = some pid := by
  induction cs with
  | nil => simp [removedPolicyIDs]
  | cons q rest ih =>
    obtain ⟨cid, c⟩ := q
    simp only [removedPolicyIDs]
    cases hv : lookupA removed c.name with
    | none =>
      simp only [ih, List.mem_cons]
      constructor
      · rintro ⟨q', hq', h⟩
        exact ⟨q', Or.inr hq', h⟩
      · rintro ⟨q', (rfl | hq'), h⟩
        · rw [hv] at h; cases h
        · exact ⟨q', hq', h⟩
    | some polID =>
      simp only [List.mem_cons, ih]
      constructor
      · rintro (rfl | ⟨q', hq', h⟩)
        · exact ⟨(cid, c), Or.inl rfl, hv⟩
        · exact ⟨q', Or.inr hq', h⟩
      · rintro ⟨q', (rfl | hq'), h⟩
        · rw [hv] at h; exact Or.inl (Option.some.inj h).symm
        · exact Or.inr ⟨q', hq', h⟩

theorem mem_matchingRemovedPids (wpKey : String) (removed : List (String × Nat))
    (pods : List (String × PodState)) (pid : Nat) :
    pid ∈ matchingRemovedPids wpKey removed pods ↔
      ∃ q ∈ pods, q.2.matchPolicyKey wpKey = true ∧
        pid ∈ removedPolicyIDs removed q.2.containers := by
  induction pods with
  | nil => simp [matchingRemovedPids]
  | cons q rest ih =>
    obtain ⟨uid, p⟩ := q
    simp only [matchingRemovedPids]
    by_cases hm : p.matchPolicyKey wpKey
    · rw [if_pos hm]
      simp only [List.mem_append, ih, List.mem_cons]
      constructor
      · rintro (h | ⟨q', hq', h1, h2⟩)
        · exact ⟨(uid, p), Or.inl rfl, hm, h⟩
        · exact ⟨q', Or.inr hq', h1, h2⟩
      · rintro ⟨q', (rfl | hq'), h1, h2⟩
        · exact Or.inl h2
        · exact Or.inr ⟨q', hq', h1, h2⟩
    · rw [if_neg hm]
      simp only [ih, List.mem_cons]
      constructor
      · rintro ⟨q', hq', h1, h2⟩
        exact ⟨q', Or.inr hq', h1, h2⟩
      · rintro ⟨q', (rfl | hq'), h1, h2⟩
        · exact absurd h1 hm
        · exact ⟨q', hq', h1, h2⟩

theorem containersCgIDs_inj {cs : List (String × ContainerEntry)}
    (hnd : (containersCgIDs cs).Nodup) {q1 q2 : String × ContainerEntry}
    (h1 : q1 ∈ cs) (h2 : q2 ∈ cs) (heq : q1.2.cgID = q2.2.cgID) : q1 = q2 :=
  List.inj_on_of_nodup_map hnd h1 h2 heq

theorem flatA_nodup_of_mem {α β γ : Type} (f : β → List γ) {L : List (α × β)}
    (hnd : (flatA f L).Nodup) {q : α × β} (hq : q ∈ L) : (f q.2).Nodup := by
  induction L with
  | nil => simp at hq
  | cons q0 rest ih =>
    obtain ⟨a, b⟩ := q0
    simp only [flatA] at hnd
    rcases List.mem_cons.mp hq with rfl | hq'
    · exact (List.nodup_append.mp hnd).1
    · exact ih (List.nodup_append.mp hnd).2.1 hq'

theorem pairs_snd_inj {α β : Type} {l : List (α × β)} (hnd : (l.map Prod.snd).Nodup)
    {q1 q2 : α × β} (h1 : q1 ∈ l) (h2 : q2 ∈ l) (heq : q1.2 = q2.2) : q1 = q2 :=
  List.inj_on_of_nodup_map hnd h1 h2 heq

theorem applyPolicyToPod_lookup_unapplied (k : KernelMaps)
    (cs : List (String × ContainerEntry)) (ap : List (String × Nat)) (cg : Nat)
    (h : ∀ cid c, (cid, c) ∈ cs → c.cgID = cg → lookupA ap c.name = none) :
    lookupA (applyPolicyToPod k cs ap).1.cgroupToPolicy cg = lookupA k.cgroupToPolicy cg := by
  induction cs generalizing k with
  | nil => rfl
  | cons q rest ih =>
    obtain ⟨cid0, c0⟩ := q
    cases hv : lookupA ap c0.name with
    | none =>
      simp only [applyPolicyToPod, hv]
      exact ih k (fun cid c hc => h cid c (List.mem_cons_of_mem _ hc))
    | some polID =>
      have hne : c0.cgID ≠ cg := by
        intro heq
        rw [h cid0 c0 (List.mem_cons_self _ _) heq] at hv
        cases hv
      simp only [applyPolicyToPod, hv]
      rw [ih _ (fun cid c hc => h cid c (List.mem_cons_of_mem _ hc)),
        applyKernelOp_bind_single, lookupA_insertA]
      rw [if_neg (fun heq => hne heq.symm)]

theorem updateMatchingPods_lookup_removed (k : KernelMaps)
    (pods : List (String × PodState)) (wpKey : String)
    (pol applied removed : List (String × Nat))
    {uid : String} {p : PodState} {cid : String} {c : ContainerEntry}
    (hpods : (uid, p) ∈ pods) (hm : p.matchPolicyKey wpKey = true)
    (hc : (cid, c) ∈ p.containers) (hrem : (lookupA removed c.name).isSome = true)
    (happ : lookupA applied c.name = none)
    (hnd : (allCgroupIDs pods).Nodup) :
    lookupA (updateMatchingPods k pods wpKey pol applied removed).1.cgroupToPolicy c.cgID =
      none := by
  induction pods generalizing k pol with
  | nil => simp at hpods
  | cons q rest ih =>
    obtain ⟨uid0, p0⟩ := q
    simp only [allCgroupIDs, flatA] at hnd
    have hnd1 := (List.nodup_append.mp hnd).1
    have hnd2 := (List.nodup_append.mp hnd).2.1
    have hdisjcg := (List.nodup_append.mp hnd).2.2
    rcases List.mem_cons.mp hpods with h | h
    · obtain ⟨rfl, rfl⟩ := Prod.mk.injEq .. ▸ h
      simp only [updateMatchingPods, if_pos hm]
      have hcg_mem : c.cgID ∈ p.cgIDs := by
        simp only [PodState.cgIDs, List.mem_map]
        exact ⟨(cid, c), hc, rfl⟩
      have hnot : c.cgID ∉ matchingCgroupIDs wpKey rest := fun hmem =>
        hdisjcg hcg_mem ((matchingCgroupIDs_sublist wpKey rest).mem hmem)
      rw [updateMatchingPods_lookup_not_mem _ _ _ _ _ _ _ hnot]
      have hunap : ∀ cid' c', (cid', c') ∈ p.containers → c'.cgID = c.cgID →
          lookupA applied c'.name = none := by
        intro cid' c' hc' heq
        have heq2 : ((cid', c') : String × ContainerEntry) = (cid, c) :=
          containersCgIDs_inj (PodState.cgIDs_eq p ▸ hnd1) hc' hc heq
        have hcc : c' = c := congrArg Prod.snd heq2
        rw [hcc]
        exact happ
      rw [applyPolicyToPod_lookup_unapplied _ _ _ _ hunap]
      rw [removePolicyFromPod_cg_lookup]
      rw [if_pos ((mem_removedCgIDs removed p.containers c.cgID).mpr
        ⟨(cid, c), hc, rfl, hrem⟩)]
    · by_cases hm0 : p0.matchPolicyKey wpKey
      · simp only [updateMatchingPods, if_pos hm0]
        exact ih _ _ h hnd2
      · simp only [updateMatchingPods, if_neg hm0]
        exact ih k pol h hnd2

theorem updateMatchingPods_lookup_frame (k : KernelMaps)
    (pods : List (String × PodState)) (wpKey : String)
    (pol applied removed : List (String × Nat)) (cg : Nat)
    (hall : ∀ uid p, (uid, p) ∈ pods → p.matchPolicyKey wpKey = true →
      ∀ cid c, (cid, c) ∈ p.containers → ∀ pid, lookupA applied c.name = some pid →
        lookupA k.cgroupToPolicy c.cgID = some pid)
    (hrm : ∀ uid p, (uid, p) ∈ pods → p.matchPolicyKey wpKey = true →
      ∀ cid c, (cid, c) ∈ p.containers → (lookupA removed c.name).isSome = true →
        c.cgID ≠ cg)
    (hdisj : ∀ nm, (lookupA applied nm).isSome = true → lookupA removed nm = none)
    (hnd : (allCgroupIDs pods).Nodup) :
    lookupA (updateMatchingPods k pods wpKey pol applied removed).1.cgroupToPolicy cg =
      lookupA k.cgroupToPolicy cg := by
  induction pods generalizing k pol with
  | nil => rfl
  | cons q rest ih =>
    obtain ⟨uid0, p0⟩ := q
    simp only [allCgroupIDs, flatA] at hnd
    have hnd1 := (List.nodup_append.mp hnd).1
    have hnd2 := (List.nodup_append.mp hnd).2.1
    have hdisjcg := (List.nodup_append.mp hnd).2.2
    by_cases hm0 : p0.matchPolicyKey wpKey
    · simp only [updateMatchingPods, if_pos hm0]
      have hsubcg : ∀ cg', cg' ∈ removedCgIDs removed p0.containers →
          cg' ∈ p0.cgIDs := by
        intro cg' hcg'
        obtain ⟨q', hq', h1, _⟩ := (mem_removedCgIDs removed p0.containers cg').mp hcg'
        simp only [PodState.cgIDs, List.mem_map]
        exact ⟨q', hq', h1⟩
      have hf2 : ∀ cid c, (cid, c) ∈ p0.containers →
          (lookupA applied c.name).isSome = true →
          c.cgID ∉ removedCgIDs removed p0.containers := by
        intro cid c hc hap hmem
        obtain ⟨q', hq', h1, h2⟩ := (mem_removedCgIDs removed p0.containers c.cgID).mp hmem
        have heq2 : q' = (cid, c) :=
          containersCgIDs_inj (PodState.cgIDs_eq p0 ▸ hnd1) hq' hc h1
        rw [heq2] at h2
        rw [hdisj c.name hap] at h2
        cases h2
      have hf3 : ∀ cid c, (cid, c) ∈ p0.containers → ∀ pid,
          lookupA applied c.name = some pid →
          lookupA (removePolicyFromPod k p0.containers pol removed).1.cgroupToPolicy
            c.cgID = some pid := by
        intro cid c hc pid hpid
        rw [removePolicyFromPod_cg_lookup,
          if_neg (hf2 cid c hc (by rw [hpid]; rfl))]
        exact hall uid0 p0 (List.mem_cons_self _ _) hm0 cid c hc pid hpid
      have hf4 := applyPolicyToPod_lookup_noop _ p0.containers applied hf3
      have hall' : ∀ uid p, (uid, p) ∈ rest → p.matchPolicyKey wpKey = true →
          ∀ cid c, (cid, c) ∈ p.containers → ∀ pid, lookupA applied c.name = some pid →
          lookupA (applyPolicyToPod (removePolicyFromPod k p0.containers pol removed).1
            p0.containers applied).1.cgroupToPolicy c.cgID = some pid := by
        intro uid p hp hmp cid c hc pid hpid
        rw [hf4]
        have hcrest : c.cgID ∈ flatA PodState.cgIDs rest := by
          rw [mem_flatA]
          refine ⟨(uid, p), hp, ?_⟩
          simp only [PodState.cgIDs, List.mem_map]
          exact ⟨(cid, c), hc, rfl⟩
        have hnotrm : c.cgID ∉ removedCgIDs removed p0.containers := fun hmem =>
          hdisjcg (hsubcg _ hmem) hcrest
        rw [removePolicyFromPod_cg_lookup, if_neg hnotrm]
        exact hall uid p (List.mem_cons_of_mem _ hp) hmp cid c hc pid hpid
      have hrm' : ∀ uid p, (uid, p) ∈ rest → p.matchPolicyKey wpKey = true →
          ∀ cid c, (cid, c) ∈ p.containers → (lookupA removed c.name).isSome = true →
          c.cgID ≠ cg := fun uid p hp => hrm uid p (List.mem_cons_of_mem _ hp)
      rw [ih _ _ hall' hrm' hnd2, hf4]
      have hcg : cg ∉ removedCgIDs removed p0.containers := by
        intro hmem
        obtain ⟨q', hq', h1, h2⟩ := (mem_removedCgIDs removed p0.containers cg).mp hmem
        exact hrm uid0 p0 (List.mem_cons_self _ _) hm0 q'.1 q'.2 hq' h2 h1
      rw [removePolicyFromPod_cg_lookup, if_neg hcg]
    · simp only [updateMatchingPods, if_neg hm0]
      exact ih k pol (fun uid p hp => hall uid p (List.mem_cons_of_mem _ hp))
        (fun uid p hp => hrm uid p (List.mem_cons_of_mem _ hp)) hnd2

/-- A cached pod matching `wpKey` carries a container named `cn`. -/
def matchingPodCarries (s : ResolverState) (wpKey cn : String) : Prop :=
  ∃ uid p, (uid, p) ∈ s.podCache ∧ p.matchPolicyKey wpKey = true ∧
    ∃ cid c, (cid, c) ∈ p.containers ∧ c.name = cn

theorem wpInfo_mk_pol (l : List (String × Nat)) (st : PolicyStatus) :
    (WpInfo.mk l st).polByContainer = l := rfl

/-- **C4 (amended).** Updating a policy whose new spec drops container `cn`
(while keeping every other rule and the mode unchanged, from a state where the
old spec is applied): the update succeeds; `cn`'s cgroup bindings are removed
from every matching pod that carries it and no other binding changes; `cn`'s
`policy_values`/`policy_mode` entries and its per-container record entry are
dropped when some matching pod carries a container named `cn`, and are kept
unchanged otherwise; every other container keeps its policy id, values, mode
and record entry. -/
theorem c4_shrink_effects (s : ResolverState) (wpOld wp : WorkloadPolicy) (info : WpInfo)
    (cn : String) (pid : Nat)
    (hinv : invariantOK s = true)
    (happ : appliedState s wpOld = true)
    (hkey : wp.namespacedName = wpOld.namespacedName)
    (hrules : wp.rulesByContainer = eraseA wpOld.rulesByContainer cn)
    (hmode : wp.mode = wpOld.mode)
    (hlk : lookupA s.wpState wpOld.namespacedName = some info)
    (hpid : lookupA info.polByContainer cn = some pid) :
    (handleWPUpdate s wp).ok = true ∧
    (∀ uid p, (uid, p) ∈ s.podCache → p.matchPolicyKey wp.namespacedName = true →
      ∀ cid c, (cid, c) ∈ p.containers → c.name = cn →
        lookupA (handleWPUpdate s wp).state.kernel.cgroupToPolicy c.cgID = none) ∧
    (∀ cg, (∀ uid p, (uid, p) ∈ s.podCache → p.matchPolicyKey wp.namespacedName = true →
        ∀ cid c, (cid, c) ∈ p.containers → c.name = cn → c.cgID ≠ cg) →
      lookupA (handleWPUpdate s wp).state.kernel.cgroupToPolicy cg =
        lookupA s.kernel.cgroupToPolicy cg) ∧
    (matchingPodCarries s wp.namespacedName cn →
      lookupA (handleWPUpdate s wp).state.kernel.policyValues pid = none ∧
      lookupA (handleWPUpdate s wp).state.kernel.policyMode pid = none ∧
      (∀ info', lookupA (handleWPUpdate s wp).state.wpState wp.namespacedName =
        some info' → lookupA info'.polByContainer cn = none)) ∧
    (¬ matchingPodCarries s wp.namespacedName cn →
      lookupA (handleWPUpdate s wp).state.kernel.policyValues pid =
        lookupA s.kernel.policyValues pid ∧
      lookupA (handleWPUpdate s wp).state.kernel.policyMode pid =
        lookupA s.kernel.policyMode pid ∧
      (∀ info', lookupA (handleWPUpdate s wp).state.wpState wp.namespacedName =
        some info' → lookupA info'.polByContainer cn = some pid)) ∧
    (∀ cn' pid', cn' ≠ cn → lookupA info.polByContainer cn' = some pid' →
      lookupA (handleWPUpdate s wp).state.kernel.policyValues pid' =
        lookupA s.kernel.policyValues pid' ∧
      lookupA (handleWPUpdate s wp).state.kernel.policyMode pid' =
        lookupA s.kernel.policyMode pid' ∧
      (∀ info', lookupA (handleWPUpdate s wp).state.wpState wp.namespacedName =
        some info' → lookupA info'.polByContainer cn' = some pid')) := by
  obtain ⟨hwf, hbound⟩ := (invariantOK_iff s).mp hinv
  obtain ⟨hw1, hw2, hw3, hw4, hw5, hw6, hw7⟩ := hwf
  obtain ⟨hC, hB, hD⟩ := appliedState_elim hlk happ
  have hlk2 : lookupA s.wpState wp.namespacedName = some info := by rw [hkey]; exact hlk
  have hndpol : (keysA info.polByContainer).Nodup :=
    hw3 (wp.namespacedName, info) (mem_of_lookupA_eq_some hlk2)
  have hallsync : ∀ cn' r, (cn', r) ∈ wp.rulesByContainer → ∃ pid0,
      lookupA info.polByContainer cn' = some pid0 ∧
      lookupA s.kernel.policyValues pid0 = some r.allowed ∧
      lookupA s.kernel.policyMode pid0 = some wp.mode := by
    intro cn' r hmem
    rw [hrules] at hmem
    obtain ⟨pid0, h1, h2, h3⟩ :=
      hC cn' r ((eraseA_sublist wpOld.rulesByContainer cn).subset hmem)
    exact ⟨pid0, h1, h2, by rw [hmode]; exact h3⟩
  obtain ⟨hn1, hn2, hn3, hn4⟩ := syncWorkloadPolicy_noop s.kernel s.nextPolicyID
    info.polByContainer wp.mode wp.rulesByContainer hallsync
  obtain ⟨hs1, _, _, _, _⟩ := syncWorkloadPolicy_spec s.kernel s.nextPolicyID
    info.polByContainer wp.mode wp.rulesByContainer
  have happlk := lookupA_filter_specSome info.polByContainer wp.rulesByContainer hndpol
  have hremlk := lookupA_filter_specNone info.polByContainer wp.rulesByContainer hndpol
  have hwcn : lookupA wp.rulesByContainer cn = none := by
    rw [hrules, lookupA_eraseA, if_pos rfl]
  have happcn : lookupA (info.polByContainer.filter
      (fun p => (lookupA wp.rulesByContainer p.1).isSome)) cn = none := by
    rw [happlk cn, hwcn]
    rfl
  have hremcn : lookupA (info.polByContainer.filter
      (fun p => (lookupA wp.rulesByContainer p.1).isNone)) cn = some pid := by
    rw [hremlk cn, hwcn]
    simpa using hpid
  have hremchar : ∀ nm pid'', lookupA (info.polByContainer.filter
      (fun p => (lookupA wp.rulesByContainer p.1).isNone)) nm = some pid'' →
      nm = cn ∧ pid'' = pid := by
    intro nm pid'' h
    rw [hremlk nm] at h
    by_cases hnm : nm = cn
    · subst hnm
      rw [hwcn] at h
      simp only [Option.isNone_none, if_true] at h
      rw [hpid] at h
      exact ⟨rfl, (Option.some.inj h).symm⟩
    · rw [hrules, lookupA_eraseA, if_neg hnm] at h
      cases hold : lookupA wpOld.rulesByContainer nm with
      | some r0 => rw [hold] at h; simp at h
      | none =>
        rw [hold] at h
        simp only [Option.isNone_none, if_true] at h
        have := hB (nm, pid'') (mem_of_lookupA_eq_some h)
        rw [hold] at this
        cases this
  have hdisjar : ∀ nm, (lookupA (info.polByContainer.filter
      (fun p => (lookupA wp.rulesByContainer p.1).isSome)) nm).isSome = true →
      lookupA (info.polByContainer.filter
        (fun p => (lookupA wp.rulesByContainer p.1).isNone)) nm = none := by
    intro nm h
    cases hw : lookupA wp.rulesByContainer nm with
    | none => rw [happlk nm, hw] at h; simp at h
    | some r0 => rw [hremlk nm, hw]; rfl
  simp only [handleWPUpdate, hlk2, hn2, mergeNewContainers_nil]
  refine ⟨by trivial, ?_, ?_, ?_, ?_, ?_⟩
  · intro uid p hp hm cid c hc hcn
    exact updateMatchingPods_lookup_removed _ s.podCache wp.namespacedName _ _ _ hp hm hc
      (by rw [hcn, hremcn]; rfl) (by rw [hcn]; exact happcn) hw4
  · intro cg hno
    rw [updateMatchingPods_lookup_frame _ _ _ _ _ _ cg ?hall ?hrm hdisjar hw4, hs1]
    case hall =>
      intro uid p hp hm cid c hc pid' hpid'
      rw [hs1]
      rw [happlk c.name] at hpid'
      cases hw : lookupA wp.rulesByContainer c.name with
      | none => rw [hw] at hpid'; simp at hpid'
      | some r0 =>
        rw [hw] at hpid'
        simp only [Option.isSome_some, if_true] at hpid'
        exact hbound wp.namespacedName info (mem_of_lookupA_eq_some hlk2)
          uid p hp hm cid c hc pid' hpid'
    case hrm =>
      intro uid p hp hm cid c hc hsome
      cases hrc : lookupA (info.polByContainer.filter
          (fun p => (lookupA wp.rulesByContainer p.1).isNone)) c.name with
      | none => rw [hrc] at hsome; cases hsome
      | some pid'' =>
        exact hno uid p hp hm cid c hc (hremchar c.name pid'' hrc).1
  · rintro ⟨uid, p, hp, hm, cid, c, hc, hcn⟩
    have hpidmem : pid ∈ matchingRemovedPids wp.namespacedName
        (info.polByContainer.filter
          (fun p => (lookupA wp.rulesByContainer p.1).isNone)) s.podCache := by
      rw [mem_matchingRemovedPids]
      exact ⟨(uid, p), hp, hm, (mem_removedPolicyIDs _ _ _).mpr
        ⟨(cid, c), hc, by rw [hcn]; exact hremcn⟩⟩
    refine ⟨?_, ?_, ?_⟩
    · rw [updateMatchingPods_values_lookup, if_pos hpidmem]
    · rw [updateMatchingPods_mode_lookup, if_pos hpidmem]
    · intro info' hinfo'
      rw [lookupA_insertA, if_pos rfl] at hinfo'
      have hinfo2 : info' = _ := (Option.some.inj hinfo').symm
      rw [hinfo2, wpInfo_mk_pol, updateMatchingPods_pol_lookup]
      rw [if_pos ((mem_matchingRemovedNames _ _ _ _).mpr
        ⟨(uid, p), hp, hm, (mem_removedContainerNames _ _ _).mpr
          ⟨(cid, c), hc, hcn, by rw [hremcn]; rfl⟩⟩)]
  · intro hnc
    have hpidnot : pid ∉ matchingRemovedPids wp.namespacedName
        (info.polByContainer.filter
          (fun p => (lookupA wp.rulesByContainer p.1).isNone)) s.podCache := by
      intro hmem
      rw [mem_matchingRemovedPids] at hmem
      obtain ⟨⟨uid, p⟩, hp, hm, hpr⟩ := hmem
      rw [mem_removedPolicyIDs] at hpr
      obtain ⟨⟨cid, c⟩, hc, hlkc⟩ := hpr
      exact hnc ⟨uid, p, hp, hm, cid, c, hc, (hremchar c.name pid hlkc).1⟩
    have hcnnot : cn ∉ matchingRemovedNames wp.namespacedName
        (info.polByContainer.filter
          (fun p => (lookupA wp.rulesByContainer p.1).isNone)) s.podCache := by
      intro hmem
      rw [mem_matchingRemovedNames] at hmem
      obtain ⟨⟨uid, p⟩, hp, hm, hnm⟩ := hmem
      rw [mem_removedContainerNames] at hnm
      obtain ⟨⟨cid, c⟩, hc, hname, _⟩ := hnm
      exact hnc ⟨uid, p, hp, hm, cid, c, hc, hname⟩
    refine ⟨?_, ?_, ?_⟩
    · rw [updateMatchingPods_values_lookup, if_neg hpidnot]
      exact hn3 pid
    · rw [updateMatchingPods_mode_lookup, if_neg hpidnot]
      exact hn4 pid
    · intro info' hinfo'
      rw [lookupA_insertA, if_pos rfl] at hinfo'
      have hinfo2 : info' = _ := (Option.some.inj hinfo').symm
      rw [hinfo2, wpInfo_mk_pol, updateMatchingPods_pol_lookup, if_neg hcnnot]
      exact hpid
  · intro cn' pid' hne hpid'
    have hw5' : (flatA (fun i => i.polByContainer.map Prod.snd) s.wpState).Nodup := hw5
    have hsndnd : (info.polByContainer.map Prod.snd).Nodup :=
      flatA_nodup_of_mem _ hw5' (mem_of_lookupA_eq_some hlk2)
    have hpne : pid' ≠ pid := by
      intro heq
      subst heq
      have h1 := mem_of_lookupA_eq_some hpid
      have h2 := mem_of_lookupA_eq_some hpid'
      have h3 := pairs_snd_inj hsndnd h2 h1 rfl
      exact hne (congrArg Prod.fst h3)
    have hpidnot : pid' ∉ matchingRemovedPids wp.namespacedName
        (info.polByContainer.filter
          (fun p => (lookupA wp.rulesByContainer p.1).isNone)) s.podCache := by
      intro hmem
      rw [mem_matchingRemovedPids] at hmem
      obtain ⟨⟨uid, p⟩, hp, hm, hpr⟩ := hmem
      rw [mem_removedPolicyIDs] at hpr
      obtain ⟨⟨cid, c⟩, hc, hlkc⟩ := hpr
      exact hpne (hremchar c.name pid' hlkc).2
    have hcnnot : cn' ∉ matchingRemovedNames wp.namespacedName
        (info.polByContainer.filter
          (fun p => (lookupA wp.rulesByContainer p.1).isNone)) s.podCache := by
      intro hmem
      rw [mem_matchingRemovedNames] at hmem
      obtain ⟨⟨uid, p⟩, hp, hm, hnm⟩ := hmem
      rw [mem_removedContainerNames] at hnm
      obtain ⟨⟨cid, c⟩, hc, hname, hsome⟩ := hnm
      cases hrc : lookupA (info.polByContainer.filter
          (fun p => (lookupA wp.rulesByContainer p.1).isNone)) cn' with
      | none => rw [hrc] at hsome; cases hsome
      | some pid'' => exact hne (hremchar cn' pid'' hrc).1
    refine ⟨?_, ?_, ?_⟩
    · rw [updateMatchingPods_values_lookup, if_neg hpidnot]
      exact hn3 pid'
    · rw [updateMatchingPods_mode_lookup, if_neg hpidnot]
      exact hn4 pid'
    · intro info' hinfo'
      rw [lookupA_insertA, if_pos rfl] at hinfo'
      have hinfo2 : info' = _ := (Option.some.inj hinfo').symm
      rw [hinfo2, wpInfo_mk_pol, updateMatchingPods_pol_lookup, if_neg hcnnot]
      exact hpid'

/-- A state whose record for "ns/p" maps container "d" to policy id 2, while
the only matching pod runs just container "c": the claim's unconditional drop
of "d"'s entries on a shrinking update does not happen here. -/
def exampleS4 : ResolverState :=
  { nextPolicyID := 3,
    wpState := [("ns/p", ⟨[("c", 1), ("d", 2)], ⟨.ready, ""⟩⟩)],
    podCache := [("uid-1", ⟨examplePodInfo, [("cid-1", ⟨"c", 42⟩)]⟩)],
    cgroupIDToPodID := [(42, "uid-1")],
    kernel := { policyValues := [(1, ["/usr/bin/sleep"]), (2, ["/bin/b"])],
                policyMode := [(1, 1), (2, 1)],
                cgroupToPolicy := [(42, 1)] } }

/-- The shrunken spec: container "d" is no longer present. -/
def exampleWp4 : WorkloadPolicy :=
  { ns := "ns", name := "p", mode := 1,
    rulesByContainer := [("c", ⟨["/usr/bin/sleep"]⟩)] }

theorem c4_shrink_counterexample :
    (handleWPUpdate exampleS4 exampleWp4).ok = true ∧
    lookupA exampleWp4.rulesByContainer "d" = none ∧
    lookupA (handleWPUpdate exampleS4 exampleWp4).state.kernel.policyValues 2 =
      some ["/bin/b"] ∧
    lookupA (handleWPUpdate exampleS4 exampleWp4).state.kernel.policyMode 2 = some 1 ∧
    (lookupA (handleWPUpdate exampleS4 exampleWp4).state.wpState "ns/p").map
      (fun i => lookupA i.polByContainer "d") = some (some 2) := by
  refine ⟨by decide, rfl, by decide, by decide, by decide⟩

/-- The spec obtained from `exampleWp` by dropping its only container rule. -/
def exampleWpShrunk : WorkloadPolicy :=
  { ns := "ns", name := "p", mode := 1, rulesByContainer := [] }

theorem c4_shrink_effects_witness :
    invariantOK exampleS2 = true ∧
    appliedState exampleS2 exampleWp = true ∧
    (handleWPUpdate exampleS2 exampleWpShrunk).ok = true ∧
    lookupA (handleWPUpdate exampleS2 exampleWpShrunk).state.kernel.policyValues 1 = none ∧
    lookupA (handleWPUpdate exampleS2 exampleWpShrunk).state.kernel.cgroupToPolicy 42 =
      none := by
  have h := c4_shrink_effects exampleS2 exampleWp exampleWpShrunk
    ⟨[("c", 1)], ⟨.ready, ""⟩⟩ "c" 1
    (by decide) (by decide) rfl (by decide) rfl (by decide) (by decide)
  have hcarry : matchingPodCarries exampleS2 exampleWpShrunk.namespacedName "c" :=
    ⟨"uid-1", ⟨examplePodInfo, [("rt-1", ⟨"c", 42⟩)]⟩, by decide, by decide,
     "rt-1", ⟨"c", 42⟩, by decide, rfl⟩
  refine ⟨by decide, by decide, h.1, (h.2.2.2.1 hcarry).1, ?_⟩
  exact h.2.1 "uid-1" ⟨examplePodInfo, [("rt-1", ⟨"c", 42⟩)]⟩ (by decide) (by decide)
    "rt-1" ⟨"c", 42⟩ (by decide) rfl

/-! ## Late binding -/

theorem containerStartFinish_ok (s : ResolverState) (podUID : String) (c : ContainerEntry)
    (pstate : PodState) : (containerStartFinish s podUID c pstate).ok = true := by
  simp only [containerStartFinish]
  by_cases h : pstate.policyLabel = ""
  · rw [if_pos h]
  · rw [if_neg h]
    cases lookupA s.wpState pstate.policyKey <;> rfl

theorem handleContainerStart_ok (s : ResolverState) (podUID : String) (info : PodInfo)
    (containerID : String) (c : ContainerEntry) :
    (handleContainerStart s podUID info containerID c).ok = true := by
  simp only [handleContainerStart]
  exact containerStartFinish_ok _ _ _ _

theorem applyPolicyToPod_cg_pointwise (k1 k2 : KernelMaps)
    (cs : List (String × ContainerEntry)) (ap : List (String × Nat)) (cg : Nat)
    (h : lookupA k1.cgroupToPolicy cg = lookupA k2.cgroupToPolicy cg) :
    lookupA (applyPolicyToPod k1 cs ap).1.cgroupToPolicy cg =
      lookupA (applyPolicyToPod k2 cs ap).1.cgroupToPolicy cg := by
  induction cs generalizing k1 k2 with
  | nil => exact h
  | cons q rest ih =>
    obtain ⟨cid0, c0⟩ := q
    cases hv : lookupA ap c0.name with
    | none =>
      simp only [applyPolicyToPod, hv]
      exact ih _ _ h
    | some polID =>
      simp only [applyPolicyToPod, hv]
      refine ih _ _ ?_
      rw [applyKernelOp_bind_single, applyKernelOp_bind_single, lookupA_insertA,
        lookupA_insertA]
      by_cases hc : cg = c0.cgID
      · rw [if_pos hc, if_pos hc]
      · rw [if_neg hc, if_neg hc]
        exact h

theorem applyPolicyToMatchingPods_cg_pointwise (k1 k2 : KernelMaps)
    (pods : List (String × PodState)) (wpKey : String) (ap : List (String × Nat)) (cg : Nat)
    (h : lookupA k1.cgroupToPolicy cg = lookupA k2.cgroupToPolicy cg) :
    lookupA (applyPolicyToMatchingPods k1 pods wpKey ap).1.cgroupToPolicy cg =
      lookupA (applyPolicyToMatchingPods k2 pods wpKey ap).1.cgroupToPolicy cg := by
  induction pods generalizing k1 k2 with
  | nil => exact h
  | cons q rest ih =>
    obtain ⟨uid, p⟩ := q
    by_cases hm : p.matchPolicyKey wpKey
    · simp only [applyPolicyToMatchingPods, if_pos hm]
      exact ih _ _ (applyPolicyToPod_cg_pointwise _ _ _ _ _ h)
    · simp only [applyPolicyToMatchingPods, if_neg hm]
      exact ih _ _ h

/-- **C3.** Late binding: a container start for a pod that carries a policy
label with no matching record still succeeds (the pod is cached, no kernel
mutation happens), and a later policy add binds it retroactively: adding the
policy after the start yields the same final state as adding it before
(literally equal in every component, with the `cgroup_to_policy` map equal
pointwise). -/
theorem c3_late_binding (s : ResolverState) (podUID : String) (pinfo : PodInfo)
    (containerID : String) (c : ContainerEntry) (wp : WorkloadPolicy)
    (hpodfresh : lookupA s.podCache podUID = none)
    (hcgfresh : c.cgID ∉ allCgroupIDs s.podCache)
    (hnorec : lookupA s.wpState wp.namespacedName = none)
    (hmatch : PodState.matchPolicyKey ⟨pinfo, [(containerID, c)]⟩ wp.namespacedName = true) :
    (handleContainerStart s podUID pinfo containerID c).ok = true ∧
    lookupA (handleContainerStart s podUID pinfo containerID c).state.podCache podUID =
      some ⟨pinfo, [(containerID, c)]⟩ ∧
    (handleContainerStart s podUID pinfo containerID c).state.kernel = s.kernel ∧
    (handleWPAdd (handleContainerStart s podUID pinfo containerID c).state wp).ok = true ∧
    (handleContainerStart (handleWPAdd s wp).state podUID pinfo containerID c).ok = true ∧
    (handleWPAdd (handleContainerStart s podUID pinfo containerID c).state
        wp).state.nextPolicyID =
      (handleContainerStart (handleWPAdd s wp).state podUID pinfo containerID
        c).state.nextPolicyID ∧
    (handleWPAdd (handleContainerStart s podUID pinfo containerID c).state wp).state.wpState =
      (handleContainerStart (handleWPAdd s wp).state podUID pinfo containerID
        c).state.wpState ∧
    (handleWPAdd (handleContainerStart s podUID pinfo containerID c).state wp).state.podCache =
      (handleContainerStart (handleWPAdd s wp).state podUID pinfo containerID
        c).state.podCache ∧
    (handleWPAdd (handleContainerStart s podUID pinfo containerID
        c).state wp).state.cgroupIDToPodID =
      (handleContainerStart (handleWPAdd s wp).state podUID pinfo containerID
        c).state.cgroupIDToPodID ∧
    (handleWPAdd (handleContainerStart s podUID pinfo containerID
        c).state wp).state.kernel.policyValues =
      (handleContainerStart (handleWPAdd s wp).state podUID pinfo containerID
        c).state.kernel.policyValues ∧
    (handleWPAdd (handleContainerStart s podUID pinfo containerID
        c).state wp).state.kernel.policyMode =
      (handleContainerStart (handleWPAdd s wp).state podUID pinfo containerID
        c).state.kernel.policyMode ∧
    (∀ cg, lookupA (handleWPAdd (handleContainerStart s podUID pinfo containerID
        c).state wp).state.kernel.cgroupToPolicy cg =
      lookupA (handleContainerStart (handleWPAdd s wp).state podUID pinfo containerID
        c).state.kernel.cgroupToPolicy cg) := by
  have hlab : ¬ ((⟨pinfo, [(containerID, c)]⟩ : PodState).policyLabel = "") := by
    have h := hmatch
    simp only [PodState.matchPolicyKey, Bool.and_eq_true, Bool.not_eq_true',
      beq_eq_false_iff_ne] at h
    exact h.1
  have hpk : (⟨pinfo, [(containerID, c)]⟩ : PodState).policyKey = wp.namespacedName :=
    matchPolicyKey_key_eq hmatch
  have her : eraseA s.podCache podUID = s.podCache :=
    eraseA_of_lookupA_eq_none _ _ hpodfresh
  have hpods : insertA s.podCache podUID ⟨pinfo, [(containerID, c)]⟩ =
      (podUID, ⟨pinfo, [(containerID, c)]⟩) :: s.podCache := by
    rw [insertA, her]
  have hstartA : handleContainerStart s podUID pinfo containerID c =
      { ok := true,
        state := { s with
          podCache := insertA s.podCache podUID ⟨pinfo, [(containerID, c)]⟩,
          cgroupIDToPodID := insertA s.cgroupIDToPodID c.cgID podUID },
        trace := [] } := by
    simp only [handleContainerStart, hpodfresh, containerStartFinish, if_neg hlab, hpk,
      hnorec]
  have hABst : (handleWPAdd (handleContainerStart s podUID pinfo containerID c).state
      wp).state =
      { nextPolicyID := (syncWorkloadPolicy s.kernel s.nextPolicyID [] wp.mode
          wp.rulesByContainer).2.1,
        wpState := insertA s.wpState wp.namespacedName
          ⟨mergeNewContainers [] (syncWorkloadPolicy s.kernel s.nextPolicyID [] wp.mode
            wp.rulesByContainer).2.2.1, ⟨.ready, ""⟩⟩,
        podCache := (podUID, ⟨pinfo, [(containerID, c)]⟩) :: s.podCache,
        cgroupIDToPodID := insertA s.cgroupIDToPodID c.cgID podUID,
        kernel := (applyPolicyToMatchingPods
          (applyPolicyToPod (syncWorkloadPolicy s.kernel s.nextPolicyID [] wp.mode
            wp.rulesByContainer).1 [(containerID, c)]
            (mergeNewContainers [] (syncWorkloadPolicy s.kernel s.nextPolicyID [] wp.mode
              wp.rulesByContainer).2.2.1)).1
          s.podCache wp.namespacedName
          (mergeNewContainers [] (syncWorkloadPolicy s.kernel s.nextPolicyID [] wp.mode
            wp.rulesByContainer).2.2.1)).1 } := by
    rw [hstartA]
    simp only [handleWPAdd, hnorec, hpods]
    simp only [applyPolicyToMatchingPods, if_pos hmatch]
  have hBAst : (handleContainerStart (handleWPAdd s wp).state podUID pinfo containerID
      c).state =
      { nextPolicyID := (syncWorkloadPolicy s.kernel s.nextPolicyID [] wp.mode
          wp.rulesByContainer).2.1,
        wpState := insertA s.wpState wp.namespacedName
          ⟨mergeNewContainers [] (syncWorkloadPolicy s.kernel s.nextPolicyID [] wp.mode
            wp.rulesByContainer).2.2.1, ⟨.ready, ""⟩⟩,
        podCache := (podUID, ⟨pinfo, [(containerID, c)]⟩) :: s.podCache,
        cgroupIDToPodID := insertA s.cgroupIDToPodID c.cgID podUID,
        kernel := (applyPolicyToPod
          (applyPolicyToMatchingPods (syncWorkloadPolicy s.kernel s.nextPolicyID [] wp.mode
            wp.rulesByContainer).1 s.podCache wp.namespacedName
            (mergeNewContainers [] (syncWorkloadPolicy s.kernel s.nextPolicyID [] wp.mode
              wp.rulesByContainer).2.2.1)).1
          [(containerID, c)]
          (mergeNewContainers [] (syncWorkloadPolicy s.kernel s.nextPolicyID [] wp.mode
            wp.rulesByContainer).2.2.1)).1 } := by
    simp only [handleWPAdd, hnorec, handleContainerStart, hpodfresh, containerStartFinish,
      if_neg hlab, hpk, lookupA_insertA, hpods]
    simp
  have hnot : c.cgID ∉ matchingCgroupIDs wp.namespacedName s.podCache := fun hmem =>
    hcgfresh ((matchingCgroupIDs_sublist wp.namespacedName s.podCache).subset hmem)
  refine ⟨handleContainerStart_ok _ _ _ _ _, ?_, ?_, ?_, handleContainerStart_ok _ _ _ _ _,
    ?_, ?_, ?_, ?_, ?_, ?_, ?_⟩
  · rw [hstartA]
    simp only [lookupA_insertA]
    simp
  · rw [hstartA]
  · rw [hstartA]
    simp only [handleWPAdd, hnorec]
  · rw [hABst, hBAst]
  · rw [hABst, hBAst]
  · rw [hABst, hBAst]
  · rw [hABst, hBAst]
  · rw [hABst, hBAst]
    simp only [applyPolicyToMatchingPods_policyValues, applyPolicyToPod_policyValues]
  · rw [hABst, hBAst]
    simp only [applyPolicyToMatchingPods_policyMode, applyPolicyToPod_policyMode]
  · intro cg
    simp only [hABst, hBAst]
    cases hpol : lookupA (mergeNewContainers [] (syncWorkloadPolicy s.kernel s.nextPolicyID
        [] wp.mode wp.rulesByContainer).2.2.1) c.name with
    | none =>
      simp only [applyPolicyToPod, hpol]
    | some polID =>
      simp only [applyPolicyToPod, hpol]
      rw [applyKernelOp_bind_single, lookupA_insertA]
      by_cases hcg : cg = c.cgID
      · rw [if_pos hcg]
        subst hcg
        rw [applyPolicyToMatchingPods_lookup_not_mem _ _ _ _ _ hnot]
        rw [applyKernelOp_bind_single, lookupA_insertA, if_pos rfl]
      · rw [if_neg hcg]
        refine applyPolicyToMatchingPods_cg_pointwise _ _ _ _ _ _ ?_
        rw [applyKernelOp_bind_single, lookupA_insertA, if_neg hcg]

theorem c3_late_binding_witness :
    lookupA initialResolverState.wpState exampleWp.namespacedName = none ∧
    (handleContainerStart initialResolverState "uid-1" examplePodInfo "rt-1" ⟨"c", 42⟩).ok =
      true ∧
    (handleWPAdd (handleContainerStart initialResolverState "uid-1" examplePodInfo "rt-1"
      ⟨"c", 42⟩).state exampleWp).ok = true ∧
    (handleContainerStart (handleWPAdd initialResolverState exampleWp).state "uid-1"
      examplePodInfo "rt-1" ⟨"c", 42⟩).ok = true ∧
    lookupA (handleWPAdd (handleContainerStart initialResolverState "uid-1" examplePodInfo
        "rt-1" ⟨"c", 42⟩).state exampleWp).state.kernel.cgroupToPolicy 42 =
      lookupA (handleContainerStart (handleWPAdd initialResolverState exampleWp).state
        "uid-1" examplePodInfo "rt-1" ⟨"c", 42⟩).state.kernel.cgroupToPolicy 42 := by
  have h := c3_late_binding initialResolverState "uid-1" examplePodInfo "rt-1" ⟨"c", 42⟩
    exampleWp rfl (by decide) rfl (by decide)
  exact ⟨rfl, h.1, h.2.2.2.1, h.2.2.2.2.1,
    h.2.2.2.2.2.2.2.2.2.2.2 42⟩

/-! ## `GetKubeInfo` -/

/-- The result record of `GetKubeInfo`. -/
structure KubeInfo where
  podID : String
  podName : String
  ns : String
  containerName : String
  workloadName : String
  workloadType : String
  containerID : String
  labels : List (String × String)
deriving DecidableEq

/-- The two error cases of `GetKubeInfo` (`ErrMissingPodUID`, `ErrMissingPodInfo`). -/
inductive KubeInfoErr : Type
  | missingPodUID
  | missingPodInfo
deriving DecidableEq

/-- The container scan of `GetKubeInfo`: the first container whose cgroup id
matches, returning its name and id. -/
def findContainer (cgID : Nat) : List (String × ContainerEntry) → Option (String × String)
  | [] => none
  | (cID, info) :: rest =>
    if cgID = info.cgID then some (info.name, cID) else findContainer cgID rest

/-- `GetKubeInfo`: resolve the cgroup id through the reverse index and the pod
cache; a missing reverse-index entry or pod-cache entry is an error; the
container name and id fall back to the `"not-found"` sentinel. -/
def GetKubeInfo (s : ResolverState) (cgID : Nat) : Except KubeInfoErr KubeInfo :=
  match lookupA s.cgroupIDToPodID cgID with
  | none => .error .missingPodUID
  | some podID =>
    match lookupA s.podCache podID with
    | none => .error .missingPodInfo
    | some pod =>
      let found := findContainer cgID pod.containers
      .ok { podID := podID, podName := pod.info.name, ns := pod.info.ns,
            containerName := (found.map Prod.fst).getD "not-found",
            workloadName := pod.info.workloadName, workloadType := pod.info.workloadType,
            containerID := (found.map Prod.snd).getD "not-found",
            labels := pod.info.labels }

theorem findContainer_eq_none (cgID : Nat) (cs : List (String × ContainerEntry))
    (h : ∀ q ∈ cs, q.2.cgID ≠ cgID) : findContainer cgID cs = none := by
  induction cs with
  | nil => rfl
  | cons q rest ih =>
    obtain ⟨cID, info⟩ := q
    simp only [findContainer]
    rw [if_neg (fun heq => h (cID, info) (List.mem_cons_self _ _) heq.symm)]
    exact ih (fun q hq => h q (List.mem_cons_of_mem _ hq))

/-- **C10.** `GetKubeInfo` fails exactly when the cgroup id misses the reverse
index or the indexed pod uid misses the pod cache; when the pod is found but
none of its containers carries the cgroup id, it succeeds with the
`"not-found"` sentinel as container name and id and the pod's metadata
otherwise filled in. -/
theorem c10_getKubeInfo_spec (s : ResolverState) (cgID : Nat) :
    ((∃ e, GetKubeInfo s cgID = .error e) ↔
      lookupA s.cgroupIDToPodID cgID = none ∨
      (∃ podID, lookupA s.cgroupIDToPodID cgID = some podID ∧
        lookupA s.podCache podID = none)) ∧
    (∀ podID pod, lookupA s.cgroupIDToPodID cgID = some podID →
      lookupA s.podCache podID = some pod →
      (∀ q ∈ pod.containers, q.2.cgID ≠ cgID) →
      GetKubeInfo s cgID = .ok
        { podID := podID, podName := pod.info.name, ns := pod.info.ns,
          containerName := "not-found", workloadName := pod.info.workloadName,
          workloadType := pod.info.workloadType, containerID := "not-found",
          labels := pod.info.labels }) := by
  constructor
  · cases hidx : lookupA s.cgroupIDToPodID cgID with
    | none =>
      simp only [GetKubeInfo, hidx]
      constructor
      · intro _; exact Or.inl trivial
      · intro _; exact ⟨.missingPodUID, rfl⟩
    | some podID =>
      cases hpod : lookupA s.podCache podID with
      | none =>
        simp only [GetKubeInfo, hidx, hpod]
        constructor
        · intro _; exact Or.inr ⟨podID, rfl, hpod⟩
        · intro _; exact ⟨.missingPodInfo, rfl⟩
      | some pod =>
        simp only [GetKubeInfo, hidx, hpod]
        constructor
        · rintro ⟨e, he⟩; cases he
        · rintro (h | ⟨podID', h1, h2⟩)
          · cases h
          · obtain rfl := Option.some.inj h1
            rw [hpod] at h2
            cases h2
  · intro podID pod hidx hpod hnone
    simp only [GetKubeInfo, hidx, hpod, findContainer_eq_none cgID pod.containers hnone]
    rfl

/-- A state with a reverse-index entry (`99`) whose pod runs no container with
that cgroup id. -/
def exampleS10 : ResolverState :=
  { nextPolicyID := 1,
    wpState := [],
    podCache := [("uid-1", ⟨examplePodInfo, [("cid-1", ⟨"c", 42⟩)]⟩)],
    cgroupIDToPodID := [(42, "uid-1"), (99, "uid-1")],
    kernel := { policyValues := [], policyMode := [], cgroupToPolicy := [] } }

theorem c10_getKubeInfo_witness :
    lookupA exampleS10.cgroupIDToPodID 99 = some "uid-1" ∧
    GetKubeInfo exampleS10 99 = .ok
      { podID := "uid-1", podName := examplePodInfo.name, ns := examplePodInfo.ns,
        containerName := "not-found", workloadName := examplePodInfo.workloadName,
        workloadType := examplePodInfo.workloadType, containerID := "not-found",
        labels := examplePodInfo.labels } ∧
    GetKubeInfo exampleS10 7 = .error .missingPodUID := by
  refine ⟨by decide, ?_, rfl⟩
  exact (c10_getKubeInfo_spec exampleS10 99).2 "uid-1"
    ⟨examplePodInfo, [("cid-1", ⟨"c", 42⟩)]⟩ (by decide) (by decide) (by decide)

/-! ## Rate-limited logging -/

/-- State of one `logRateLimiter`: the token credit of its bucket in
nanoseconds (one token = `10^9` ns of credit, burst 1), the time of the last
call, and the suppressed-event counter. -/
structure RateLimiterState where
  tokens : Int
  lastTime : Int
  suppressed : Nat
deriving DecidableEq

def nsPerToken : Int := 1000000000

/-- Modelled from the spec: `golang.org/x/time/rate` is an external library;
per the spec the bucket holds 1 token per second with burst 1.  `Allow` at
time `t` refreshes the credit by the elapsed time (capped at one token) and
admits iff a full token is available, consuming it. -/
def limiterAllow (st : RateLimiterState) (t : Int) : Bool × RateLimiterState :=
  let tokens2 := min nsPerToken (st.tokens + (t - st.lastTime))
  if nsPerToken ≤ tokens2 then
    (true, { st with tokens := tokens2 - nsPerToken, lastTime := t })
  else
    (false, { st with tokens := tokens2, lastTime := t })

/-- What a rate-limited log call emits. -/
inductive Emitted : Type
  | suppressionReport (count : Nat) (logType : String)
  | original (logType : String)
deriving DecidableEq

/-- `logRateLimiter.logEvent`: a denied call increments `suppressed` and emits
nothing; an admitted call first emits the suppression report (count and log
type) when the counter is positive, resetting it, then emits the original
log. -/
def rlLogEvent (st : RateLimiterState) (t : Int) (msg : String) :
    RateLimiterState × List Emitted :=
  let a := limiterAllow st t
  if a.1 = false then
    ({ a.2 with suppressed := a.2.suppressed + 1 }, [])
  else
    if 0 < a.2.suppressed then
      ({ a.2 with suppressed := 0 },
        [.suppressionReport a.2.suppressed msg, .original msg])
    else (a.2, [.original msg])

/-- Run the limiter over a stream of identically-typed events at the given
times. -/
def rlRun (st : RateLimiterState) (msg : String) : List Int → RateLimiterState × List Emitted
  | [] => (st, [])
  | t :: ts =>
    let r := rlLogEvent st t msg
    let rest := rlRun r.1 msg ts
    (rest.1, r.2 ++ rest.2)

/-- Number of original (admitted) logs among the emissions. -/
def admittedCount : List Emitted → Nat
  | [] => 0
  | .original _ :: r => admittedCount r + 1
  | .suppressionReport _ _ :: r => admittedCount r

/-- Sum of the counts carried by the suppression reports. -/
def reportedCount : List Emitted → Nat
  | [] => 0
  | .suppressionReport n _ :: r => n + reportedCount r
  | .original _ :: r => reportedCount r

/-- A fresh limiter: full burst, counter zero. -/
def rl0 : RateLimiterState := { tokens := nsPerToken, lastTime := 0, suppressed := 0 }

theorem admittedCount_append (l1 l2 : List Emitted) :
    admittedCount (l1 ++ l2) = admittedCount l1 + admittedCount l2 := by
  induction l1 with
  | nil => simp [admittedCount]
  | cons e r ih =>
    cases e with
    | suppressionReport n s =>
      simp only [List.cons_append, admittedCount, List.append_eq] at ih ⊢
      rw [ih]
    | original s =>
      simp only [List.cons_append, admittedCount, List.append_eq] at ih ⊢
      rw [ih]
      omega

theorem reportedCount_append (l1 l2 : List Emitted) :
    reportedCount (l1 ++ l2) = reportedCount l1 + reportedCount l2 := by
  induction l1 with
  | nil => simp [reportedCount]
  | cons e r ih =>
    cases e with
    | suppressionReport n s =>
      simp only [List.cons_append, reportedCount, List.append_eq] at ih ⊢
      rw [ih]
      omega
    | original s =>
      simp only [List.cons_append, reportedCount, List.append_eq] at ih ⊢
      rw [ih]

theorem limiterAllow_suppressed (st : RateLimiterState) (t : Int) :
    (limiterAllow st t).2.suppressed = st.suppressed := by
  simp only [limiterAllow]
  split <;> rfl

theorem rlLogEvent_eq_denied (st : RateLimiterState) (t : Int) (msg : String)
    (ha : (limiterAllow st t).1 = false) :
    rlLogEvent st t msg =
      ({ tokens := (limiterAllow st t).2.tokens, lastTime := (limiterAllow st t).2.lastTime,
          suppressed := st.suppressed + 1 }, []) := by
  simp only [rlLogEvent, ha, limiterAllow_suppressed]
  rw [if_pos trivial]

theorem rlLogEvent_eq_admitted_pos (st : RateLimiterState) (t : Int) (msg : String)
    (ha : (limiterAllow st t).1 = true) (hs : 0 < st.suppressed) :
    rlLogEvent st t msg =
      ({ tokens := (limiterAllow st t).2.tokens, lastTime := (limiterAllow st t).2.lastTime,
          suppressed := 0 },
        [.suppressionReport st.suppressed msg, .original msg]) := by
  simp only [rlLogEvent, ha, limiterAllow_suppressed]
  rw [if_neg (by decide), if_pos hs]

theorem rlLogEvent_eq_admitted_zero (st : RateLimiterState) (t : Int) (msg : String)
    (ha : (limiterAllow st t).1 = true) (hs : st.suppressed = 0) :
    rlLogEvent st t msg = ((limiterAllow st t).2, [.original msg]) := by
  simp only [rlLogEvent, ha, limiterAllow_suppressed, hs]
  rw [if_neg (by decide), if_neg (by decide)]

theorem rlRun_accounting (msg : String) (ts : List Int) : ∀ st : RateLimiterState,
    admittedCount (rlRun st msg ts).2 + reportedCount (rlRun st msg ts).2 +
      (rlRun st msg ts).1.suppressed = ts.length + st.suppressed := by
  induction ts with
  | nil => intro st; simp [rlRun, admittedCount, reportedCount]
  | cons t ts ih =>
    intro st
    cases ha : (limiterAllow st t).1 with
    | false =>
      simp only [rlRun, rlLogEvent_eq_denied st t msg ha, List.nil_append]
      have h : admittedCount (rlRun
            { tokens := (limiterAllow st t).2.tokens,
              lastTime := (limiterAllow st t).2.lastTime,
              suppressed := st.suppressed + 1 } msg ts).2 +
          reportedCount (rlRun
            { tokens := (limiterAllow st t).2.tokens,
              lastTime := (limiterAllow st t).2.lastTime,
              suppressed := st.suppressed + 1 } msg ts).2 +
          (rlRun
            { tokens := (limiterAllow st t).2.tokens,
              lastTime := (limiterAllow st t).2.lastTime,
              suppressed := st.suppressed + 1 } msg ts).1.suppressed =
          ts.length + (st.suppressed + 1) := ih _
      simp only [List.length_cons]
      omega
    | true =>
      cases hs0 : st.suppressed with
      | zero =>
        simp only [rlRun, rlLogEvent_eq_admitted_zero st t msg ha hs0, List.cons_append,
          List.nil_append, admittedCount, reportedCount]
        have h : admittedCount (rlRun (limiterAllow st t).2 msg ts).2 +
            reportedCount (rlRun (limiterAllow st t).2 msg ts).2 +
            (rlRun (limiterAllow st t).2 msg ts).1.suppressed =
            ts.length + (limiterAllow st t).2.suppressed := ih _
        rw [limiterAllow_suppressed] at h
        simp only [List.length_cons]
        omega
      | succ n =>
        have hs : 0 < st.suppressed := by omega
        simp only [rlRun, rlLogEvent_eq_admitted_pos st t msg ha hs, List.cons_append,
          List.nil_append, admittedCount, reportedCount]
        have h : admittedCount (rlRun
              { tokens := (limiterAllow st t).2.tokens,
                lastTime := (limiterAllow st t).2.lastTime, suppressed := 0 } msg ts).2 +
            reportedCount (rlRun
              { tokens := (limiterAllow st t).2.tokens,
                lastTime := (limiterAllow st t).2.lastTime, suppressed := 0 } msg ts).2 +
            (rlRun
              { tokens := (limiterAllow st t).2.tokens,
                lastTime := (limiterAllow st t).2.lastTime,
                suppressed := 0 } msg ts).1.suppressed =
            ts.length + 0 := ih _
        simp only [List.length_cons]
        omega

/-- **C9 (amended).** For a rate-limited log code: a denied event increments
the bucket's suppressed counter and emits nothing; an admitted event with a
positive counter first emits the suppression report carrying the count and the
log type and resets the counter, then emits the original log; an admitted
event with a zero counter just emits the original log.  Consequently, over any
stream of identical log codes, admitted logs plus reported suppressed counts
plus the suppressed events still pending in the counter account for every
input event. -/
theorem c9_rate_limiter_behavior (msg : String) (st : RateLimiterState) (t : Int)
    (ts : List Int) :
    ((limiterAllow st t).1 = false →
      (rlLogEvent st t msg).2 = [] ∧
      (rlLogEvent st t msg).1.suppressed = st.suppressed + 1) ∧
    ((limiterAllow st t).1 = true → 0 < st.suppressed →
      (rlLogEvent st t msg).2 = [.suppressionReport st.suppressed msg, .original msg] ∧
      (rlLogEvent st t msg).1.suppressed = 0) ∧
    ((limiterAllow st t).1 = true → st.suppressed = 0 →
      (rlLogEvent st t msg).2 = [.original msg]) ∧
    (admittedCount (rlRun st msg ts).2 + reportedCount (rlRun st msg ts).2 +
      (rlRun st msg ts).1.suppressed = ts.length + st.suppressed) := by
  refine ⟨?_, ?_, ?_, rlRun_accounting msg ts st⟩
  · intro ha
    rw [rlLogEvent_eq_denied st t msg ha]
    exact ⟨rfl, rfl⟩
  · intro ha hs
    rw [rlLogEvent_eq_admitted_pos st t msg ha hs]
    exact ⟨rfl, rfl⟩
  · intro ha hs
    rw [rlLogEvent_eq_admitted_zero st t msg ha hs]

/-- Two events in the same second: the first is admitted, the second is
suppressed and never reported (no later admitted event), so admitted plus
reported counts do not account for both inputs — refuting the claim's
unqualified accounting law. -/
theorem c9_accounting_counterexample :
    admittedCount (rlRun rl0 "dropped exec event" [0, 0]).2 = 1 ∧
    reportedCount (rlRun rl0 "dropped exec event" [0, 0]).2 = 0 ∧
    (rlRun rl0 "dropped exec event" [0, 0]).1.suppressed = 1 ∧
    admittedCount (rlRun rl0 "dropped exec event" [0, 0]).2 +
      reportedCount (rlRun rl0 "dropped exec event" [0, 0]).2 ≠
      (2 : Nat) := by
  refine ⟨by decide, by decide, by decide, by decide⟩

theorem c9_rate_limiter_behavior_witness :
    (limiterAllow (rlRun rl0 "dropped exec event" [0, 0]).1 2000000000).1 = true ∧
    0 < (rlRun rl0 "dropped exec event" [0, 0]).1.suppressed ∧
    (rlLogEvent (rlRun rl0 "dropped exec event" [0, 0]).1 2000000000
        "dropped exec event").2 =
      [.suppressionReport 1 "dropped exec event", .original "dropped exec event"] ∧
    admittedCount (rlRun rl0 "dropped exec event" [0, 0, 2000000000]).2 +
      reportedCount (rlRun rl0 "dropped exec event" [0, 0, 2000000000]).2 +
      (rlRun rl0 "dropped exec event" [0, 0, 2000000000]).1.suppressed = 3 := by
  have h := c9_rate_limiter_behavior "dropped exec event"
    (rlRun rl0 "dropped exec event" [0, 0]).1 2000000000 []
  have h2 := (h.2.1 (by decide) (by decide)).1
  have h3 := c9_rate_limiter_behavior "dropped exec event" rl0 0 [0, 0, 2000000000]
  refine ⟨by decide, by decide, ?_, ?_⟩
  · rw [h2]
    rw [show (rlRun rl0 "dropped exec event" [0, 0]).1.suppressed = 1 from by decide]
  · exact h3.2.2.2

/-! ## Cgroup path parsing -/

/-- The characters of a string (cgroup paths are handled as character lists). -/
def chars (s : String) : List Char := s.data

/-- `strings.Split` for a single-character separator. -/
def splitOnC (sep : Char) : List Char → List (List Char)
  | [] => [[]]
  | c :: rest =>
    let r := splitOnC sep rest
    if c = sep then [] :: r
    else
      match r with
      | [] => [[c]]
      | h :: t => (c :: h) :: t

def sliceSuffix : List Char := ['.', 's', 'l', 'i', 'c', 'e']

def scopeSuffix : List Char := ['.', 's', 'c', 'o', 'p', 'e']

/-- The slice-expansion loop of `SystemdExpandSlice`: per component, append
`"/" ++ prefix ++ component ++ ".slice"` to the path and `component ++ "-"` to
the prefix; an empty component is an error. -/
def expandLoop (path pfx : List Char) : List (List Char) → Option (List Char)
  | [] => some path
  | comp :: rest =>
    if comp = [] then none
    else expandLoop (path ++ '/' :: (pfx ++ comp ++ sliceSuffix))
      (pfx ++ comp ++ ['-']) rest

/-- `SystemdExpandSlice`: reject names not strictly longer than `".slice"`,
without that suffix, or containing `'/'`; `"-.slice"` is the root; otherwise
split the trimmed name on `'-'` and build the nested chain. -/
def systemdExpandSlice (slice : List Char) : Option (List Char) :=
  if slice.length ≤ 6 then none
  else if sliceSuffix.isSuffixOf slice then
    if slice.contains '/' then none
    else
      let sliceName := slice.take (slice.length - 6)
      if sliceName = ['-'] then some ['/']
      else expandLoop [] [] (splitOnC '-' sliceName)
  else none

/-- `filepath.Join` on the shapes reachable here: the left part is either the
root `"/"` or an absolute clean path without a trailing slash, the right part
a single nonempty component. -/
def joinPath (a b : List Char) : List Char :=
  if a = ['/'] then '/' :: b else a ++ '/' :: b

/-- `ParseCgroupsPath`: inputs containing `'/'` pass through unchanged; a
`slice:prefix:name` triple expands the slice and resolves the name (appending
`prefix ++ "-"` and `".scope"` unless the name is itself a slice); anything
else is an error. -/
def parseCgroupsPath (input : List Char) : Option (List Char) :=
  if input.contains '/' then some input
  else
    match splitOnC ':' input with
    | [slice, pfx, nm] =>
      match systemdExpandSlice slice with
      | none => none
      | some ex =>
        if sliceSuffix.isSuffixOf nm then some (joinPath ex nm)
        else some (joinPath ex (pfx ++ '-' :: (nm ++ scopeSuffix)))
    | _ => none

/-- The spec's nested-chain description of slice expansion: component by
component, emit `"/" ++ prefix ++ component ++ ".slice"` while the prefix
accumulates `component ++ "-"`. -/
def chainOfComponents (pfx : List Char) : List (List Char) → List Char
  | [] => []
  | comp :: rest =>
    ('/' :: (pfx ++ comp ++ sliceSuffix)) ++ chainOfComponents (pfx ++ comp ++ ['-']) rest

theorem expandLoop_eq (comps : List (List Char)) : ∀ path pfx, [] ∉ comps →
    expandLoop path pfx comps = some (path ++ chainOfComponents pfx comps) := by
  induction comps with
  | nil => intro path pfx h; simp [expandLoop, chainOfComponents]
  | cons comp rest ih =>
    intro path pfx h
    simp only [List.mem_cons, not_or] at h
    simp only [expandLoop, chainOfComponents]
    rw [if_neg (fun hc => h.1 hc.symm), ih _ _ h.2]
    simp [List.append_assoc]

theorem expandLoop_none (comps : List (List Char)) : ∀ path pfx, [] ∈ comps →
    expandLoop path pfx comps = none := by
  induction comps with
  | nil => intro _ _ h; simp at h
  | cons comp rest ih =>
    intro path pfx h
    simp only [expandLoop]
    by_cases hc : comp = []
    · rw [if_pos hc]
    · rw [if_neg hc]
      rcases List.mem_cons.mp h with he | he
      · exact absurd he.symm hc
      · exact ih _ _ he

/-- **C6.** `ParseCgroupsPath` returns any input containing `'/'` unchanged;
a three-part `slice:prefix:name` input resolves to the expanded slice joined
with the name (if the name ends in `".slice"`) or with
`prefix ++ "-" ++ name ++ ".scope"`; expansion maps `"-.slice"` to the root,
rejects slices that are too short, lack the `".slice"` suffix, contain `'/'`
or have empty components, and otherwise builds the nested chain of `".slice"`
components; every other input form is an error; and the S2 example input
produces the S2 example output. -/
theorem c6_parse_cgroups_path :
    (∀ input : List Char, input.contains '/' = true → parseCgroupsPath input = some input) ∧
    (∀ input slice pfx nm ex, input.contains '/' = false →
      splitOnC ':' input = [slice, pfx, nm] → systemdExpandSlice slice = some ex →
      parseCgroupsPath input =
        if sliceSuffix.isSuffixOf nm then some (joinPath ex nm)
        else some (joinPath ex (pfx ++ '-' :: (nm ++ scopeSuffix)))) ∧
    (∀ input slice pfx nm, input.contains '/' = false →
      splitOnC ':' input = [slice, pfx, nm] → systemdExpandSlice slice = none →
      parseCgroupsPath input = none) ∧
    (∀ input, input.contains '/' = false → (splitOnC ':' input).length ≠ 3 →
      parseCgroupsPath input = none) ∧
    systemdExpandSlice (chars "-.slice") = some ['/'] ∧
    (∀ slice, slice.contains '/' = true → systemdExpandSlice slice = none) ∧
    (∀ slice, sliceSuffix.isSuffixOf slice = false → systemdExpandSlice slice = none) ∧
    (∀ slice, slice.length ≤ 6 → systemdExpandSlice slice = none) ∧
    (∀ slice, 6 < slice.length → sliceSuffix.isSuffixOf slice = true →
      slice.contains '/' = false → slice.take (slice.length - 6) ≠ ['-'] →
      [] ∉ splitOnC '-' (slice.take (slice.length - 6)) →
      systemdExpandSlice slice =
        some (chainOfComponents [] (splitOnC '-' (slice.take (slice.length - 6))))) ∧
    (∀ slice, 6 < slice.length → sliceSuffix.isSuffixOf slice = true →
      slice.contains '/' = false → slice.take (slice.length - 6) ≠ ['-'] →
      [] ∈ splitOnC '-' (slice.take (slice.length - 6)) →
      systemdExpandSlice slice = none) ∧
    parseCgroupsPath
      (chars "kubelet-kubepods-besteffort-pod83b0.slice:cri-containerd:18b2adc8") =
      some (chars
        "/kubelet.slice/kubelet-kubepods.slice/kubelet-kubepods-besteffort.slice/kubelet-kubepods-besteffort-pod83b0.slice/cri-containerd-18b2adc8.scope") := by
  refine ⟨?_, ?_, ?_, ?_, ?_, ?_, ?_, ?_, ?_, ?_, ?_⟩
  · intro input h
    simp only [parseCgroupsPath, h, if_true]
  · intro input slice pfx nm ex h1 h2 h3
    simp only [parseCgroupsPath, h1, Bool.false_eq_true, if_false, h2, h3]
  · intro input slice pfx nm h1 h2 h3
    simp only [parseCgroupsPath, h1, Bool.false_eq_true, if_false, h2, h3]
  · intro input h1 h2
    simp only [parseCgroupsPath, h1, Bool.false_eq_true, if_false]
    cases hL : splitOnC ':' input with
    | nil => rfl
    | cons a t1 =>
      cases t1 with
      | nil => rfl
      | cons b t2 =>
        cases t2 with
        | nil => rfl
        | cons cc t3 =>
          cases t3 with
          | nil => rw [hL] at h2; simp at h2
          | cons d t4 => rfl
  · rfl
  · intro slice h
    simp only [systemdExpandSlice]
    by_cases hl : slice.length ≤ 6
    · rw [if_pos hl]
    · rw [if_neg hl]
      by_cases hsuf : sliceSuffix.isSuffixOf slice
      · rw [if_pos hsuf, h, if_pos rfl]
      · rw [if_neg hsuf]
  · intro slice h
    simp only [systemdExpandSlice]
    by_cases hl : slice.length ≤ 6
    · rw [if_pos hl]
    · rw [if_neg hl, if_neg (fun hc => Bool.noConfusion (hc.symm.trans h))]
  · intro slice h
    simp only [systemdExpandSlice]
    rw [if_pos h]
  · intro slice hlen hsuf hsl hroot hnone
    simp only [systemdExpandSlice]
    rw [if_neg (by omega), if_pos hsuf, hsl, if_neg (by simp), if_neg hroot,
      expandLoop_eq _ _ _ hnone]
    simp
  · intro slice hlen hsuf hsl hroot hmem
    simp only [systemdExpandSlice]
    rw [if_neg (by omega), if_pos hsuf, hsl, if_neg (by simp), if_neg hroot,
      expandLoop_none _ _ _ hmem]
  · rfl

theorem c6_parse_cgroups_path_witness :
    (chars "a/b").contains '/' = true ∧
    parseCgroupsPath (chars "a/b") = some (chars "a/b") ∧
    systemdExpandSlice (chars "a-b.slice") = some (chars "/a.slice/a-b.slice") ∧
    parseCgroupsPath (chars "a-b.slice:runc:434234") =
      (if sliceSuffix.isSuffixOf (chars "434234") then
        some (joinPath (chars "/a.slice/a-b.slice") (chars "434234"))
      else some (joinPath (chars "/a.slice/a-b.slice")
        (chars "runc" ++ '-' :: (chars "434234" ++ scopeSuffix)))) := by
  have h9 := c6_parse_cgroups_path.2.2.2.2.2.2.2.2.1 (chars "a-b.slice")
    (by decide) (by decide) (by decide) (by decide) (by decide)
  have h2 := c6_parse_cgroups_path.2.1 (chars "a-b.slice:runc:434234")
    (chars "a-b.slice") (chars "runc") (chars "434234") (chars "/a.slice/a-b.slice")
    (by decide) (by decide) (by decide)
  exact ⟨by decide, c6_parse_cgroups_path.1 (chars "a/b") (by decide),
    h9.trans (by decide), h2⟩

/-! ## Controller detection (cgroup v1 / hybrid) -/

/-- First whitespace-separated field of a line (`strings.Fields(line)[0]`),
`none` when the line has no fields. -/
def firstField (l : List Char) : Option (List Char) :=
  let trimmed := l.dropWhile (fun c => c == ' ' || c == '\t')
  if trimmed = [] then none
  else some (trimmed.takeWhile (fun c => !(c == ' ' || c == '\t')))

/-- The scan loop of `findInterestingControllerV1` over the controller lines:
record each line's first field, error on a line with no fields, and stop once
`CgroupSubsysCount = 14` lines were taken (`fuel` is the number of lines still
allowed). -/
def scanControllers (fuel : Nat) : List (List Char) → Option (List (List Char))
  | [] => some []
  | line :: rest =>
    match firstField line with
    | none => none
    | some nm =>
      if fuel ≤ 1 then some [nm]
      else (scanControllers (fuel - 1) rest).map (nm :: ·)

/-- Zero-based index of the first occurrence of `target`. -/
def idxOfName (target : List Char) : List (List Char) → Option Nat
  | [] => none
  | n :: rest => if n = target then some 0 else (idxOfName target rest).map (· + 1)

/-- The two error cases of the controller scan. -/
inductive ControllerScanErr : Type
  | lineHasNoFields
  | noInterestingController
deriving DecidableEq

/-- `findInterestingControllerV1` over the lines of the cgroups proc file:
skip the header, scan at most 14 controller lines, then pick the first of
`memory`, `pids`, `cpu` that is present, with its zero-based index among the
listed controllers. -/
def findInterestingControllerV1 (lines : List (List Char)) :
    Except ControllerScanErr (List Char × Nat) :=
  match scanControllers 14 (lines.drop 1) with
  | none => .error .lineHasNoFields
  | some names =>
    match idxOfName (chars "memory") names with
    | some i => .ok (chars "memory", i)
    | none =>
      match idxOfName (chars "pids") names with
      | some i => .ok (chars "pids", i)
      | none =>
        match idxOfName (chars "cpu") names with
        | some i => .ok (chars "cpu", i)
        | none => .error .noInterestingController

theorem scanControllers_take (ls : List (List Char)) : ∀ fuel, 1 ≤ fuel →
    scanControllers fuel ls = scanControllers fuel (ls.take fuel) := by
  induction ls with
  | nil => intro fuel _; simp
  | cons line rest ih =>
    intro fuel hf
    match fuel, hf with
    | 1, _ =>
      cases hff : firstField line with
      | none => simp only [List.take, scanControllers, hff]
      | some nm =>
        simp only [List.take, scanControllers, hff]
        rw [if_pos (le_refl 1), if_pos (le_refl 1)]
    | (n + 2), _ =>
      cases hff : firstField line with
      | none => simp only [List.take, scanControllers, hff]
      | some nm =>
        simp only [List.take, scanControllers, hff]
        rw [if_neg (by omega), if_neg (by omega)]
        rw [show n + 2 - 1 = n + 1 from rfl]
        rw [ih (n + 1) (by omega)]

theorem scanControllers_all (ls : List (List Char)) : ∀ fuel, 1 ≤ fuel →
    (∀ l ∈ ls.take fuel, (firstField l).isSome = true) →
    scanControllers fuel ls =
      some ((ls.take fuel).map (fun l => (firstField l).getD [])) := by
  induction ls with
  | nil => intro fuel _ _; simp [scanControllers]
  | cons line rest ih =>
    intro fuel hf hall
    match fuel, hf with
    | 1, _ =>
      simp only [List.take, List.map] at hall ⊢
      have h0 := hall line (by simp)
      cases hff : firstField line with
      | none => rw [hff] at h0; cases h0
      | some nm =>
        simp only [scanControllers, hff]
        rw [if_pos (by omega)]
        simp [hff]
    | (n + 2), _ =>
      simp only [List.take, List.map] at hall ⊢
      have h0 := hall line (by simp)
      cases hff : firstField line with
      | none => rw [hff] at h0; cases h0
      | some nm =>
        simp only [scanControllers, hff]
        rw [if_neg (by omega)]
        rw [show n + 2 - 1 = n + 1 from rfl]
        rw [ih (n + 1) (by omega) (fun l hl => hall l (List.mem_cons_of_mem _ hl))]
        simp [hff]

theorem scanControllers_err (ls : List (List Char)) : ∀ fuel,
    (∃ l ∈ ls.take fuel, firstField l = none) → scanControllers fuel ls = none := by
  induction ls with
  | nil => intro fuel h; simp at h
  | cons line rest ih =>
    intro fuel h
    cases fuel with
    | zero => simp at h
    | succ n =>
      simp only [List.take] at h
      obtain ⟨l, hl, hff⟩ := h
      rcases List.mem_cons.mp hl with rfl | hl'
      · simp only [scanControllers, hff]
      · cases hff0 : firstField line with
        | none => simp only [scanControllers, hff0]
        | some nm =>
          simp only [scanControllers, hff0]
          by_cases h1 : n + 1 ≤ 1
          · have : n = 0 := by omega
            subst this
            simp at hl'
          · rw [if_neg h1]
            rw [Nat.add_sub_cancel, ih n ⟨l, hl', hff⟩]
            rfl

theorem idxOfName_spec (t : List Char) (l : List (List Char)) : ∀ i,
    idxOfName t l = some i ↔ l.get? i = some t ∧ ∀ j < i, l.get? j ≠ some t := by
  induction l with
  | nil => intro i; simp [idxOfName]
  | cons n rest ih =>
    intro i
    by_cases hn : n = t
    · subst hn
      simp only [idxOfName, if_pos rfl]
      cases i with
      | zero => simp [List.get?]
      | succ k =>
        simp only [List.get?]
        constructor
        · intro h; simp at h
        · rintro ⟨h1, h2⟩
          exact (h2 0 (Nat.succ_pos k) (by simp [List.get?])).elim
    · simp only [idxOfName, if_neg hn]
      cases i with
      | zero =>
        simp only [List.get?]
        constructor
        · intro h
          cases hr : idxOfName t rest with
          | none => rw [hr] at h; cases h
          | some k => rw [hr] at h; simp at h
        · rintro ⟨h1, _⟩
          exact absurd (Option.some.inj h1) hn
      | succ k =>
        simp only [List.get?]
        constructor
        · intro h
          cases hr : idxOfName t rest with
          | none => rw [hr] at h; cases h
          | some k' =>
            rw [hr] at h
            obtain rfl : k' = k := by simpa using h
            obtain ⟨h1, h2⟩ := (ih k').mp hr
            refine ⟨h1, ?_⟩
            intro j hj
            cases j with
            | zero =>
              simp only [List.get?]
              exact fun hh => hn (Option.some.inj hh)
            | succ j' =>
              simp only [List.get?]
              exact h2 j' (by omega)
        · rintro ⟨h1, h2⟩
          have hr : idxOfName t rest = some k := (ih k).mpr
            ⟨h1, fun j hj => by
              have := h2 (j + 1) (by omega)
              simpa [List.get?] using this⟩
          rw [hr]
          rfl

theorem idxOfName_eq_none (t : List Char) (l : List (List Char)) :
    idxOfName t l = none ↔ t ∉ l := by
  induction l with
  | nil => simp [idxOfName]
  | cons n rest ih =>
    simp only [idxOfName, List.mem_cons]
    by_cases hn : n = t
    · subst hn
      simp
    · rw [if_neg hn]
      constructor
      · intro h
        cases hr : idxOfName t rest with
        | none =>
          rw [not_or]
          exact ⟨fun he => hn he.symm, ih.mp hr⟩
        | some k => rw [hr] at h; simp at h
      · intro h
        rw [not_or] at h
        rw [ih.mpr h.2]
        rfl

/-- The S1 scenario: the cgroups proc file with `memory` as the third
controller line. -/
def s1Lines : List (List Char) :=
  [chars "#subsys_name hierarchy num_cgroups enabled",
   chars "cpuset 12 192 1",
   chars "cpu 7 610 1",
   chars "memory 13 623 1",
   chars "pids 4 613 1"]

/-- **C7.** Controller detection on a cgroup-v1/hybrid mount scans at most the
first 14 controller lines after the header of the cgroups proc file (the
result only depends on the first 15 lines), errors on a scanned line with no
fields, records each scanned line's first field, and selects the first
controller in the preference order memory, pids, cpu that is present,
returning its zero-based index among the listed controllers (`idxOfName` is
the zero-based index of the first occurrence); if none of the three is
present the detection fails.  In particular, with `memory` as the third
controller line the selected index is 2. -/
theorem c7_controller_detection :
    (∀ lines, findInterestingControllerV1 lines =
      findInterestingControllerV1 (lines.take 15)) ∧
    (∀ lines : List (List Char), (∃ l ∈ (lines.drop 1).take 14, firstField l = none) →
      findInterestingControllerV1 lines = .error .lineHasNoFields) ∧
    (∀ lines : List (List Char),
      (∀ l ∈ (lines.drop 1).take 14, (firstField l).isSome = true) →
      scanControllers 14 (lines.drop 1) =
        some (((lines.drop 1).take 14).map (fun l => (firstField l).getD []))) ∧
    (∀ (lines : List (List Char)) names, scanControllers 14 (lines.drop 1) = some names →
      (∀ i, idxOfName (chars "memory") names = some i →
        findInterestingControllerV1 lines = .ok (chars "memory", i)) ∧
      (∀ i, idxOfName (chars "memory") names = none →
        idxOfName (chars "pids") names = some i →
        findInterestingControllerV1 lines = .ok (chars "pids", i)) ∧
      (∀ i, idxOfName (chars "memory") names = none →
        idxOfName (chars "pids") names = none →
        idxOfName (chars "cpu") names = some i →
        findInterestingControllerV1 lines = .ok (chars "cpu", i)) ∧
      (chars "memory" ∉ names → chars "pids" ∉ names → chars "cpu" ∉ names →
        findInterestingControllerV1 lines = .error .noInterestingController)) ∧
    (∀ t l i, idxOfName t l = some i ↔
      l.get? i = some t ∧ ∀ j < i, l.get? j ≠ some t) ∧
    findInterestingControllerV1 s1Lines = .ok (chars "memory", 2) := by
  refine ⟨?_, ?_, ?_, ?_, ?_, ?_⟩
  · intro lines
    have hdt : (lines.take 15).drop 1 = (lines.drop 1).take 14 := by
      cases lines <;> rfl
    simp only [findInterestingControllerV1, hdt]
    rw [scanControllers_take (lines.drop 1) 14 (by omega)]
  · intro lines h
    simp only [findInterestingControllerV1, scanControllers_err _ 14 h]
  · intro lines h
    exact scanControllers_all (lines.drop 1) 14 (by omega) h
  · intro lines names hscan
    refine ⟨?_, ?_, ?_, ?_⟩
    · intro i h1
      simp only [findInterestingControllerV1, hscan, h1]
    · intro i h1 h2
      simp only [findInterestingControllerV1, hscan, h1, h2]
    · intro i h1 h2 h3
      simp only [findInterestingControllerV1, hscan, h1, h2, h3]
    · intro h1 h2 h3
      simp only [findInterestingControllerV1, hscan,
        (idxOfName_eq_none (chars "memory") names).mpr h1,
        (idxOfName_eq_none (chars "pids") names).mpr h2,
        (idxOfName_eq_none (chars "cpu") names).mpr h3]
  · exact idxOfName_spec
  · rfl

theorem c7_controller_detection_witness :
    scanControllers 14 (s1Lines.drop 1) =
      some [chars "cpuset", chars "cpu", chars "memory", chars "pids"] ∧
    idxOfName (chars "memory")
      [chars "cpuset", chars "cpu", chars "memory", chars "pids"] = some 2 ∧
    findInterestingControllerV1 s1Lines = .ok (chars "memory", 2) ∧
    findInterestingControllerV1 s1Lines = findInterestingControllerV1 (s1Lines.take 15) := by
  refine ⟨rfl, rfl, ?_, c7_controller_detection.1 s1Lines⟩
  exact (c7_controller_detection.2.2.2.1 s1Lines
    [chars "cpuset", chars "cpu", chars "memory", chars "pids"] rfl).1 2 rfl
